import Mathlib

/-!
# aligncsv: a Lean model of `aligncsv_v4.cc`

The program aligns several chromatography CSV files.  This development embeds
the parts of `main` that carry logic:

* the quote-aware scanner of data rows (source lines 527-591),
* the header reader and the composite column names (lines 284-471),
* the time parse of a data row (lines 592-623),
* the alignment loop and the row emission (lines 676-802),
* the final sort (lines 804-815).

Conventions of the embedding.

* A `std::string` is a `List Char`.
* A `float` is a value of the type `F32`: the finite numbers of IEEE 754
  binary32 as integer multiples of 2^-149, the two infinities and a NaN.  Sums,
  differences and products are rounded to nearest, ties to even; comparisons
  with a NaN are false.  The sign of zero and the payload of a NaN are not
  kept: nothing in the program reads them.  Expressions of type `float` are
  evaluated in `float`, operation by operation (as on x86-64).
* `std::sort` leaves the order of equal keys open, and when a NaN stands among
  different keys its comparison is no strict weak order and the order of the
  result is left to the algorithm; the model uses insertion sort for the order
  it states.
* Loops that the source does not bound take a fuel argument.
-/

namespace Aligncsv

/-- A `std::string`. -/
abbrev Str := List Char

/-! ## Data-row scanner (lines 527-591) -/

/-- The `++quotes` of an `unsigned` counter (32 bits). -/
def incQuotes (quotes : Nat) : Nat := (quotes + 1) % 4294967296

/-- The test that makes a comma end the current field (lines 543 and 572):
`quotes == 0 || (prev == '"' && (quotes & 1) == 0)`. -/
def commaEndsField (quotes : Nat) (prev : Char) : Bool :=
  quotes == 0 || (prev == '"' && quotes % 2 == 0)

/-- The first `while` of the row scanner (lines 536-553): collects
`chemicalName`; the result also carries `prev` and the unread rest of the line
(the iterator `it`, which has stepped over the comma that ended the name). -/
def scanChemicalName : Nat → Char → Str → Str → Str × Char × Str
  | _, prev, chemicalName, [] => (chemicalName, prev, [])
  | quotes, prev, chemicalName, c :: it =>
    let quotes := if c = '"' then incQuotes quotes else quotes
    if c = ',' ∧ commaEndsField quotes prev = true then (chemicalName, prev, it)
    else scanChemicalName quotes c (chemicalName ++ [c]) it

/-- The `while (1)` field loop (lines 560-591) with its inner scanning loop, as
one state machine over the rest of the line.  State: `quotes`, `prev`, the
`field` collected so far.  When a comma ends a field the field is pushed; the
outer loop stops if the line is exhausted and otherwise starts the next field
with `quotes = 0` and `field = ""` (`prev` is not reset).  A carriage return is
skipped without touching `prev`. -/
def scanFields : Nat → Char → Str → Str → List Str
  | _, _, field, [] => [field]
  | quotes, prev, field, c :: it =>
    let quotes := if c = '"' then incQuotes quotes else quotes
    if c = ',' ∧ commaEndsField quotes prev = true then
      if it.isEmpty then [field] else field :: scanFields 0 prev [] it
    else if c = '\r' then scanFields quotes prev field it
    else scanFields quotes c (field ++ [c]) it

/-- The scanner of one data row: `chemicalName` and the vector `Fields`. -/
def tokenize (aline : Str) : Str × List Str :=
  let r := scanChemicalName 0 (Char.ofNat 0) [] aline
  (r.1, scanFields 0 r.2.1 [] r.2.2)

/-! ### Encoded fields, as the specification describes them -/

/-- Unquoted text: no comma, no double quote, no carriage return. -/
def unquotedText (f : Str) : Bool :=
  f.all fun c => c != ',' && c != '"' && c != '\r'

/-- The inside of a quoted field: every double quote is doubled. -/
def quotedInterior : Str → Bool
  | [] => true
  | [c] => c != '"'
  | c :: d :: rest =>
    if c = '"' then d == '"' && quotedInterior rest else quotedInterior (d :: rest)

/-- A double-quote-wrapped text whose interior quotes are all doubled. -/
def quotedText : Str → Bool
  | [] => false
  | c :: rest => c == '"' && rest.getLast? == some '"' && quotedInterior rest.dropLast

/-- A field as the specification encodes it. -/
def encodedField (f : Str) : Bool := unquotedText f || quotedText f

/-- The comma-joined line of a list of fields. -/
def joinFields : List Str → Str
  | [] => []
  | [f] => f
  | f :: g :: fs => f ++ ',' :: joinFields (g :: fs)

/-! ## Header rows (lines 282-410) -/

/-- The cells that the loop `while (std::getline (sstream, field, ','))` sees on
one line: the pieces between commas.  A call that reaches the end of the line
without extracting a character fails, so the empty piece after a final comma
(and the single piece of an empty line) is not produced.  The first argument is
the piece collected so far. -/
def getlineFields : Str → Str → List Str
  | field, [] => if field.isEmpty then [] else [field]
  | field, c :: rest =>
    if c = ',' then field :: getlineFields [] rest else getlineFields (field ++ [c]) rest

/-- The `std::isspace` of the default locale. -/
def isspace (c : Char) : Bool :=
  c == ' ' || c == '\t' || c == '\n' || c == Char.ofNat 11 || c == Char.ofNat 12 || c == '\r'

/-- The variable `last_field` (line 255): it is set to the empty string and
never assigned again. -/
def last_field : Str := []

/-- The `empty_field` test of lines 304-314 for a non-empty cell: fewer than
three characters, all of them white space. -/
def virtuallyEmpty (field : Str) : Bool :=
  decide (field.length < 3) && field.all isspace

/-- The variables of a header loop. -/
structure HeaderScan where
  header : List Str
  count_empties : Int
  last_field_empty : Bool
  last_empty_field_counted : Bool
deriving DecidableEq

/-- The state before a header loop (lines 288-290, 345-350). -/
def HeaderScan.start : HeaderScan := ⟨[], 0, false, false⟩

/-- One pass of the first-header loop body (lines 293-323). -/
def header1Cell (s : HeaderScan) (field : Str) : HeaderScan :=
  if field.isEmpty then
    { header := s.header ++ [last_field], count_empties := s.count_empties + 1,
      last_field_empty := true, last_empty_field_counted := true }
  else if virtuallyEmpty field then
    { header := s.header ++ [last_field], count_empties := s.count_empties,
      last_field_empty := true, last_empty_field_counted := false }
  else
    { header := s.header ++ [field], count_empties := s.count_empties,
      last_field_empty := false, last_empty_field_counted := false }

/-- One pass of the second-header loop body (lines 353-384): as the first, but
an empty cell is pushed as it is. -/
def header2Cell (s : HeaderScan) (field : Str) : HeaderScan :=
  if field.isEmpty then
    { header := s.header ++ [field], count_empties := s.count_empties + 1,
      last_field_empty := true, last_empty_field_counted := true }
  else if virtuallyEmpty field then
    { header := s.header ++ [last_field], count_empties := s.count_empties,
      last_field_empty := true, last_empty_field_counted := false }
  else
    { header := s.header ++ [field], count_empties := s.count_empties,
      last_field_empty := false, last_empty_field_counted := false }

/-- The code after a header loop (lines 326-334, 386-394): `pop_back` when the
last cell was empty, and one count taken back when it had been counted. -/
def finishHeader (s : HeaderScan) : List Str × Int :=
  (if s.last_field_empty then s.header.dropLast else s.header,
   if s.last_empty_field_counted then s.count_empties - 1 else s.count_empties)

/-- Lines 284-334: the vector `header1` and `count_empties` of the first line. -/
def readHeader1 (aline : Str) : List Str × Int :=
  finishHeader ((getlineFields [] aline).foldl header1Cell HeaderScan.start)

/-- Lines 336-339: `header2_required`. -/
def header2_required (aline : Str) : Bool :=
  decide ((readHeader1 aline).2 ≠ 0)

/-- Lines 345-394: the vector `header2` and `count_empties` of the second line. -/
def readHeader2 (aline : Str) : List Str × Int :=
  finishHeader ((getlineFields [] aline).foldl header2Cell HeaderScan.start)

/-! ## Composite field names (lines 418-471) -/

/-- The `#define HEADER_SEPARATOR "@"`. -/
def HEADER_SEPARATOR : Str := ['@']

/-- What one pass of the composite loop computes: the composite name, the final
`suffix` and the new `last_suffix`. -/
structure CompositeCell where
  composite : Str
  suffix : Str
  last_suffix : Str
deriving DecidableEq

/-- One pass of the loop of lines 426-469 for the cells `header2[ich]` and
`header1[ich]`.  `composite[composite.length()-1]` on an empty string is outside
the string in the source; the model reads it as "not a quote". -/
def compositeCell (single_header : Bool) (last_suffix h2 h1 : Str) : CompositeCell :=
  let quoteFirst : Bool := h2.getLast? == some '"'
  let composite := if quoteFirst then h2.dropLast else h2
  let last_suffix' := if h1.length > 0 then h1 else last_suffix
  let suffix := if h1.length > 0 then h1 else if last_suffix.length > 0 then last_suffix else []
  let quote_suffix : Bool := suffix.head? == some '"'
  let suffix := if quote_suffix && single_header then suffix.tail else suffix
  let composite := if suffix.length > 0 then composite ++ HEADER_SEPARATOR ++ suffix else composite
  let composite :=
    if quoteFirst && composite.getLast? != some '"' then composite ++ ['"'] else composite
  let composite := if quote_suffix && !quoteFirst then '"' :: composite else composite
  ⟨composite, suffix, last_suffix'⟩

/-- The loop of lines 426-469 over `header2` and `header1` (both of
`record_size` cells), carrying `last_suffix`; one `CompositeCell` per column. -/
def compositeLoop (single_header : Bool) : Str → List Str → List Str → List CompositeCell
  | last_suffix, h2 :: header2, h1 :: header1 =>
    let c := compositeCell single_header last_suffix h2 h1
    c :: compositeLoop single_header c.last_suffix header2 header1
  | _, _, _ => []

/-- What reading the header of file `ifile` leaves behind: the local `fields`,
the cells pushed on the global `Header`, `Header1`, `Header2`, and
`DataColumns[ifile]`. -/
structure HeaderResult where
  required : Bool
  fields : List Str
  Header : List Str
  Header1 : List Str
  Header2 : List Str
  DataColumns : Int
deriving DecidableEq

/-- Lines 284-471 for the file with index `ifile`, whose first two lines are
`aline1` and `aline2` (the second is read only when it is required).  The error
values are the exit codes -2 and -3 of lines 399 and 404.  `DataColumns[ifile]`
starts at 0 (line 248), is incremented once per pass of the composite loop and
decremented once at line 471. -/
def processHeader (ifile : Nat) (single_header : Bool) (aline1 aline2 : Str) :
    Except Int HeaderResult :=
  let header1 := (readHeader1 aline1).1
  if header2_required aline1 then
    let header2 := (readHeader2 aline2).1
    if (readHeader2 aline2).2 ≠ 0 then Except.error (-2)
    else if header2.length ≠ header1.length then Except.error (-3)
    else
      let cells := compositeLoop single_header [] header2 header1
      let kept := (List.zip cells header2).enum.filter fun x => ifile == 0 || decide (x.1 > 0)
      Except.ok
        { required := true
          fields := cells.map CompositeCell.composite
          Header := cells.map CompositeCell.composite
          Header1 := kept.map fun x => x.2.1.suffix
          Header2 := kept.map fun x => x.2.2
          DataColumns := (0 + (cells.length : Int)) - 1 }
  else
    Except.ok
      { required := false
        fields := header1
        Header := []
        Header1 := []
        Header2 := []
        DataColumns := 0 - 1 }

/-! ## Single-precision numbers (the type `float`) -/

/-- How many binary digits `n` has beyond 24, counted with fuel. -/
def excessBits : Nat → Nat → Nat
  | 0, _ => 0
  | fuel + 1, n => if n < 2 ^ 24 then 0 else excessBits fuel (n / 2) + 1

/-- The exponent of the unit in the last place of a magnitude of `n` units of
2^-149: 0 up to 2^24 units (subnormal numbers and the first binade), one more
for each further binade. -/
def ulpExp (n : Nat) : Nat := excessBits n n

/-- Round to nearest, ties to even: the natural number nearest to `y ≥ 0`. -/
def roundHalfEven (y : ℚ) : Nat :=
  if y - ⌊y⌋₊ < 1 / 2 then ⌊y⌋₊
  else if 1 / 2 < y - ⌊y⌋₊ then ⌊y⌋₊ + 1
  else if ⌊y⌋₊ % 2 = 0 then ⌊y⌋₊ else ⌊y⌋₊ + 1

/-- The magnitude `x ≥ 0`, in units of 2^-149, rounded to 24 significant binary
digits (to a multiple of the unit in the last place of its binade). -/
def roundUnits (x : ℚ) : Nat :=
  roundHalfEven (x / 2 ^ ulpExp ⌊x⌋₊) * 2 ^ ulpExp ⌊x⌋₊

/-- Whether `n` units of 2^-149 are the magnitude of a finite `float`: at most 24
significant binary digits, and below 2^128. -/
def isUnits (n : Nat) : Bool := n % 2 ^ ulpExp n == 0 && decide (n < 2 ^ 277)

/-- A value of type `float` (IEEE 754 binary32): a finite number, counted in
units of 2^-149, an infinity, or a NaN.  The sign of zero is not kept: the
program only adds, subtracts, multiplies and compares, which do not tell -0
from +0. -/
inductive F32 where
  | fin (n : Int) (h : isUnits n.natAbs = true)
  | inf (neg : Bool)
  | nan
deriving DecidableEq

/-- The finite `float` of the given sign and magnitude in units, or the
infinity of that sign when the magnitude is not one of a finite `float`. -/
def F32.ofUnits (neg : Bool) (n : Nat) : F32 :=
  if h : isUnits n = true then
    F32.fin (if neg then -(n : Int) else (n : Int)) (by cases neg <;> simpa using h)
  else F32.inf neg

/-- The `float` nearest to a rational number (round to nearest, ties to even;
an infinity beyond the largest finite number). -/
def F32.ofRat (q : ℚ) : F32 := F32.ofUnits (decide (q < 0)) (roundUnits (|q| * 2 ^ 149))

/-- The rational value of a finite `float`. -/
def F32.toRat? : F32 → Option ℚ
  | F32.fin n _ => some ((n : ℚ) / 2 ^ 149)
  | _ => none

/-- The comparison `a < b` of two `float`s: false when either is a NaN. -/
def F32.lt : F32 → F32 → Bool
  | F32.fin a _, F32.fin b _ => decide (a < b)
  | F32.fin _ _, F32.inf neg => !neg
  | F32.inf neg, F32.fin _ _ => neg
  | F32.inf a, F32.inf b => a && !b
  | _, _ => false

/-- The comparison `a <= b` of two `float`s: false when either is a NaN. -/
def F32.le : F32 → F32 → Bool
  | F32.fin a _, F32.fin b _ => decide (a ≤ b)
  | F32.fin _ _, F32.inf neg => !neg
  | F32.inf neg, F32.fin _ _ => neg
  | F32.inf a, F32.inf b => a || !b
  | _, _ => false

instance : LT F32 := ⟨fun a b => F32.lt a b = true⟩
instance : LE F32 := ⟨fun a b => F32.le a b = true⟩
instance (a b : F32) : Decidable (a < b) := inferInstanceAs (Decidable (F32.lt a b = true))
instance (a b : F32) : Decidable (a ≤ b) := inferInstanceAs (Decidable (F32.le a b = true))

/-- The sum of two `float`s, rounded. -/
def F32.add : F32 → F32 → F32
  | F32.fin a _, F32.fin b _ => F32.ofRat (((a + b : Int) : ℚ) / 2 ^ 149)
  | F32.fin _ _, F32.inf s => F32.inf s
  | F32.inf s, F32.fin _ _ => F32.inf s
  | F32.inf a, F32.inf b => if a = b then F32.inf a else F32.nan
  | _, _ => F32.nan

/-- The negative of a `float`. -/
def F32.neg : F32 → F32
  | F32.fin a h => F32.fin (-a) (by rw [Int.natAbs_neg]; exact h)
  | F32.inf s => F32.inf (!s)
  | F32.nan => F32.nan

/-- The product of two `float`s, rounded. -/
def F32.mul : F32 → F32 → F32
  | F32.fin a _, F32.fin b _ => F32.ofRat (((a * b : Int) : ℚ) / 2 ^ 298)
  | F32.fin a _, F32.inf s => if a = 0 then F32.nan else F32.inf (decide (a < 0) != s)
  | F32.inf s, F32.fin b _ => if b = 0 then F32.nan else F32.inf (s != decide (b < 0))
  | F32.inf a, F32.inf b => F32.inf (a != b)
  | _, _ => F32.nan

/-- The quotient of two `float`s, rounded (a zero divisor counts as +0).  The
program does not divide; the quotient of two small whole numbers, such as
`1 / 100`, writes the `float` nearest to a decimal, which is what `strtof`
returns for its text. -/
def F32.div : F32 → F32 → F32
  | F32.fin a _, F32.fin b _ =>
    if b = 0 then (if a = 0 then F32.nan else F32.inf (decide (a < 0)))
    else F32.ofRat ((a : ℚ) / (b : ℚ))
  | F32.fin _ _, F32.inf _ => F32.fin 0 (by decide!)
  | F32.inf s, F32.fin b _ => F32.inf (s != decide (b < 0))
  | _, _ => F32.nan

/-- The function `std::abs` on `float`. -/
def F32.abs : F32 → F32
  | F32.fin a h => F32.fin |a| (by rw [Int.natAbs_abs]; exact h)
  | F32.inf _ => F32.inf false
  | F32.nan => F32.nan

instance : Add F32 := ⟨F32.add⟩
instance : Neg F32 := ⟨F32.neg⟩
instance : Sub F32 := ⟨fun a b => F32.add a (F32.neg b)⟩
instance : Mul F32 := ⟨F32.mul⟩
instance : Div F32 := ⟨F32.div⟩
instance (n : Nat) : OfNat F32 n := ⟨F32.ofRat n⟩

/-! ## Records and the reader of data rows (lines 105-123, 592-623) -/

/-- The class `ChemRecord`: the fields that follow the chemical name, and the
time.  The member `time2` is never read or written by the program and is left
out. -/
structure ChemRecord where
  fields : List Str
  time1 : F32
deriving DecidableEq

/-- The member function `nfields`. -/
def ChemRecord.nfields (c : ChemRecord) : Nat := c.fields.length

/-- The comparison `ChemRecord::higher`. -/
def ChemRecord.higher (c1 c2 : ChemRecord) : Bool := decide (c1.time1 > c2.time1)

/-- The global `ChemRecord NA`: no fields, zero-initialised time. -/
def NA : ChemRecord := ⟨[], 0⟩

/-- The C library's `strtof` as the reader uses it: the value and the unread
text at `ppend`.  The reader below takes such a function as a parameter. -/
abbrev Strtof := Str → F32 × Str

/-- What reading one data row gives: a stored record, the fatal exit of line
614, or behaviour the language leaves undefined (`Fields[1]` outside the
vector, or a text that fills the 128-byte buffer without a terminator). -/
inductive RowResult where
  | stored (chemicalName : Str) (chemrecord : ChemRecord)
  | fatal
  | undefined
deriving DecidableEq

/-- The text that `ppstring` points at (lines 601-609): the bytes of the field
up to a NUL, without one leading double quote. -/
def timeText (field : Str) : Str :=
  let pstring := field.takeWhile fun c => c != Char.ofNat 0
  if pstring.head? == some '"' then pstring.tail else pstring

/-- Lines 527-616 for one line of a data file: scan the row, parse the time from
`Fields[1]`, check it (line 612) and build the record.  The test `stime == 0`
refuses a zero of either sign and nothing else: an infinity or a NaN is
stored. -/
def readRow (strtof : Strtof) (aline : Str) : RowResult :=
  let Fields := (tokenize aline).2
  match Fields[1]? with
  | none => RowResult.undefined
  | some field =>
    if (field.takeWhile fun c => c != Char.ofNat 0).length ≥ 128 then RowResult.undefined
    else
      let r := strtof (timeText field)
      let stime := r.1
      let ppend := r.2
      if stime = 0 ∨ (ppend.head? ≠ none ∧ ppend.head? ≠ some '"') then RowResult.fatal
      else RowResult.stored (tokenize aline).1 ⟨Fields, stime⟩

/-- The map `FileData`: the records of each chemical name of one file, in the
order read; a name that is not a key has no records. -/
abbrev FileData := Str → List ChemRecord

/-- Lines 617-623: append the record to the vector of its chemical name. -/
def storeRecord (fd : FileData) (chemicalName : Str) (chemrecord : ChemRecord) : FileData :=
  fun key => if key = chemicalName then fd key ++ [chemrecord] else fd key

/-! ### A `strtof` for concrete runs -/

/-- The value of a decimal digit. -/
def digitValue (c : Char) : Option Nat :=
  if '0' ≤ c ∧ c ≤ '9' then some (c.toNat - 48) else none

/-- Reads decimal digits: the number read so far, how many digits, the rest. -/
def readDigits : Nat → Nat → Str → Nat × Nat × Str
  | value, count, [] => (value, count, [])
  | value, count, c :: rest =>
    match digitValue c with
    | some d => readDigits (10 * value + d) (count + 1) rest
    | none => (value, count, c :: rest)

/-- The exponent part `e[+-]digits` of a decimal number, if there is one: the
power of ten as a rational and the rest of the text. -/
def readExponent (s : Str) : ℚ × Str :=
  match s with
  | c :: rest =>
    if c = 'e' ∨ c = 'E' then
      let neg : Bool := rest.head? == some '-'
      let digits := if rest.head? == some '-' ∨ rest.head? == some '+' then rest.tail else rest
      let r := readDigits 0 0 digits
      if r.2.1 = 0 then (1, s)
      else (if neg then (1 / 10 ^ r.1 : ℚ) else (10 ^ r.1 : ℚ), r.2.2)
    else (1, s)
  | [] => (1, s)

/-- The value of a hexadecimal digit. -/
def hexValue (c : Char) : Option Nat :=
  if '0' ≤ c ∧ c ≤ '9' then some (c.toNat - 48)
  else if 'a' ≤ c ∧ c ≤ 'f' then some (c.toNat - 87)
  else if 'A' ≤ c ∧ c ≤ 'F' then some (c.toNat - 55)
  else none

/-- Reads hexadecimal digits: the number read so far, how many digits, the
rest. -/
def readHexDigits : Nat → Nat → Str → Nat × Nat × Str
  | value, count, [] => (value, count, [])
  | value, count, c :: rest =>
    match hexValue c with
    | some d => readHexDigits (16 * value + d) (count + 1) rest
    | none => (value, count, c :: rest)

/-- The exponent part `p[+-]digits` of a hexadecimal number, if there is one:
the power of two and the rest of the text. -/
def readBinaryExponent (s : Str) : ℚ × Str :=
  match s with
  | c :: rest =>
    if c = 'p' ∨ c = 'P' then
      let neg : Bool := rest.head? == some '-'
      let digits := if rest.head? == some '-' ∨ rest.head? == some '+' then rest.tail else rest
      let r := readDigits 0 0 digits
      if r.2.1 = 0 then (1, s)
      else (if neg then (1 / 2 ^ r.1 : ℚ) else (2 ^ r.1 : ℚ), r.2.2)
    else (1, s)
  | [] => (1, s)

/-- The hexadecimal number that follows `0x`: hexadecimal digits with an
optional point (one digit at least), optional binary exponent. -/
def readHexNumber (s : Str) : Option (ℚ × Str) :=
  let ip := readHexDigits 0 0 s
  let fp := if ip.2.2.head? == some '.' then readHexDigits 0 0 ip.2.2.tail else (0, 0, ip.2.2)
  if ip.2.1 + fp.2.1 = 0 then none
  else
    let m : ℚ := (ip.1 : ℚ) + (fp.1 : ℚ) / 16 ^ fp.2.1
    let e := readBinaryExponent fp.2.2
    some (m * e.1, e.2)

/-- The text after `nan`: a parenthesis with letters, digits and underscores up
to its closing parenthesis belongs to the NaN; anything else is left. -/
def afterNan (s : Str) : Str :=
  match s with
  | '(' :: rest =>
    let tail := rest.dropWhile fun c => c.isAlphanum || c == '_'
    if tail.head? == some ')' then tail.tail else s
  | _ => s

/-- A model of `strtof` (C locale): white space, sign, then decimal digits with
an optional point and an optional exponent, or `0x` and hexadecimal digits with
an optional point and an optional binary exponent, or one of the words `inf`,
`infinity`, `nan`, `nan(...)` in any case of letters; the value, rounded to the
nearest `float` (an infinity beyond the range), and the text not consumed.
Without a digit or word nothing is converted: the value is 0 and the whole text
is left. -/
def strtofDecimal : Strtof := fun s =>
  let s1 := s.dropWhile isspace
  let neg : Bool := s1.head? == some '-'
  let s2 := if s1.head? == some '-' ∨ s1.head? == some '+' then s1.tail else s1
  if (s2.take 8).map Char.toLower = "infinity".toList then (F32.inf neg, s2.drop 8)
  else if (s2.take 3).map Char.toLower = "inf".toList then (F32.inf neg, s2.drop 3)
  else if (s2.take 3).map Char.toLower = "nan".toList then (F32.nan, afterNan (s2.drop 3))
  else
    match (if (s2.take 2).map Char.toLower = "0x".toList then readHexNumber (s2.drop 2)
      else none) with
    | some h => (F32.ofRat (if neg then -h.1 else h.1), h.2)
    | none =>
      let ip := readDigits 0 0 s2
      let fp := if ip.2.2.head? == some '.' then readDigits 0 0 ip.2.2.tail else (0, 0, ip.2.2)
      if ip.2.1 + fp.2.1 = 0 then (0, s)
      else
        let m : ℚ := (ip.1 : ℚ) + (fp.1 : ℚ) / 10 ^ fp.2.1
        let e := readExponent fp.2.2
        (F32.ofRat ((if neg then -m else m) * e.1), e.2)

/-! ## The alignment loop for one chemical (lines 680-801) -/

/-- The `-d` handling of lines 182-189: `afraction` is true unless the
tolerance is at least 1. -/
def afraction (adiff : F32) : Bool := !decide (adiff ≥ 1)

/-- The call `std::sort (begin, end, ChemRecord::higher)`: a sequence in which
no record is followed by one `higher` than it.  Insertion sort fixes the order
among equal times, which `std::sort` leaves open, and the order in which a NaN
among the times leaves the others. -/
def sortHigher (bucket : List ChemRecord) : List ChemRecord :=
  bucket.insertionSort fun c1 c2 => ¬ (ChemRecord.higher c2 c1 = true)

/-- The variables of the first loop over the files (lines 686-726); `buckets`
collects the vectors `AllFileData[ifile][keychem]` as the loop leaves them. -/
structure Selection where
  lowest_recs : List ChemRecord
  buckets : List (List ChemRecord)
  lowest_time1 : F32
  second_lowest_time1 : F32
  more_data_seen : Bool
deriving DecidableEq

/-- The update `if (x == 0 || x > t) x = t` of lines 704-707 and 718-721.  The
test `x == 0` holds for the zero of the model, which stands for both zeros, and
for no other value (not for a NaN). -/
def lowerTo (x t : F32) : F32 := if x = 0 ∨ x > t then t else x

/-- One pass of the first loop (lines 694-725) for a file whose vector for the
chemical is `bucket` (empty when the file does not have the chemical). -/
def selectFile (s : Selection) (bucket : List ChemRecord) : Selection :=
  if bucket.length ≠ 0 then
    let sorted := sortHigher bucket
    let lowest := sorted.getLastD NA
    let rest := sorted.dropLast
    if rest.isEmpty then
      { lowest_recs := s.lowest_recs ++ [lowest]
        buckets := s.buckets ++ [rest]
        lowest_time1 := lowerTo s.lowest_time1 lowest.time1
        second_lowest_time1 := s.second_lowest_time1
        more_data_seen := s.more_data_seen }
    else
      { lowest_recs := s.lowest_recs ++ [lowest]
        buckets := s.buckets ++ [rest]
        lowest_time1 := lowerTo s.lowest_time1 lowest.time1
        second_lowest_time1 := lowerTo s.second_lowest_time1 (rest.getLastD NA).time1
        more_data_seen := true }
  else
    { lowest_recs := s.lowest_recs ++ [NA]
      buckets := s.buckets ++ [bucket]
      lowest_time1 := s.lowest_time1
      second_lowest_time1 := s.second_lowest_time1
      more_data_seen := s.more_data_seen }

/-- The first loop over the files (lines 686-726). -/
def selectCandidates (buckets : List (List ChemRecord)) : Selection :=
  buckets.foldl selectFile ⟨[], [], 0, 0, false⟩

/-- The `cutoff` of lines 737-742, computed in `float`: the `int` 1 becomes the
`float` 1, the sum `1 + adiff` is rounded, and so is its product with
`lowest_time1` (or the sum `lowest_time1 + adiff`). -/
def cutoff (adiff lowest_time1 : F32) : F32 :=
  if afraction adiff then (1 + adiff) * lowest_time1 else lowest_time1 + adiff

/-- The flag `pushback` of lines 743-751 for one `test_record`; the two
differences are rounded `float` differences and `std::abs` is the `float`
overload (`<cmath>` is included). -/
def pushback (adiff lowest_time1 second_lowest_time1 : F32) (test_record : ChemRecord) : Bool :=
  if test_record.nfields ≠ 0 then
    if test_record.time1 > cutoff adiff lowest_time1 then true
    else if test_record.time1 - lowest_time1 >
        F32.abs (second_lowest_time1 - test_record.time1) then
      true
    else false
  else false

/-- The state after the second loop of one grouping step. -/
structure Step where
  lowest_recs : List ChemRecord
  buckets : List (List ChemRecord)
  lowest_time1 : F32
  second_lowest_time1 : F32
  more_data_seen : Bool
deriving DecidableEq

/-- One grouping step up to line 760: the first loop, then the second loop
(lines 734-760), which for every file with `pushback` appends the record to the
file's vector again, puts `NA` in its place and sets `more_data_seen`.  The
passes of the second loop do not depend on each other, so each component is
written as a map over the files. -/
def groupingStep (adiff : F32) (buckets : List (List ChemRecord)) : Step :=
  let s := selectCandidates buckets
  let pb := pushback adiff s.lowest_time1 s.second_lowest_time1
  { lowest_recs := s.lowest_recs.map fun r => if pb r then NA else r
    buckets := List.zipWith (fun r b => if pb r then b ++ [r] else b) s.lowest_recs s.buckets
    lowest_time1 := s.lowest_time1
    second_lowest_time1 := s.second_lowest_time1
    more_data_seen := s.more_data_seen || s.lowest_recs.any pb }

/-! ### Row emission (lines 762-800) -/

/-- The inner loop of lines 775-786: a comma and the field, for the fields
whose 1-based `column` does not exceed `DataColumns[ifile]`. -/
def emitFields (dataColumns : Int) : Int → List Str → Str
  | _, [] => []
  | column, field :: rest =>
    if column + 1 > dataColumns then []
    else ',' :: field ++ emitFields dataColumns (column + 1) rest

/-- The loop of lines 790-794: one comma per data column. -/
def emitBlanks (dataColumns : Int) : Str := List.replicate dataColumns.toNat ','

/-- The loop of lines 767-796 over the files: what is appended to `outline`
after the chemical name. -/
def accumulate : List ChemRecord → List Int → Str
  | r :: lowest_recs, dc :: DataColumns =>
    (if r.nfields ≠ 0 then emitFields dc 0 r.fields else emitBlanks dc) ++
      accumulate lowest_recs DataColumns
  | _, _ => []

/-- The flag `unfound` after the loop of lines 767-796. -/
def unfound (lowest_recs : List ChemRecord) : Bool :=
  lowest_recs.any fun r => r.nfields == 0

/-- The row that one grouping step forms: the chemical, `lowest_recs` as it is
at line 766 (`NA` where a file is blank) and `lowest_time1`. -/
structure AlignedRow where
  keychem : Str
  lowest_recs : List ChemRecord
  time1 : F32
deriving DecidableEq

/-- The text `outline` of a row at line 797. -/
def outline (DataColumns : List Int) (LineTerminator : Str) (row : AlignedRow) : Str :=
  row.keychem ++ accumulate row.lowest_recs DataColumns ++ LineTerminator

/-- The result of the `while (more_data_seen)` loop, run with some fuel: the
rows pushed on `OutputLines`, the vectors left, and whether the loop ended
(`more_data_seen` false) before the fuel did. -/
structure LoopResult where
  rows : List AlignedRow
  buckets : List (List ChemRecord)
  finished : Bool
deriving DecidableEq

/-- The loop of lines 681-801 for one chemical; each unit of fuel pays for one
grouping step.  A row is pushed when `!unfound || !restricted` (line 798). -/
def alignLoop (adiff : F32) (restricted : Bool) (keychem : Str) :
    Nat → List (List ChemRecord) → LoopResult
  | 0, buckets => ⟨[], buckets, false⟩
  | fuel + 1, buckets =>
    let st := groupingStep adiff buckets
    let row : AlignedRow := ⟨keychem, st.lowest_recs, st.lowest_time1⟩
    let out := if !unfound st.lowest_recs || !restricted then [row] else []
    if st.more_data_seen then
      let r := alignLoop adiff restricted keychem fuel st.buckets
      ⟨out ++ r.rows, r.buckets, r.finished⟩
    else ⟨out, st.buckets, true⟩

/-- The loop of lines 676-802 over the set `Chemicals` (in its iteration order):
the rows pushed on `OutputLines`, and whether every chemical's loop ended within
the fuel.  A chemical whose loop did not end keeps the later ones from running. -/
def alignAll (adiff : F32) (restricted : Bool) (fuel : Nat) (AllFileData : List FileData) :
    List Str → List AlignedRow × Bool
  | [] => ([], true)
  | keychem :: Chemicals =>
    let r := alignLoop adiff restricted keychem fuel (AllFileData.map fun fd => fd keychem)
    if r.finished then
      let rs := alignAll adiff restricted fuel AllFileData Chemicals
      (r.rows ++ rs.1, rs.2)
    else (r.rows, false)

/-! ## The output (lines 125-133, 804-815) -/

/-- The class `OutputRecord`. -/
structure OutputRecord where
  line : Str
  time1 : F32
deriving DecidableEq

/-- The comparison `OutputRecord::lower`. -/
def OutputRecord.lower (r1 r2 : OutputRecord) : Bool := decide (r1.time1 < r2.time1)

/-- The record pushed on `OutputLines` for a row (line 799). -/
def toOutputRecord (DataColumns : List Int) (LineTerminator : Str) (row : AlignedRow) :
    OutputRecord :=
  ⟨outline DataColumns LineTerminator row, row.time1⟩

/-- The call `std::sort (begin, end, OutputRecord::lower)` of line 806: a
sequence in which no record is followed by one `lower` than it (insertion sort
fixes the order among equal times, and the order in which a NaN among the times
leaves the others). -/
def sortLower (OutputLines : List OutputRecord) : List OutputRecord :=
  OutputLines.insertionSort fun r1 r2 => ¬ (OutputRecord.lower r2 r1 = true)

/-- The lines written by the loop of lines 811-815. -/
def writtenLines (OutputLines : List OutputRecord) : List Str :=
  (sortLower OutputLines).map OutputRecord.line

/-! ## Notions used to state the properties -/

/-- The emitted rows in the order in which the sort of line 806 leaves their
records: insertion sort on the representative time of the rows. -/
def sortRows (rows : List AlignedRow) : List AlignedRow :=
  rows.insertionSort fun r1 r2 => ¬ (r2.time1 < r1.time1)

/-- The record that the first loop takes from a file's vector. -/
def candidate (bucket : List ChemRecord) : ChemRecord :=
  if bucket.length ≠ 0 then (sortHigher bucket).getLastD NA else NA

/-- The vector that the first loop leaves for a file. -/
def remainder (bucket : List ChemRecord) : List ChemRecord :=
  if bucket.length ≠ 0 then (sortHigher bucket).dropLast else bucket

/-- The detection that file `f` contributes to a row, if it does: the entry of
`lowest_recs` at `f` when it has fields (`NA` has none). -/
def contribution (f : Nat) (row : AlignedRow) : List ChemRecord :=
  (row.lowest_recs[f]?).toList.filter fun r => r.nfields != 0

/-- The detections of file `f` that appear in a sequence of rows. -/
def detectionsOf (f : Nat) (rows : List AlignedRow) : List ChemRecord :=
  rows.flatMap (contribution f)

/-- The number of records in the vectors of one chemical. -/
def totalRecords (buckets : List (List ChemRecord)) : Nat :=
  (buckets.map List.length).sum

/-- Whether every file contributes a detection to the row (no file is blank). -/
def everyFileContributes (row : AlignedRow) : Bool :=
  row.lowest_recs.all fun r => r.nfields != 0

/-- A detection for concrete runs: a first field, then the time as text. -/
def exampleDetection (first timeText : String) (time1 : F32) : ChemRecord :=
  ⟨[first.toList, timeText.toList], time1⟩

/-- A file whose only chemical is `X`, with the given records. -/
def exampleFile (records : List ChemRecord) : FileData :=
  records.foldl (fun fd r => storeRecord fd "X".toList r) fun _ => []

/-! ### Header rows as lists of cells -/

/-- A blank header cell as the reader treats it: empty, or white space of at
most two characters. -/
def blankCell (c : Str) : Bool := c.isEmpty || virtuallyEmpty c

/-- What the reader keeps of a header cell: nothing of a blank cell. -/
def keptCell (c : Str) : Str := if blankCell c then [] else c

/-- The qualifier of column `i`, in the words of the specification: the cell
`i` of row 1 if it is not blank, else the nearest cell to its left that is not
blank, if there is one. -/
def qualifier (row1 : List Str) (i : Nat) : Option Str :=
  (row1.take (i + 1)).reverse.find? fun c => !blankCell c

/-- A row-2 cell with its qualifier: the cell, then `@` and the qualifier when
there is one. -/
def withQualifier (cell : Str) : Option Str → Str
  | some q => cell ++ HEADER_SEPARATOR ++ q
  | none => cell

/-- The composite identity of column `i`, in the words of the specification. -/
def specComposite (row1 row2 : List Str) (i : Nat) : Str :=
  withQualifier (row2.getD i []) (qualifier row1 i)

/-- The last cell that is not blank among the cells `pre`, or the empty string:
the value of `last_suffix` after these cells. -/
def carried (pre : List Str) : Str :=
  (pre.reverse.find? fun c => !blankCell c).getD []

/-! ### The fields of an output row -/

/-- The fields that a file adds to a row: of a detection the fields whose
1-based column does not exceed the data-column count, of a blank file one empty
field per data column. -/
def fileFields (dataColumns : Int) (r : ChemRecord) : List Str :=
  if r.nfields ≠ 0 then r.fields.take dataColumns.toNat
  else List.replicate dataColumns.toNat []

/-- The fields of a row after the chemical name, file after file. -/
def rowFields : List ChemRecord → List Int → List Str
  | r :: lowest_recs, dc :: DataColumns => fileFields dc r ++ rowFields lowest_recs DataColumns
  | _, _ => []

/-- A sequence of fields written with a comma before each. -/
def commaFields (fields : List Str) : Str := fields.flatMap fun f => ',' :: f

/-! ## The run as a whole (lines 261-668, 804-821) -/

/-- Why the reading of the files stops: an early `return` of `main` with its
exit code, or behaviour the language leaves undefined. -/
inductive Stop where
  | exit (code : Int)
  | undefined
deriving DecidableEq

/-- The call `Chemicals.insert (chemicalName)` on the `std::set`, kept as the
list of its elements in iteration order (ascending, no repetition). -/
def insertChemical (chemicalName : Str) : List Str → List Str
  | [] => [chemicalName]
  | c :: Chemicals =>
    if chemicalName = c then c :: Chemicals
    else if chemicalName < c then chemicalName :: c :: Chemicals
    else c :: insertChemical chemicalName Chemicals

/-- The loop `while (getline (infile[ifile], aline))` of lines 520-625 over the
data lines of one file: every line is scanned, its chemical name is inserted in
`Chemicals` (line 554) and its record appended to the file's `FileData`.  A line
whose time is rejected ends the run with exit code -1 (line 614). -/
def readRows (strtof : Strtof) : List Str → FileData → List Str →
    Except Stop (FileData × List Str)
  | [], fd, Chemicals => Except.ok (fd, Chemicals)
  | aline :: rest, fd, Chemicals =>
    match readRow strtof aline with
    | RowResult.stored chemicalName chemrecord =>
      readRows strtof rest (storeRecord fd chemicalName chemrecord)
        (insertChemical chemicalName Chemicals)
    | RowResult.fatal => Except.error (Stop.exit (-1))
    | RowResult.undefined => Except.error Stop.undefined

/-- The global vectors after some files have been read, and the value that
`header2_required` has after the last of them. -/
structure Globals where
  Header : List Str
  Header1 : List Str
  Header2 : List Str
  DataColumns : List Int
  AllFileData : List FileData
  Chemicals : List Str
  required : Bool

/-- The globals before the first file. -/
def Globals.start : Globals := ⟨[], [], [], [], [], [], false⟩

/-- One pass of the loop over the files (lines 261-631) for the file `ifile`
with the given lines: the header (a missing line reads as the empty string),
then the data lines, which start after the second header line when it is
required and after the first otherwise. -/
def readFile (strtof : Strtof) (single_header : Bool) (ifile : Nat) (lines : List Str)
    (g : Globals) : Except Stop Globals :=
  match processHeader ifile single_header (lines.headD []) (lines.tail.headD []) with
  | Except.error code => Except.error (Stop.exit code)
  | Except.ok res =>
    match readRows strtof (if res.required then lines.drop 2 else lines.drop 1)
        (fun _ => []) g.Chemicals with
    | Except.error e => Except.error e
    | Except.ok r =>
      Except.ok
        { Header := g.Header ++ res.Header
          Header1 := g.Header1 ++ res.Header1
          Header2 := g.Header2 ++ res.Header2
          DataColumns := g.DataColumns ++ [res.DataColumns]
          AllFileData := g.AllFileData ++ [r.1]
          Chemicals := r.2
          required := res.required }

/-- The loop over the files, from file index `ifile` on. -/
def readFiles (strtof : Strtof) (single_header : Bool) :
    Nat → List (List Str) → Globals → Except Stop Globals
  | _, [], g => Except.ok g
  | ifile, lines :: files, g =>
    match readFile strtof single_header ifile lines g with
    | Except.error e => Except.error e
    | Except.ok g' => readFiles strtof single_header (ifile + 1) files g'

/-- The pattern `if (ifield > 0) outfile << ","; outfile << cell` over the cells
of a header line. -/
def commaSeparated (cells : List Str) : Str :=
  cells.enum.flatMap fun x => (if x.1 > 0 then [','] else []) ++ x.2

/-- The cells written by the loop of lines 648-656: a cell of `Header1` equal to
the one before it (`lastfield`) is written as nothing. -/
def suppressRepeats : Str → List Str → List Str
  | _, [] => []
  | lastfield, cell :: rest =>
    (if cell ≠ lastfield then cell else []) :: suppressRepeats cell rest

/-- The header lines written by lines 637-668.  With `single_header`, or when
the last file needed no second header, one line: `Header[ifield]` for every
`ifield` below `Header1.size()`.  Otherwise two lines, from `Header1` (repeats
suppressed) and from `Header2`. -/
def outputHeader (single_header required : Bool) (LineTerminator : Str)
    (Header Header1 Header2 : List Str) : List Str :=
  if single_header || !required then
    [commaSeparated ((List.range Header1.length).map fun ifield => Header.getD ifield []) ++
      LineTerminator]
  else
    [commaSeparated (suppressRepeats [] Header1) ++ LineTerminator,
     commaSeparated Header2 ++ LineTerminator]

/-- How a run ends: with exit code 0 and the lines written to the output file,
with an early exit and nothing written, in undefined behaviour, or not within
the fuel given to the alignment loops. -/
inductive RunResult where
  | written (lines : List Str)
  | exit (code : Int)
  | undefined
  | unfinished
deriving DecidableEq

/-- The program from line 261 on, for files given by their lines: read the
files, write the header, align every chemical, sort and write the rows. -/
def mainRun (strtof : Strtof) (single_header restricted : Bool) (adiff : F32)
    (LineTerminator : Str) (fuel : Nat)
    (files : List (List Str)) : RunResult :=
  match readFiles strtof single_header 0 files Globals.start with
  | Except.error (Stop.exit code) => RunResult.exit code
  | Except.error Stop.undefined => RunResult.undefined
  | Except.ok g =>
    let r := alignAll adiff restricted fuel g.AllFileData g.Chemicals
    if r.2 then
      RunResult.written
        (outputHeader single_header g.required LineTerminator g.Header g.Header1 g.Header2 ++
          writtenLines (r.1.map (toOutputRecord g.DataColumns LineTerminator)))
    else RunResult.unfinished

/-! ### Quoted header cells -/

/-- A text wrapped in double quotes. -/
def quoted (s : Str) : Str := '"' :: s ++ ['"']

/-- The header cell that the composite loop takes the qualifier from: the
first-row cell, or the carried `last_suffix` when that cell is empty. -/
def qualifierCell (last_suffix h1 : Str) : Str := if h1 = [] then last_suffix else h1

/-! ### The lowest of some times -/

/-- The update `lowerTo` applied along a sequence in which some places hold a
time and the others none: how the first loop of a grouping step forms
`lowest_time1` and `second_lowest_time1`. -/
def lowerAll (x : F32) (times : List (Option F32)) : F32 :=
  times.foldl (fun x o => match o with
    | some t => lowerTo x t
    | none => x) x

/-- The time that a file gives to `lowest_time1`, if its vector is not empty. -/
def candidateTime (bucket : List ChemRecord) : Option F32 :=
  if bucket.length ≠ 0 then some (candidate bucket).time1 else none

/-- The time that a file gives to `second_lowest_time1`, if something is left in
its vector after the lowest record is taken. -/
def remainderTime (bucket : List ChemRecord) : Option F32 :=
  if (remainder bucket).isEmpty then none else some ((remainder bucket).getLastD NA).time1

/-- The cutoff in the words of the specification, in `float` arithmetic. -/
def specCutoff (diff lowest : F32) : F32 :=
  if diff < 1 then lowest * (1 + diff) else lowest + diff

/-- The invariant of the loop over the files: every name in `Chemicals` has a
record in some file read so far, and every record has at least two fields. -/
def readerInvariant (g : Globals) : Prop :=
  (∀ k ∈ g.Chemicals, ∃ fd ∈ g.AllFileData, fd k ≠ []) ∧
  ∀ fd ∈ g.AllFileData, ∀ k, ∀ x ∈ fd k, 2 ≤ x.nfields

/-! # Properties

Helper lemmas come first in each part; the theorem of a claim carries the claim's
number in its comment. -/

/-! ## Single-precision numbers: rounding -/

theorem excessBits_spec : ∀ (fuel n : Nat), n < 2 ^ (fuel + 24) →
    (n < 2 ^ 24 → excessBits fuel n = 0) ∧
    (2 ^ 24 ≤ n → 2 ^ (excessBits fuel n + 23) ≤ n ∧ n < 2 ^ (excessBits fuel n + 24)) := by
  intro fuel
  induction fuel with
  | zero =>
    intro n hn
    refine ⟨fun _ => rfl, fun h => ?_⟩
    simp at hn
    omega
  | succ f ih =>
    intro n hn
    rw [excessBits]
    by_cases h : n < 2 ^ 24
    · rw [if_pos h]
      exact ⟨fun _ => rfl, fun h' => by omega⟩
    · rw [if_neg h]
      refine ⟨fun h' => absurd h' h, fun _ => ?_⟩
      have hn2 : n / 2 < 2 ^ (f + 24) := by
        have : 2 ^ (f + 1 + 24) = 2 * 2 ^ (f + 24) := by ring
        omega
      obtain ⟨i1, i2⟩ := ih (n / 2) hn2
      by_cases h2 : n / 2 < 2 ^ 24
      · rw [i1 h2]
        constructor
        · simp only [zero_add]
          have : (2:Nat) ^ (1 + 23) = 2 ^ 24 := by norm_num
          omega
        · have : (2:Nat) ^ (0 + 1 + 24) = 2 * 2 ^ 24 := by norm_num
          omega
      · obtain ⟨j1, j2⟩ := i2 (by omega)
        constructor
        · have : 2 ^ (excessBits f (n / 2) + 1 + 23) = 2 * 2 ^ (excessBits f (n / 2) + 23) := by
            ring
          omega
        · have : 2 ^ (excessBits f (n / 2) + 1 + 24) = 2 * 2 ^ (excessBits f (n / 2) + 24) := by
            ring
          omega

theorem ulpExp_small (n : Nat) (h : n < 2 ^ 24) : ulpExp n = 0 :=
  (excessBits_spec n n (lt_of_lt_of_le (Nat.lt_two_pow n)
    (Nat.pow_le_pow_right (by norm_num) (by omega)))).1 h

theorem ulpExp_large (n : Nat) (h : 2 ^ 24 ≤ n) :
    2 ^ (ulpExp n + 23) ≤ n ∧ n < 2 ^ (ulpExp n + 24) :=
  (excessBits_spec n n (lt_of_lt_of_le (Nat.lt_two_pow n)
    (Nat.pow_le_pow_right (by norm_num) (by omega)))).2 h

theorem ulpExp_lt (n : Nat) : n < 2 ^ (ulpExp n + 24) := by
  by_cases h : n < 2 ^ 24
  · rw [ulpExp_small n h]; exact h
  · exact (ulpExp_large n (by omega)).2

theorem ulpExp_le (n : Nat) (h : ulpExp n ≠ 0) : 2 ^ (ulpExp n + 23) ≤ n := by
  by_cases h' : n < 2 ^ 24
  · exact absurd (ulpExp_small n h') h
  · exact (ulpExp_large n (by omega)).1

/-- A magnitude below the binade of exponent `k` has a unit exponent of at most `k`. -/
theorem ulpExp_le_of_lt (n k : Nat) (h : n < 2 ^ (k + 24)) : ulpExp n ≤ k := by
  by_contra hk
  have h1 := ulpExp_le n (by omega)
  have h2 : 2 ^ (k + 24) ≤ 2 ^ (ulpExp n + 23) := Nat.pow_le_pow_right (by norm_num) (by omega)
  omega

/-- A magnitude of a `float` is a multiple of the unit of the binade of
exponent `k`, or lies below that binade. -/
theorem isUnits_dvd_or_lt (g k : Nat) (hg : isUnits g = true) :
    2 ^ k ∣ g ∨ g < 2 ^ (k + 23) := by
  unfold isUnits at hg
  simp only [Bool.and_eq_true, beq_iff_eq, decide_eq_true_eq] at hg
  by_cases h : k ≤ ulpExp g
  · left
    exact Dvd.dvd.trans (pow_dvd_pow 2 h) (Nat.dvd_of_mod_eq_zero hg.1)
  · right
    have h1 := ulpExp_lt g
    have h2 : 2 ^ (ulpExp g + 24) ≤ 2 ^ (k + 23) := Nat.pow_le_pow_right (by norm_num) (by omega)
    omega

theorem roundHalfEven_ge (y : ℚ) (a : Nat) (h : (a : ℚ) ≤ y) : a ≤ roundHalfEven y := by
  have hf : a ≤ ⌊y⌋₊ := Nat.le_floor h
  unfold roundHalfEven
  split
  · exact hf
  · split
    · omega
    · split <;> omega

theorem roundHalfEven_le (y : ℚ) (hy : 0 ≤ y) (b : Nat) (h : y ≤ (b : ℚ)) :
    roundHalfEven y ≤ b := by
  have hfl : (⌊y⌋₊ : ℚ) ≤ y := Nat.floor_le hy
  have hf : ⌊y⌋₊ ≤ b := by
    have : (⌊y⌋₊ : ℚ) ≤ b := le_trans hfl h
    exact_mod_cast this
  by_cases he : (⌊y⌋₊ : ℚ) = y
  · unfold roundHalfEven
    rw [if_pos (by rw [he]; norm_num)]
    exact hf
  · have hlt : (⌊y⌋₊ : ℚ) < b := lt_of_lt_of_le (lt_of_le_of_ne hfl he) h
    have hlt' : ⌊y⌋₊ < b := by exact_mod_cast hlt
    unfold roundHalfEven
    split
    · exact hf
    · split
      · omega
      · split <;> omega

/-- The rounded magnitude is not below a `float` magnitude that the exact one
is not below. -/
theorem roundUnits_ge (x : ℚ) (g : Nat) (hg : isUnits g = true) (h : (g : ℚ) ≤ x) :
    g ≤ roundUnits x := by
  have hx : 0 ≤ x := le_trans (Nat.cast_nonneg g) h
  unfold roundUnits
  set k := ulpExp ⌊x⌋₊ with hk
  have hupos : (0 : ℚ) < 2 ^ k := by positivity
  rcases isUnits_dvd_or_lt g k hg with ⟨a, ha⟩ | hlt
  · have hay : (a : ℚ) ≤ x / 2 ^ k := by
      rw [le_div_iff₀ hupos]
      have : ((a * 2 ^ k : Nat) : ℚ) ≤ x := by rw [Nat.mul_comm, ← ha]; exact h
      push_cast at this
      exact this
    have := roundHalfEven_ge _ a hay
    calc g = 2 ^ k * a := ha
      _ = a * 2 ^ k := Nat.mul_comm _ _
      _ ≤ roundHalfEven (x / 2 ^ k) * 2 ^ k := Nat.mul_le_mul_right _ this
  · by_cases hk0 : k = 0
    · -- every magnitude is a multiple of the unit 1
      rw [hk0]
      simp only [pow_zero, div_one, mul_one]
      exact roundHalfEven_ge x g h
    · have hN : 2 ^ (k + 23) ≤ ⌊x⌋₊ := ulpExp_le _ hk0
      have hNx : ((2 ^ (k + 23) : Nat) : ℚ) ≤ x :=
        le_trans (by exact_mod_cast hN) (Nat.floor_le hx)
      have hy : ((2 ^ 23 : Nat) : ℚ) ≤ x / 2 ^ k := by
        rw [le_div_iff₀ hupos]
        have : ((2 ^ (k + 23) : Nat) : ℚ) = ((2 ^ 23 : Nat) : ℚ) * 2 ^ k := by
          push_cast; ring
        rw [← this]; exact hNx
      have := roundHalfEven_ge _ _ hy
      have h2 : 2 ^ (k + 23) ≤ roundHalfEven (x / 2 ^ k) * 2 ^ k := by
        calc 2 ^ (k + 23) = 2 ^ 23 * 2 ^ k := by ring
          _ ≤ roundHalfEven (x / 2 ^ k) * 2 ^ k := Nat.mul_le_mul_right _ this
      omega

/-- The rounded magnitude is not above a `float` magnitude that the exact one
is not above. -/
theorem roundUnits_le (x : ℚ) (hx : 0 ≤ x) (g : Nat) (hg : isUnits g = true)
    (h : x ≤ (g : ℚ)) : roundUnits x ≤ g := by
  unfold roundUnits
  set k := ulpExp ⌊x⌋₊ with hk
  have hupos : (0 : ℚ) < 2 ^ k := by positivity
  have hdiv : 2 ^ k ∣ g := by
    rcases isUnits_dvd_or_lt g k hg with hd | hlt
    · exact hd
    · by_cases hk0 : k = 0
      · rw [hk0]; simp
      · exfalso
        have hN : 2 ^ (k + 23) ≤ ⌊x⌋₊ := ulpExp_le _ hk0
        have hNx : ((2 ^ (k + 23) : Nat) : ℚ) ≤ x :=
          le_trans (by exact_mod_cast hN) (Nat.floor_le hx)
        have : ((2 ^ (k + 23) : Nat) : ℚ) ≤ (g : ℚ) := le_trans hNx h
        have : 2 ^ (k + 23) ≤ g := by exact_mod_cast this
        omega
  obtain ⟨a, ha⟩ := hdiv
  have hay : x / 2 ^ k ≤ (a : ℚ) := by
    rw [div_le_iff₀ hupos]
    have : x ≤ ((a * 2 ^ k : Nat) : ℚ) := by rw [Nat.mul_comm, ← ha]; exact h
    push_cast at this
    exact this
  have := roundHalfEven_le _ (div_nonneg hx (le_of_lt hupos)) a hay
  calc roundHalfEven (x / 2 ^ k) * 2 ^ k ≤ a * 2 ^ k := Nat.mul_le_mul_right _ this
    _ = 2 ^ k * a := Nat.mul_comm _ _
    _ = g := ha.symm

/-- A `float` magnitude is rounded to itself. -/
theorem roundUnits_exact (g : Nat) (hg : isUnits g = true) : roundUnits (g : ℚ) = g :=
  le_antisymm (roundUnits_le _ (Nat.cast_nonneg g) g hg (le_refl _))
    (roundUnits_ge _ g hg (le_refl _))

/-- A power of two below 2^128 is the magnitude of a `float`. -/
theorem isUnits_pow (j : Nat) (hj : j < 277) : isUnits (2 ^ j) = true := by
  unfold isUnits
  simp only [Bool.and_eq_true, beq_iff_eq, decide_eq_true_eq]
  constructor
  · apply Nat.mod_eq_zero_of_dvd
    apply pow_dvd_pow
    by_contra h
    have h1 := ulpExp_le (2 ^ j) (by omega)
    have h2 : 2 ^ j < 2 ^ (ulpExp (2 ^ j) + 23) := Nat.pow_lt_pow_right (by norm_num) (by omega)
    omega
  · have key : ∀ (m : Nat), j < m → 2 ^ j < 2 ^ m := fun m hm =>
      Nat.pow_lt_pow_right Nat.one_lt_two hm
    exact key 277 hj

/-- The rounded magnitude is the magnitude of a `float`, unless it reaches
2^128 (overflow). -/
theorem isUnits_roundUnits (x : ℚ) (hx : 0 ≤ x) (h : roundUnits x < 2 ^ 277) :
    isUnits (roundUnits x) = true := by
  have hlt : x < ((2 ^ (ulpExp ⌊x⌋₊ + 24) : Nat) : ℚ) := by
    have h1 := ulpExp_lt ⌊x⌋₊
    have h2 : x < (⌊x⌋₊ : ℚ) + 1 := Nat.lt_floor_add_one x
    have h3 : ((⌊x⌋₊ + 1 : Nat) : ℚ) ≤ ((2 ^ (ulpExp ⌊x⌋₊ + 24) : Nat) : ℚ) := by
      exact_mod_cast h1
    push_cast at h3 ⊢
    linarith
  have hr : roundUnits x ≤ 2 ^ (ulpExp ⌊x⌋₊ + 24) := by
    by_cases hj : ulpExp ⌊x⌋₊ + 24 < 277
    · exact roundUnits_le x hx _ (isUnits_pow _ hj) (le_of_lt hlt)
    · have key : ∀ (m : Nat), m ≤ ulpExp ⌊x⌋₊ + 24 → roundUnits x < 2 ^ m →
          roundUnits x ≤ 2 ^ (ulpExp ⌊x⌋₊ + 24) := fun m hm hlt' =>
        Nat.le_of_lt (Nat.lt_of_lt_of_le hlt' (Nat.pow_le_pow_right Nat.two_pos hm))
      exact key 277 (Nat.le_of_not_lt hj) h
  rcases Nat.lt_or_eq_of_le hr with hr | hr
  · have hk := ulpExp_le_of_lt _ _ hr
    unfold isUnits
    simp only [Bool.and_eq_true, beq_iff_eq, decide_eq_true_eq]
    refine ⟨?_, h⟩
    apply Nat.mod_eq_zero_of_dvd
    refine Dvd.dvd.trans (pow_dvd_pow 2 hk) ?_
    unfold roundUnits
    exact Dvd.intro_left _ rfl
  · rw [hr]
    rw [hr] at h
    have key : ∀ (m : Nat), 2 ^ (ulpExp ⌊x⌋₊ + 24) < 2 ^ m → ulpExp ⌊x⌋₊ + 24 < m :=
      fun m hm => (Nat.pow_lt_pow_iff_right Nat.one_lt_two).mp hm
    exact isUnits_pow _ (key 277 h)

/-! ## Comparisons of `float`s -/

@[simp] theorem f32_fin_lt_fin (a b : Int) (ha : isUnits a.natAbs = true)
    (hb : isUnits b.natAbs = true) : F32.fin a ha < F32.fin b hb ↔ a < b := by
  show F32.lt _ _ = true ↔ _
  simp [F32.lt]

@[simp] theorem f32_fin_le_fin (a b : Int) (ha : isUnits a.natAbs = true)
    (hb : isUnits b.natAbs = true) : F32.fin a ha ≤ F32.fin b hb ↔ a ≤ b := by
  show F32.le _ _ = true ↔ _
  simp [F32.le]

@[simp] theorem f32_fin_lt_inf (a : Int) (ha : isUnits a.natAbs = true) (s : Bool) :
    F32.fin a ha < F32.inf s ↔ s = false := by
  show F32.lt _ _ = true ↔ _
  simp [F32.lt]

@[simp] theorem f32_fin_le_inf (a : Int) (ha : isUnits a.natAbs = true) (s : Bool) :
    F32.fin a ha ≤ F32.inf s ↔ s = false := by
  show F32.le _ _ = true ↔ _
  simp [F32.le]

@[simp] theorem f32_inf_lt_fin (a : Int) (ha : isUnits a.natAbs = true) (s : Bool) :
    F32.inf s < F32.fin a ha ↔ s = true := by
  show F32.lt _ _ = true ↔ _
  simp [F32.lt]

@[simp] theorem f32_inf_le_fin (a : Int) (ha : isUnits a.natAbs = true) (s : Bool) :
    F32.inf s ≤ F32.fin a ha ↔ s = true := by
  show F32.le _ _ = true ↔ _
  simp [F32.le]

@[simp] theorem f32_inf_lt_inf (s t : Bool) :
    F32.inf s < F32.inf t ↔ s = true ∧ t = false := by
  show F32.lt _ _ = true ↔ _
  simp [F32.lt]

@[simp] theorem f32_inf_le_inf (s t : Bool) :
    F32.inf s ≤ F32.inf t ↔ s = true ∨ t = false := by
  show F32.le _ _ = true ↔ _
  simp [F32.le]

@[simp] theorem f32_not_nan_lt (a : F32) : ¬ F32.nan < a := by
  show ¬ F32.lt _ _ = true
  simp [F32.lt]

@[simp] theorem f32_not_lt_nan (a : F32) : ¬ a < F32.nan := by
  show ¬ F32.lt _ _ = true
  cases a <;> simp [F32.lt]

@[simp] theorem f32_not_nan_le (a : F32) : ¬ F32.nan ≤ a := by
  show ¬ F32.le _ _ = true
  simp [F32.le]

@[simp] theorem f32_not_le_nan (a : F32) : ¬ a ≤ F32.nan := by
  show ¬ F32.le _ _ = true
  cases a <;> simp [F32.le]

theorem f32_zero_def : (0 : F32) = F32.fin 0 (by decide!) := by decide!

theorem f32_one_def : (1 : F32) = F32.fin (2 ^ 149) (by decide!) := by decide!

theorem f32_fin_eq_zero (a : Int) (ha : isUnits a.natAbs = true) :
    F32.fin a ha = 0 ↔ a = 0 := by
  rw [f32_zero_def]
  constructor
  · intro h; injection h
  · intro h; subst h; rfl

theorem f32_lt_irrefl (a : F32) : ¬ a < a := by
  rcases a with ⟨x, hx⟩ | ⟨_ | _⟩ | _ <;> simp

theorem f32_le_of_lt {a b : F32} (h : a < b) : a ≤ b := by
  rcases a with ⟨x, hx⟩ | ⟨_ | _⟩ | _ <;> rcases b with ⟨y, hy⟩ | ⟨_ | _⟩ | _ <;>
    first | (simp at h ⊢; omega) | (simp at h ⊢)

theorem f32_not_lt_of_le {a b : F32} (h : a ≤ b) : ¬ b < a := by
  rcases a with ⟨x, hx⟩ | ⟨_ | _⟩ | _ <;> rcases b with ⟨y, hy⟩ | ⟨_ | _⟩ | _ <;>
    first | (simp at h ⊢; omega) | (simp at h ⊢)

theorem f32_not_le_of_lt {a b : F32} (h : a < b) : ¬ b ≤ a := by
  rcases a with ⟨x, hx⟩ | ⟨_ | _⟩ | _ <;> rcases b with ⟨y, hy⟩ | ⟨_ | _⟩ | _ <;>
    first | (simp at h ⊢; omega) | (simp at h ⊢)

theorem f32_le_trans {a b c : F32} (h1 : a ≤ b) (h2 : b ≤ c) : a ≤ c := by
  rcases a with ⟨x, hx⟩ | ⟨_ | _⟩ | _ <;> rcases b with ⟨y, hy⟩ | ⟨_ | _⟩ | _ <;>
    rcases c with ⟨z, hz⟩ | ⟨_ | _⟩ | _ <;> first | (simp at h1 h2 ⊢; omega) | (simp at h1 h2 ⊢)

theorem f32_lt_of_lt_of_le {a b c : F32} (h1 : a < b) (h2 : b ≤ c) : a < c := by
  rcases a with ⟨x, hx⟩ | ⟨_ | _⟩ | _ <;> rcases b with ⟨y, hy⟩ | ⟨_ | _⟩ | _ <;>
    rcases c with ⟨z, hz⟩ | ⟨_ | _⟩ | _ <;> first | (simp at h1 h2 ⊢; omega) | (simp at h1 h2 ⊢)

theorem f32_lt_of_le_of_lt {a b c : F32} (h1 : a ≤ b) (h2 : b < c) : a < c := by
  rcases a with ⟨x, hx⟩ | ⟨_ | _⟩ | _ <;> rcases b with ⟨y, hy⟩ | ⟨_ | _⟩ | _ <;>
    rcases c with ⟨z, hz⟩ | ⟨_ | _⟩ | _ <;> first | (simp at h1 h2 ⊢; omega) | (simp at h1 h2 ⊢)

theorem f32_lt_trans {a b c : F32} (h1 : a < b) (h2 : b < c) : a < c :=
  f32_lt_of_lt_of_le h1 (f32_le_of_lt h2)

theorem f32_le_antisymm {a b : F32} (h1 : a ≤ b) (h2 : b ≤ a) : a = b := by
  rcases a with ⟨x, hx⟩ | ⟨_ | _⟩ | _ <;> rcases b with ⟨y, hy⟩ | ⟨_ | _⟩ | _ <;>
    first | (simp at h1 h2 ⊢; omega) | (simp at h1 h2 ⊢)

/-- What makes a `float` a number: it is comparable with itself. -/
theorem f32_le_refl_iff (a : F32) : a ≤ a ↔ a ≠ F32.nan := by
  rcases a with ⟨x, hx⟩ | ⟨_ | _⟩ | _ <;> simp

theorem f32_le_refl {a : F32} (h : a ≠ F32.nan) : a ≤ a := (f32_le_refl_iff a).mpr h

theorem f32_ne_nan_of_lt_left {a b : F32} (h : a < b) : a ≠ F32.nan := by
  intro h0; subst h0; exact f32_not_nan_lt b h

theorem f32_ne_nan_of_lt_right {a b : F32} (h : a < b) : b ≠ F32.nan := by
  intro h0; subst h0; exact f32_not_lt_nan a h

theorem f32_ne_nan_of_le_left {a b : F32} (h : a ≤ b) : a ≠ F32.nan := by
  intro h0; subst h0; exact f32_not_nan_le b h

theorem f32_ne_nan_of_le_right {a b : F32} (h : a ≤ b) : b ≠ F32.nan := by
  intro h0; subst h0; exact f32_not_le_nan a h

/-- Two numbers are comparable: one of them is not above the other. -/
theorem f32_le_of_not_lt {a b : F32} (ha : a ≠ F32.nan) (hb : b ≠ F32.nan) (h : ¬ a < b) :
    b ≤ a := by
  rcases a with ⟨x, hx⟩ | ⟨_ | _⟩ | _ <;> rcases b with ⟨y, hy⟩ | ⟨_ | _⟩ | _ <;>
    first | (simp at h ha hb ⊢; omega) | (simp at h ha hb ⊢)

theorem f32_lt_of_not_le {a b : F32} (ha : a ≠ F32.nan) (hb : b ≠ F32.nan) (h : ¬ a ≤ b) :
    b < a := by
  rcases a with ⟨x, hx⟩ | ⟨_ | _⟩ | _ <;> rcases b with ⟨y, hy⟩ | ⟨_ | _⟩ | _ <;>
    first | (simp at h ha hb ⊢; omega) | (simp at h ha hb ⊢)

theorem f32_lt_of_le_of_ne {a b : F32} (h : a ≤ b) (hne : a ≠ b) : a < b := by
  rcases a with ⟨x, hx⟩ | ⟨_ | _⟩ | _ <;> rcases b with ⟨y, hy⟩ | ⟨_ | _⟩ | _ <;>
    first | (simp at h hne ⊢; omega) | (simp at h hne ⊢)

theorem f32_ne_of_lt {a b : F32} (h : a < b) : a ≠ b := by
  intro h0; subst h0; exact f32_lt_irrefl a h

/-! ## Rounding to a `float` -/

theorem f32_ofUnits_of_isUnits (neg : Bool) (n : Nat) (h : isUnits n = true) :
    F32.ofUnits neg n =
      F32.fin (if neg then -(n : Int) else (n : Int)) (by cases neg <;> simpa using h) := by
  unfold F32.ofUnits
  rw [dif_pos h]

theorem f32_ofUnits_of_not_isUnits (neg : Bool) (n : Nat) (h : ¬ isUnits n = true) :
    F32.ofUnits neg n = F32.inf neg := by
  unfold F32.ofUnits
  rw [dif_neg h]

theorem f32_ofRat_ne_nan (q : ℚ) : F32.ofRat q ≠ F32.nan := by
  unfold F32.ofRat F32.ofUnits
  split <;> simp

/-- A `float` is not above the rounding of a number that it is not above. -/
theorem f32_le_ofRat (n : Int) (h : isUnits n.natAbs = true) (q : ℚ)
    (hq : (n : ℚ) / 2 ^ 149 ≤ q) : F32.fin n h ≤ F32.ofRat q := by
  have hpow : (0 : ℚ) < 2 ^ 149 := by positivity
  have hq' : (n : ℚ) ≤ q * 2 ^ 149 := (div_le_iff₀ hpow).mp hq
  unfold F32.ofRat
  by_cases hneg : q < 0
  · -- both are negative: the magnitudes are compared the other way round
    have hn : n < 0 := by
      have : (n : ℚ) < 0 := lt_of_le_of_lt hq' (mul_neg_of_neg_of_pos hneg hpow)
      exact_mod_cast this
    have habs : |q| * 2 ^ 149 ≤ ((n.natAbs : Nat) : ℚ) := by
      rw [abs_of_neg hneg]
      have : ((n.natAbs : Nat) : ℚ) = -(n : ℚ) := by
        rw [Nat.cast_natAbs, abs_of_neg hn]; push_cast; rfl
      rw [this]; linarith
    have hr := roundUnits_le _ (mul_nonneg (abs_nonneg q) (le_of_lt hpow)) n.natAbs h habs
    have hru : isUnits (roundUnits (|q| * 2 ^ 149)) = true := by
      apply isUnits_roundUnits _ (mul_nonneg (abs_nonneg q) (le_of_lt hpow))
      have : n.natAbs < 2 ^ 277 := by
        unfold isUnits at h
        simp only [Bool.and_eq_true, decide_eq_true_eq] at h
        exact h.2
      exact lt_of_le_of_lt hr this
    rw [f32_ofUnits_of_isUnits _ _ hru]
    simp only [hneg, decide_True, if_true, f32_fin_le_fin]
    omega
  · have hq0 : 0 ≤ q := not_lt.mp hneg
    by_cases hru : isUnits (roundUnits (|q| * 2 ^ 149)) = true
    · rw [f32_ofUnits_of_isUnits _ _ hru]
      simp only [hneg, decide_False, Bool.false_eq_true, if_false, f32_fin_le_fin]
      by_cases hn : n ≤ 0
      · omega
      · have hcast : ((n.natAbs : Nat) : ℚ) = (n : ℚ) := by
          rw [Nat.cast_natAbs, abs_of_pos (by omega)]
        have := roundUnits_ge (|q| * 2 ^ 149) n.natAbs h
          (by rw [hcast, abs_of_nonneg hq0]; exact hq')
        omega
    · rw [f32_ofUnits_of_not_isUnits _ _ hru]
      simp [hneg]

theorem f32_neg_fin (n : Int) (h : isUnits n.natAbs = true) :
    -(F32.fin n h) = F32.fin (-n) (by rw [Int.natAbs_neg]; exact h) := rfl

theorem f32_neg_inf (s : Bool) : -(F32.inf s) = F32.inf (!s) := rfl

theorem f32_neg_nan : -F32.nan = F32.nan := rfl

theorem f32_ofRat_neg (q : ℚ) : F32.ofRat (-q) = -(F32.ofRat q) := by
  unfold F32.ofRat
  rw [abs_neg]
  by_cases hru : isUnits (roundUnits (|q| * 2 ^ 149)) = true
  · rw [f32_ofUnits_of_isUnits _ _ hru, f32_ofUnits_of_isUnits _ _ hru, f32_neg_fin]
    congr 1
    rcases lt_trichotomy q 0 with h | h | h
    · have h' : ¬ (-q < 0) := by linarith
      simp [h, h']
    · subst h
      have h0 : roundUnits 0 = 0 := by
        have := roundUnits_exact 0 (by decide!)
        simpa using this
      simp [h0]
    · have h' : ¬ (q < 0) := by linarith
      have h'' : -q < 0 := by linarith
      simp [h', h'']
  · rw [f32_ofUnits_of_not_isUnits _ _ hru, f32_ofUnits_of_not_isUnits _ _ hru, f32_neg_inf]
    congr 1
    have hq : q ≠ 0 := by
      intro h; subst h
      apply hru
      have h0 : roundUnits 0 = 0 := by
        have := roundUnits_exact 0 (by decide!)
        simpa using this
      simp only [abs_zero, zero_mul, h0]
      decide!
    rcases lt_or_gt_of_ne hq with h | h
    · have h' : ¬ (-q < 0) := by linarith
      simp [h, h']
    · have h' : ¬ (q < 0) := by linarith
      have h'' : -q < 0 := by linarith
      simp [h', h'']

theorem f32_neg_le_neg {a b : F32} (h : a ≤ b) : -b ≤ -a := by
  rcases a with ⟨x, hx⟩ | ⟨_ | _⟩ | _ <;> rcases b with ⟨y, hy⟩ | ⟨_ | _⟩ | _ <;>
    first
      | (simp [f32_neg_fin, f32_neg_inf, f32_neg_nan] at h ⊢; omega)
      | (simp [f32_neg_fin, f32_neg_inf, f32_neg_nan] at h ⊢)

theorem f32_neg_neg (a : F32) : -(-a) = a := by
  rcases a with ⟨x, hx⟩ | ⟨_ | _⟩ | _ <;> simp [f32_neg_fin, f32_neg_inf, f32_neg_nan]

/-- The rounding of a number is not above a `float` that the number is not
above. -/
theorem f32_ofRat_le (n : Int) (h : isUnits n.natAbs = true) (q : ℚ)
    (hq : q ≤ (n : ℚ) / 2 ^ 149) : F32.ofRat q ≤ F32.fin n h := by
  have h1 := f32_le_ofRat (-n) (by rw [Int.natAbs_neg]; exact h) (-q)
    (by push_cast; rw [neg_div]; linarith)
  have h2 := f32_neg_le_neg h1
  rw [f32_ofRat_neg, f32_neg_neg, f32_neg_fin] at h2
  simpa using h2

/-- The value of a `float` is rounded to itself. -/
theorem f32_ofRat_exact (n : Int) (h : isUnits n.natAbs = true) :
    F32.ofRat ((n : ℚ) / 2 ^ 149) = F32.fin n h :=
  f32_le_antisymm (f32_ofRat_le n h _ (le_refl _)) (f32_le_ofRat n h _ (le_refl _))

/-! ## Arithmetic of `float`s -/

theorem f32_add_def (a b : F32) : a + b = F32.add a b := rfl

theorem f32_sub_def (a b : F32) : a - b = F32.add a (F32.neg b) := rfl

theorem f32_mul_def (a b : F32) : a * b = F32.mul a b := rfl

theorem f32_neg_def (a : F32) : -a = F32.neg a := rfl

theorem f32_add_fin_fin (a b : Int) (ha : isUnits a.natAbs = true)
    (hb : isUnits b.natAbs = true) :
    F32.add (F32.fin a ha) (F32.fin b hb) = F32.ofRat (((a + b : Int) : ℚ) / 2 ^ 149) := rfl

theorem f32_add_fin_inf (a : Int) (ha : isUnits a.natAbs = true) (s : Bool) :
    F32.add (F32.fin a ha) (F32.inf s) = F32.inf s := rfl

theorem f32_add_inf_fin (a : Int) (ha : isUnits a.natAbs = true) (s : Bool) :
    F32.add (F32.inf s) (F32.fin a ha) = F32.inf s := rfl

theorem f32_add_inf_inf (s t : Bool) :
    F32.add (F32.inf s) (F32.inf t) = if s = t then F32.inf s else F32.nan := rfl

theorem f32_add_nan (a : F32) : F32.add a F32.nan = F32.nan := by
  cases a <;> rfl

theorem f32_nan_add (a : F32) : F32.add F32.nan a = F32.nan := rfl

theorem f32_mul_fin_fin (a b : Int) (ha : isUnits a.natAbs = true)
    (hb : isUnits b.natAbs = true) :
    F32.mul (F32.fin a ha) (F32.fin b hb) = F32.ofRat (((a * b : Int) : ℚ) / 2 ^ 298) := rfl

theorem f32_mul_fin_inf (a : Int) (ha : isUnits a.natAbs = true) (s : Bool) :
    F32.mul (F32.fin a ha) (F32.inf s) =
      if a = 0 then F32.nan else F32.inf (decide (a < 0) != s) := rfl

theorem f32_mul_inf_fin (b : Int) (hb : isUnits b.natAbs = true) (s : Bool) :
    F32.mul (F32.inf s) (F32.fin b hb) =
      if b = 0 then F32.nan else F32.inf (s != decide (b < 0)) := rfl

theorem f32_mul_inf_inf (s t : Bool) : F32.mul (F32.inf s) (F32.inf t) = F32.inf (s != t) := rfl

theorem f32_mul_comm (a b : F32) : a * b = b * a := by
  rw [f32_mul_def, f32_mul_def]
  rcases a with ⟨x, hx⟩ | ⟨s⟩ | _
  · rcases b with ⟨y, hy⟩ | ⟨t⟩ | _
    · rw [f32_mul_fin_fin, f32_mul_fin_fin, Int.mul_comm]
    · rw [f32_mul_fin_inf, f32_mul_inf_fin]
      cases t <;> by_cases h : x < 0 <;> simp [h]
    · rfl
  · rcases b with ⟨y, hy⟩ | ⟨t⟩ | _
    · rw [f32_mul_fin_inf, f32_mul_inf_fin]
      cases s <;> by_cases h : y < 0 <;> simp [h]
    · rw [f32_mul_inf_inf, f32_mul_inf_inf]
      cases s <;> cases t <;> rfl
    · rfl
  · cases b <;> rfl

theorem f32_pos_cases {l : F32} (hl : 0 < l) :
    (∃ y h, l = F32.fin y h ∧ 0 < y) ∨ l = F32.inf false := by
  rw [f32_zero_def] at hl
  rcases l with ⟨y, hy⟩ | ⟨_ | _⟩ | _
  · exact Or.inl ⟨y, hy, rfl, (f32_fin_lt_fin _ _ _ _).mp hl⟩
  · exact Or.inr rfl
  · exact absurd ((f32_fin_lt_inf _ _ _).mp hl) (by decide)
  · exact absurd hl (f32_not_lt_nan _)

theorem f32_nonneg_cases {d : F32} (hd : 0 ≤ d) :
    (∃ y h, d = F32.fin y h ∧ 0 ≤ y) ∨ d = F32.inf false := by
  rw [f32_zero_def] at hd
  rcases d with ⟨y, hy⟩ | ⟨_ | _⟩ | _
  · exact Or.inl ⟨y, hy, rfl, (f32_fin_le_fin _ _ _ _).mp hd⟩
  · exact Or.inr rfl
  · exact absurd ((f32_fin_le_inf _ _ _).mp hd) (by decide)
  · exact absurd hd (f32_not_le_nan _)

theorem f32_one_le_cases {a : F32} (ha : 1 ≤ a) :
    (∃ x h, a = F32.fin x h ∧ (2 : ℚ) ^ 149 ≤ (x : ℚ)) ∨ a = F32.inf false := by
  rw [f32_one_def] at ha
  rcases a with ⟨x, hx⟩ | ⟨_ | _⟩ | _
  · refine Or.inl ⟨x, hx, rfl, ?_⟩
    have := (f32_fin_le_fin _ _ _ _).mp ha
    exact_mod_cast this
  · exact Or.inr rfl
  · exact absurd ((f32_fin_le_inf _ _ _).mp ha) (by decide)
  · exact absurd ha (f32_not_le_nan _)

theorem f32_zero_lt_one : (0 : F32) < 1 := by decide!

theorem f32_zero_le_zero : (0 : F32) ≤ 0 := by decide!

/-- Adding a tolerance that is not negative to a positive time does not lower
it. -/
theorem f32_le_add (l d : F32) (hd : 0 ≤ d) (hl : 0 < l) : l ≤ l + d := by
  rw [f32_add_def]
  rcases f32_pos_cases hl with ⟨x, hx, rfl, hx0⟩ | rfl <;>
    rcases f32_nonneg_cases hd with ⟨y, h, rfl, hy⟩ | rfl
  · rw [f32_add_fin_fin]
    apply f32_le_ofRat
    have hpow : (0 : ℚ) < 2 ^ 149 := by positivity
    rw [div_le_div_iff_of_pos_right hpow]
    have : (0 : ℚ) ≤ (y : ℚ) := by exact_mod_cast hy
    push_cast
    linarith
  · rw [f32_add_fin_inf]; exact (f32_fin_le_inf _ _ _).mpr rfl
  · rw [f32_add_inf_fin]; exact (f32_inf_le_inf _ _).mpr (Or.inr rfl)
  · rw [f32_add_inf_inf, if_pos rfl]; exact (f32_inf_le_inf _ _).mpr (Or.inr rfl)

/-- Adding a tolerance that is not negative to 1 gives at least 1. -/
theorem f32_one_le_one_add (d : F32) (hd : 0 ≤ d) : 1 ≤ 1 + d :=
  f32_le_add 1 d hd f32_zero_lt_one

/-- Multiplying a positive time by a factor of at least 1 does not lower it. -/
theorem f32_le_mul (a l : F32) (ha : 1 ≤ a) (hl : 0 < l) : l ≤ a * l := by
  rw [f32_mul_def]
  rcases f32_pos_cases hl with ⟨y, hy, rfl, hy0⟩ | rfl <;>
    rcases f32_one_le_cases ha with ⟨x, hx, rfl, hx1⟩ | rfl
  · rw [f32_mul_fin_fin]
    apply f32_le_ofRat
    have hpow : (0 : ℚ) < 2 ^ 149 := by positivity
    have hy1 : (0 : ℚ) < (y : ℚ) := by exact_mod_cast hy0
    rw [div_le_div_iff₀ hpow (by positivity)]
    push_cast
    have e : (2 : ℚ) ^ 298 = 2 ^ 149 * 2 ^ 149 := by rw [← pow_add]
    rw [e]
    nlinarith [mul_le_mul_of_nonneg_right hx1 (le_of_lt hy1), mul_pos hy1 hpow]
  · have h0 : y ≠ 0 := by omega
    have hlt : ¬ y < 0 := by omega
    rw [f32_mul_inf_fin, if_neg h0]
    exact (f32_fin_le_inf _ _ _).mpr (by simp [hlt])
  · have hx0 : (0 : ℚ) < (x : ℚ) := lt_of_lt_of_le (by positivity) hx1
    have hx0' : 0 < x := by exact_mod_cast hx0
    have h0 : x ≠ 0 := by omega
    have hlt : ¬ x < 0 := by omega
    rw [f32_mul_fin_inf, if_neg h0]
    exact (f32_inf_le_inf _ _).mpr (Or.inr (by simp [hlt]))
  · rw [f32_mul_inf_inf]
    exact (f32_inf_le_inf _ _).mpr (Or.inr rfl)

theorem f32_not_pinf_lt (a : F32) : ¬ (F32.inf false < a) := by
  rcases a with ⟨x, hx⟩ | ⟨_ | _⟩ | _
  · rw [f32_inf_lt_fin]; decide
  · rw [f32_inf_lt_inf]; decide
  · rw [f32_inf_lt_inf]; decide
  · exact f32_not_lt_nan _

/-- A difference of a time with itself is not above any absolute value. -/
theorem f32_not_abs_lt_sub_self (x t : F32) : ¬ (F32.abs x < t - t) := by
  rw [f32_sub_def]
  rcases t with ⟨y, hy⟩ | ⟨_ | _⟩ | _
  · have e : F32.add (F32.fin y hy) (F32.neg (F32.fin y hy)) = F32.fin 0 (by decide!) := by
      show F32.ofRat (((y + -y : Int) : ℚ) / 2 ^ 149) = _
      have e : (((y + -y : Int) : ℚ) / 2 ^ 149) = (((0 : Int) : ℚ) / 2 ^ 149) := by simp
      rw [e, f32_ofRat_exact 0 (by decide!)]
    rw [e]
    rcases x with ⟨n, hn⟩ | ⟨_ | _⟩ | _
    · show ¬ (F32.fin |n| _ < _)
      rw [f32_fin_lt_fin]
      have := abs_nonneg n
      omega
    · show ¬ (F32.inf false < _)
      rw [f32_inf_lt_fin]; decide
    · show ¬ (F32.inf false < _)
      rw [f32_inf_lt_fin]; decide
    · exact f32_not_nan_lt _
  · exact f32_not_lt_nan _
  · exact f32_not_lt_nan _
  · exact f32_not_lt_nan _

/-- With a positive lowest time, the distance of a time from it is not above
the absolute value of the time. -/
theorem f32_not_abs_neg_lt_sub (l t : F32) (hl : 0 < l) : ¬ (F32.abs (0 - t) < t - l) := by
  rw [f32_sub_def, f32_sub_def, f32_zero_def]
  rcases t with ⟨y, hy⟩ | ⟨_ | _⟩ | _
  · have e0 : F32.add (F32.fin 0 (by decide!)) (F32.neg (F32.fin y hy)) =
        F32.fin (-y) (by rw [Int.natAbs_neg]; exact hy) := by
      show F32.ofRat (((0 + -y : Int) : ℚ) / 2 ^ 149) = _
      have e : (((0 + -y : Int) : ℚ) / 2 ^ 149) = (((-y : Int) : ℚ) / 2 ^ 149) := by simp
      rw [e, f32_ofRat_exact]
    rw [e0]
    rcases f32_pos_cases hl with ⟨z, hz, rfl, hz0⟩ | rfl
    · apply f32_not_lt_of_le
      show F32.ofRat (((y + -z : Int) : ℚ) / 2 ^ 149) ≤ F32.fin |(-y)| _
      apply f32_ofRat_le
      have hpow : (0 : ℚ) < 2 ^ 149 := by positivity
      rw [div_le_div_iff_of_pos_right hpow]
      have h1 : (y : ℚ) ≤ ((|(-y)| : Int) : ℚ) := by
        have : y ≤ |(-y)| := by rw [abs_neg]; exact le_abs_self y
        exact_mod_cast this
      have h2 : (0 : ℚ) < (z : ℚ) := by exact_mod_cast hz0
      push_cast at h1 ⊢
      linarith
    · show ¬ (F32.fin |(-y)| _ < F32.inf true)
      rw [f32_fin_lt_inf]; decide
  · show ¬ (F32.inf false < _)
    exact f32_not_pinf_lt _
  · show ¬ (F32.inf false < _)
    exact f32_not_pinf_lt _
  · exact f32_not_nan_lt _

/-! ## The scanner of data rows -/

theorem incQuotes_mod_two (q : Nat) : incQuotes q % 2 = (q + 1) % 2 := by
  unfold incQuotes; omega

theorem commaEndsField_odd (q : Nat) (p : Char) (h : q % 2 = 1) :
    commaEndsField q p = false := by
  have h0 : q ≠ 0 := by omega
  simp [commaEndsField, h0, h]

theorem commaEndsField_even_quote (q : Nat) (h : q % 2 = 0) :
    commaEndsField q '"' = true := by
  simp [commaEndsField, h]

/-! ### One-character steps of `scanFields` -/

theorem scanFields_plain (q : Nat) (p c : Char) (acc it : Str)
    (h1 : c ≠ '"') (h2 : c ≠ ',') (h3 : c ≠ '\r') :
    scanFields q p acc (c :: it) = scanFields q c (acc ++ [c]) it := by
  rw [scanFields]; simp [h1, h2, h3]

theorem scanFields_quote (q : Nat) (p : Char) (acc it : Str) :
    scanFields q p acc ('"' :: it) = scanFields (incQuotes q) '"' (acc ++ ['"']) it := by
  rw [scanFields]; simp

theorem scanFields_comma_inside (q : Nat) (p : Char) (acc it : Str)
    (h : commaEndsField q p = false) :
    scanFields q p acc (',' :: it) = scanFields q ',' (acc ++ [',']) it := by
  rw [scanFields]; simp [h]

theorem scanFields_comma_next (q : Nat) (p : Char) (acc it : Str)
    (h : commaEndsField q p = true) (hit : it ≠ []) :
    scanFields q p acc (',' :: it) = acc :: scanFields 0 p [] it := by
  rw [scanFields]; simp [h, hit]

theorem scanFields_comma_last (q : Nat) (p : Char) (acc : Str)
    (h : commaEndsField q p = true) :
    scanFields q p acc [','] = [acc] := by
  rw [scanFields]; simp [h]

theorem scanFields_unquoted (t : Str) (h : unquotedText t = true) (q : Nat) (p : Char)
    (acc rest : Str) :
    ∃ p', scanFields q p acc (t ++ rest) = scanFields q p' (acc ++ t) rest := by
  induction t generalizing p acc with
  | nil => exact ⟨p, by simp⟩
  | cons c t ih =>
    simp only [unquotedText, List.all_cons, Bool.and_eq_true, bne_iff_ne, ne_eq] at h
    obtain ⟨⟨⟨hc, hq⟩, hr⟩, ht⟩ := h
    obtain ⟨p', hp'⟩ := ih (by simpa [unquotedText] using ht) c (acc ++ [c])
    refine ⟨p', ?_⟩
    rw [List.cons_append, scanFields_plain q p c acc _ hq hc hr, hp']
    simp

theorem scanFields_interior (n : Nat) : ∀ (i : Str), i.length ≤ n → quotedInterior i = true →
    '\r' ∉ i → ∀ (q : Nat), q % 2 = 1 → ∀ (p : Char) (acc rest : Str),
    ∃ q' p', q' % 2 = 1 ∧ scanFields q p acc (i ++ rest) = scanFields q' p' (acc ++ i) rest := by
  induction n with
  | zero =>
    intro i hl _ _ q hq p acc rest
    have : i = [] := List.length_eq_zero.mp (Nat.le_zero.mp hl)
    subst this
    exact ⟨q, p, hq, by simp⟩
  | succ n ih =>
    intro i hl hi hcr q hq p acc rest
    match i, hl, hi, hcr with
    | [], _, _, _ => exact ⟨q, p, hq, by simp⟩
    | c :: r, hl, hi, hcr =>
      have hrc : c ≠ '\r' := by
        intro h; apply hcr; simp [h]
      have hcr' : '\r' ∉ r := by
        intro h; apply hcr; simp [h]
      have hl' : r.length ≤ n := by simp at hl; omega
      by_cases hc : c = '"'
      · subst hc
        match r, hl', hi, hcr' with
        | [], _, hi, _ => simp [quotedInterior] at hi
        | d :: r, hl', hi, hcr' =>
          simp only [quotedInterior, if_true, Bool.and_eq_true, beq_iff_eq] at hi
          obtain ⟨hd, hi⟩ := hi
          subst hd
          have hq2 : incQuotes (incQuotes q) % 2 = 1 := by
            rw [incQuotes_mod_two]
            have := incQuotes_mod_two q
            omega
          obtain ⟨q', p', hq', h⟩ := ih r (by simp at hl'; omega) hi
            (by intro h; apply hcr'; simp [h]) _ hq2 '"' (acc ++ ['"', '"']) rest
          refine ⟨q', p', hq', ?_⟩
          rw [List.cons_append, List.cons_append, scanFields_quote, scanFields_quote]
          simpa using h
      · have hi' : quotedInterior r = true := by
          match r, hi with
          | [], _ => rfl
          | d :: r, hi => simpa [quotedInterior, hc] using hi
        obtain ⟨q', p', hq', h⟩ := ih r hl' hi' hcr' q hq c (acc ++ [c]) rest
        refine ⟨q', p', hq', ?_⟩
        by_cases hcomma : c = ','
        · subst hcomma
          rw [List.cons_append, scanFields_comma_inside q p acc _ (commaEndsField_odd q p hq)]
          simpa using h
        · rw [List.cons_append, scanFields_plain q p c acc _ hc hcomma hrc]
          simpa using h


theorem quotedText_split (f : Str) (h : quotedText f = true) :
    ∃ i, f = '"' :: (i ++ ['"']) ∧ quotedInterior i = true := by
  match f, h with
  | c :: rest, h =>
    simp only [quotedText, Bool.and_eq_true, beq_iff_eq] at h
    obtain ⟨⟨hc, hl⟩, hi⟩ := h
    subst hc
    refine ⟨rest.dropLast, ?_, hi⟩
    rw [List.dropLast_append_getLast? _ hl]

theorem scanFields_field (f : Str) (h : encodedField f = true) (hcr : '\r' ∉ f) (p : Char)
    (rest : Str) :
    ∃ q' p', commaEndsField q' p' = true ∧
      scanFields 0 p [] (f ++ rest) = scanFields q' p' f rest := by
  simp only [encodedField, Bool.or_eq_true] at h
  rcases h with h | h
  · obtain ⟨p', hp'⟩ := scanFields_unquoted f h 0 p [] rest
    exact ⟨0, p', by simp [commaEndsField], by simpa using hp'⟩
  · obtain ⟨i, rfl, hi⟩ := quotedText_split f h
    have hcri : '\r' ∉ i := by
      intro hmem; apply hcr; simp [hmem]
    have h1 : incQuotes 0 % 2 = 1 := by decide
    obtain ⟨q', p', hq', hs⟩ :=
      scanFields_interior i.length i le_rfl hi hcri (incQuotes 0) h1 '"' ['"'] ('"' :: rest)
    refine ⟨incQuotes q', '"', commaEndsField_even_quote _ ?_, ?_⟩
    · rw [incQuotes_mod_two]; omega
    · rw [List.cons_append, scanFields_quote, List.nil_append, List.append_assoc,
        List.singleton_append, hs, scanFields_quote]
      simp

theorem joinFields_ne_nil (fields : List Str) (hne : fields ≠ [])
    (hlast : fields.getLast? ≠ some []) : joinFields fields ≠ [] := by
  match fields, hne, hlast with
  | [f], _, hlast => simpa [joinFields] using hlast
  | f :: g :: fs, _, _ => simp [joinFields]

theorem scanFields_joinFields (fields : List Str) (hne : fields ≠ [])
    (hlast : fields.getLast? ≠ some [])
    (henc : ∀ f ∈ fields, encodedField f = true) (hcr : ∀ f ∈ fields, '\r' ∉ f) (p : Char) :
    scanFields 0 p [] (joinFields fields) = fields := by
  induction fields generalizing p with
  | nil => exact absurd rfl hne
  | cons f fs ih =>
    cases fs with
    | nil =>
      obtain ⟨q', p', _, hs⟩ := scanFields_field f (henc f (by simp)) (hcr f (by simp)) p []
      rw [List.append_nil] at hs
      simp only [joinFields]
      rw [hs, scanFields]
    | cons g gs =>
      obtain ⟨q', p', hend, hs⟩ :=
        scanFields_field f (henc f (by simp)) (hcr f (by simp)) p (',' :: joinFields (g :: gs))
      have hl : (g :: gs).getLast? ≠ some [] := by simpa [List.getLast?_cons_cons] using hlast
      have hJ := joinFields_ne_nil (g :: gs) (by simp) hl
      simp only [joinFields]
      rw [hs, scanFields_comma_next q' p' f _ hend hJ,
        ih (by simp) hl (fun x hx => henc x (by simp [hx])) (fun x hx => hcr x (by simp [hx]))]

/-! ### One-character steps of `scanChemicalName` -/

theorem scanChemicalName_plain (q : Nat) (p c : Char) (acc it : Str)
    (h1 : c ≠ '"') (h2 : c ≠ ',') :
    scanChemicalName q p acc (c :: it) = scanChemicalName q c (acc ++ [c]) it := by
  rw [scanChemicalName]; simp [h1, h2]

theorem scanChemicalName_quote (q : Nat) (p : Char) (acc it : Str) :
    scanChemicalName q p acc ('"' :: it) =
      scanChemicalName (incQuotes q) '"' (acc ++ ['"']) it := by
  rw [scanChemicalName]; simp

theorem scanChemicalName_comma_inside (q : Nat) (p : Char) (acc it : Str)
    (h : commaEndsField q p = false) :
    scanChemicalName q p acc (',' :: it) = scanChemicalName q ',' (acc ++ [',']) it := by
  rw [scanChemicalName]; simp [h]

theorem scanChemicalName_comma_end (q : Nat) (p : Char) (acc it : Str)
    (h : commaEndsField q p = true) :
    scanChemicalName q p acc (',' :: it) = (acc, p, it) := by
  rw [scanChemicalName]; simp [h]

theorem scanChemicalName_unquoted (t : Str) (h : unquotedText t = true) (q : Nat) (p : Char)
    (acc rest : Str) :
    ∃ p', scanChemicalName q p acc (t ++ rest) = scanChemicalName q p' (acc ++ t) rest := by
  induction t generalizing p acc with
  | nil => exact ⟨p, by simp⟩
  | cons c t ih =>
    simp only [unquotedText, List.all_cons, Bool.and_eq_true, bne_iff_ne, ne_eq] at h
    obtain ⟨⟨⟨hc, hq⟩, _⟩, ht⟩ := h
    obtain ⟨p', hp'⟩ := ih (by simpa [unquotedText] using ht) c (acc ++ [c])
    refine ⟨p', ?_⟩
    rw [List.cons_append, scanChemicalName_plain q p c acc _ hq hc, hp']
    simp

theorem scanChemicalName_interior (n : Nat) : ∀ (i : Str), i.length ≤ n →
    quotedInterior i = true → ∀ (q : Nat), q % 2 = 1 → ∀ (p : Char) (acc rest : Str),
    ∃ q' p', q' % 2 = 1 ∧
      scanChemicalName q p acc (i ++ rest) = scanChemicalName q' p' (acc ++ i) rest := by
  induction n with
  | zero =>
    intro i hl _ q hq p acc rest
    have : i = [] := List.length_eq_zero.mp (Nat.le_zero.mp hl)
    subst this
    exact ⟨q, p, hq, by simp⟩
  | succ n ih =>
    intro i hl hi q hq p acc rest
    match i, hl, hi with
    | [], _, _ => exact ⟨q, p, hq, by simp⟩
    | c :: r, hl, hi =>
      have hl' : r.length ≤ n := by simp at hl; omega
      by_cases hc : c = '"'
      · subst hc
        match r, hl', hi with
        | [], _, hi => simp [quotedInterior] at hi
        | d :: r, hl', hi =>
          simp only [quotedInterior, if_true, Bool.and_eq_true, beq_iff_eq] at hi
          obtain ⟨hd, hi⟩ := hi
          subst hd
          have hq2 : incQuotes (incQuotes q) % 2 = 1 := by
            rw [incQuotes_mod_two]
            have := incQuotes_mod_two q
            omega
          obtain ⟨q', p', hq', h⟩ := ih r (by simp at hl'; omega) hi _ hq2 '"'
            (acc ++ ['"', '"']) rest
          refine ⟨q', p', hq', ?_⟩
          rw [List.cons_append, List.cons_append, scanChemicalName_quote,
            scanChemicalName_quote]
          simpa using h
      · have hi' : quotedInterior r = true := by
          match r, hi with
          | [], _ => rfl
          | d :: r, hi => simpa [quotedInterior, hc] using hi
        obtain ⟨q', p', hq', h⟩ := ih r hl' hi' q hq c (acc ++ [c]) rest
        refine ⟨q', p', hq', ?_⟩
        by_cases hcomma : c = ','
        · subst hcomma
          rw [List.cons_append,
            scanChemicalName_comma_inside q p acc _ (commaEndsField_odd q p hq)]
          simpa using h
        · rw [List.cons_append, scanChemicalName_plain q p c acc _ hc hcomma]
          simpa using h

theorem scanChemicalName_field (f : Str) (h : encodedField f = true) (p : Char) (rest : Str) :
    ∃ p', scanChemicalName 0 p [] (f ++ ',' :: rest) = (f, p', rest) := by
  simp only [encodedField, Bool.or_eq_true] at h
  rcases h with h | h
  · obtain ⟨p', hp'⟩ := scanChemicalName_unquoted f h 0 p [] (',' :: rest)
    refine ⟨p', ?_⟩
    rw [hp', scanChemicalName_comma_end 0 p' _ _ (by simp [commaEndsField])]
    simp
  · obtain ⟨i, rfl, hi⟩ := quotedText_split f h
    have h1 : incQuotes 0 % 2 = 1 := by decide
    obtain ⟨q', p', hq', hs⟩ :=
      scanChemicalName_interior i.length i le_rfl hi (incQuotes 0) h1 '"' ['"']
        ('"' :: ',' :: rest)
    refine ⟨'"', ?_⟩
    rw [List.cons_append, scanChemicalName_quote, List.nil_append, List.append_assoc,
      List.singleton_append, hs, scanChemicalName_quote,
      scanChemicalName_comma_end _ _ _ _ (commaEndsField_even_quote _ (by
        rw [incQuotes_mod_two]; omega))]
    simp

/-- C4 (the scanner decodes what was encoded), amended.  For every list of at
least two fields whose last field is not empty, each field being unquoted text
(no comma, double quote or carriage return) or double-quote-wrapped text whose
interior quotes are all doubled (commas allowed inside), and with no carriage
return in any field after the first: scanning the comma-joined line gives the
first field as the chemical name and the other fields, unchanged and in order,
as `Fields`. -/
theorem tokenize_joinFields (fields : List Str) (hlen : 2 ≤ fields.length)
    (hlast : fields.getLast? ≠ some [])
    (henc : ∀ f ∈ fields, encodedField f = true)
    (hcr : ∀ f ∈ fields.tail, '\r' ∉ f) :
    tokenize (joinFields fields) = (fields.headD [], fields.tail) := by
  match fields, hlen, hlast, henc, hcr with
  | f :: g :: fs, _, hlast, henc, hcr =>
    obtain ⟨p', hp'⟩ :=
      scanChemicalName_field f (henc f (by simp)) (Char.ofNat 0) (joinFields (g :: fs))
    have hl : (g :: fs).getLast? ≠ some [] := by simpa [List.getLast?_cons_cons] using hlast
    simp only [tokenize, joinFields, hp', List.headD_cons, List.tail_cons]
    rw [scanFields_joinFields (g :: fs) (by simp) hl (fun x hx => henc x (by simp [hx]))
      (fun x hx => hcr x (by simpa using hx))]

/-- C4, as stated, fails for a quoted field that holds a carriage return: the
fields `X` and `"a\rb"` satisfy the conditions of the claim, and the scanner
returns the second field without its carriage return. -/
theorem tokenize_cr_counterexample :
    2 ≤ ["X".toList, "\"a\rb\"".toList].length ∧
    ["X".toList, "\"a\rb\"".toList].getLast? ≠ some [] ∧
    (∀ f ∈ ["X".toList, "\"a\rb\"".toList], encodedField f = true) ∧
    tokenize (joinFields ["X".toList, "\"a\rb\"".toList]) = ("X".toList, ["\"ab\"".toList]) ∧
    tokenize (joinFields ["X".toList, "\"a\rb\"".toList]) ≠
      (["X".toList, "\"a\rb\"".toList].headD [], ["X".toList, "\"a\rb\"".toList].tail) := by
  decide


/-- The witness of C4: an unquoted name, a quoted field with a comma and a
doubled quote inside, and a number. -/
theorem tokenize_joinFields_witness :
    tokenize (joinFields ["X".toList, "\"a,\"\"b\"".toList, "1.5".toList]) =
      (["X".toList, "\"a,\"\"b\"".toList, "1.5".toList].headD [],
        ["X".toList, "\"a,\"\"b\"".toList, "1.5".toList].tail) :=
  tokenize_joinFields ["X".toList, "\"a,\"\"b\"".toList, "1.5".toList] (by decide) (by decide)
    (by decide) (by decide)

/-! ## The first loop of a grouping step -/

theorem selectFile_lowest_recs (s : Selection) (b : List ChemRecord) :
    (selectFile s b).lowest_recs = s.lowest_recs ++ [candidate b] := by
  unfold selectFile candidate
  split
  · dsimp only
    split <;> rfl
  · rfl

theorem selectFile_buckets (s : Selection) (b : List ChemRecord) :
    (selectFile s b).buckets = s.buckets ++ [remainder b] := by
  unfold selectFile remainder
  split
  · dsimp only
    split <;> rfl
  · rfl

theorem selectFile_more (s : Selection) (b : List ChemRecord) :
    (selectFile s b).more_data_seen = (s.more_data_seen || !(remainder b).isEmpty) := by
  unfold selectFile remainder
  split
  · next h =>
    dsimp only
    split
    · next h' => simp [h']
    · next h' => simp [h']
  · next h =>
    have : b = [] := by simpa using h
    simp [this]

theorem selectFile_lowest_time1 (s : Selection) (b : List ChemRecord) :
    (selectFile s b).lowest_time1 =
      if b.length ≠ 0 then lowerTo s.lowest_time1 (candidate b).time1 else s.lowest_time1 := by
  unfold selectFile candidate
  split
  · dsimp only
    split <;> rfl
  · rfl

theorem foldl_selectFile_lowest_recs (bs : List (List ChemRecord)) (s : Selection) :
    (bs.foldl selectFile s).lowest_recs = s.lowest_recs ++ bs.map candidate := by
  induction bs generalizing s with
  | nil => simp
  | cons b bs ih => simp [ih, selectFile_lowest_recs]

theorem foldl_selectFile_buckets (bs : List (List ChemRecord)) (s : Selection) :
    (bs.foldl selectFile s).buckets = s.buckets ++ bs.map remainder := by
  induction bs generalizing s with
  | nil => simp
  | cons b bs ih => simp [ih, selectFile_buckets]

theorem foldl_selectFile_more (bs : List (List ChemRecord)) (s : Selection) :
    (bs.foldl selectFile s).more_data_seen =
      (s.more_data_seen || bs.any fun b => !(remainder b).isEmpty) := by
  induction bs generalizing s with
  | nil => simp
  | cons b bs ih => simp [ih, selectFile_more, Bool.or_assoc]

theorem lowerTo_mem (x t : F32) : lowerTo x t = x ∨ lowerTo x t = t := by
  unfold lowerTo; split <;> simp

theorem foldl_selectFile_lowest_time1_mem (bs : List (List ChemRecord)) (s : Selection) :
    (bs.foldl selectFile s).lowest_time1 = s.lowest_time1 ∨
      ∃ b ∈ bs, b ≠ [] ∧ (candidate b).time1 = (bs.foldl selectFile s).lowest_time1 := by
  induction bs generalizing s with
  | nil => simp
  | cons b bs ih =>
    rw [List.foldl_cons]
    rcases ih (selectFile s b) with h | ⟨b', hb', hne, h⟩
    · rw [h, selectFile_lowest_time1]
      split
      · next hb =>
        rcases lowerTo_mem s.lowest_time1 (candidate b).time1 with h' | h'
        · exact Or.inl h'
        · exact Or.inr ⟨b, by simp, by simpa using hb, h'.symm⟩
      · exact Or.inl rfl
    · exact Or.inr ⟨b', by simp [hb'], hne, h⟩

theorem foldl_selectFile_lowest_time1_zero (bs : List (List ChemRecord)) (s : Selection)
    (h0 : s.lowest_time1 = 0) (hne : ∃ b ∈ bs, b ≠ []) :
    ∃ b ∈ bs, b ≠ [] ∧ (candidate b).time1 = (bs.foldl selectFile s).lowest_time1 := by
  induction bs generalizing s with
  | nil => simp at hne
  | cons b bs ih =>
    rw [List.foldl_cons]
    by_cases hb : b = []
    · have hs : (selectFile s b).lowest_time1 = 0 := by
        rw [selectFile_lowest_time1]; simp [hb, h0]
      obtain ⟨b', hb', hne'⟩ := hne
      have hb'' : b' ∈ bs := by
        rcases List.mem_cons.mp hb' with h | h
        · exact absurd (h ▸ hb) hne'
        · exact h
      obtain ⟨c, hc, hcne, hct⟩ := ih (selectFile s b) hs ⟨b', hb'', hne'⟩
      exact ⟨c, by simp [hc], hcne, hct⟩
    · rcases foldl_selectFile_lowest_time1_mem bs (selectFile s b) with h | ⟨c, hc, hcne, hct⟩
      · refine ⟨b, by simp, hb, ?_⟩
        rw [h, selectFile_lowest_time1]
        have : b.length ≠ 0 := by simpa using hb
        simp [this, lowerTo, h0]
      · exact ⟨c, by simp [hc], hcne, hct⟩

theorem selectCandidates_lowest_recs (buckets : List (List ChemRecord)) :
    (selectCandidates buckets).lowest_recs = buckets.map candidate := by
  simp [selectCandidates, foldl_selectFile_lowest_recs]

theorem selectCandidates_buckets (buckets : List (List ChemRecord)) :
    (selectCandidates buckets).buckets = buckets.map remainder := by
  simp [selectCandidates, foldl_selectFile_buckets]

theorem selectCandidates_more (buckets : List (List ChemRecord)) :
    (selectCandidates buckets).more_data_seen =
      buckets.any fun b => !(remainder b).isEmpty := by
  simp [selectCandidates, foldl_selectFile_more]

theorem selectCandidates_lowest_mem (buckets : List (List ChemRecord))
    (hne : ∃ b ∈ buckets, b ≠ []) :
    ∃ b ∈ buckets, b ≠ [] ∧ (candidate b).time1 = (selectCandidates buckets).lowest_time1 :=
  foldl_selectFile_lowest_time1_zero buckets _ rfl hne

/-! ## Taking the lowest record of a vector -/

theorem candidate_nil : candidate [] = NA := rfl

theorem remainder_nil : remainder [] = [] := rfl

theorem sortHigher_perm (b : List ChemRecord) : (sortHigher b).Perm b :=
  List.perm_insertionSort _ b

theorem remainder_append_candidate (b : List ChemRecord) (hb : b ≠ []) :
    remainder b ++ [candidate b] = sortHigher b := by
  have hlen : b.length ≠ 0 := by simpa using hb
  have hs : sortHigher b ≠ [] := by
    intro h
    have := (sortHigher_perm b).length_eq
    rw [h] at this
    exact hlen this.symm
  simp only [remainder, candidate, hlen, ne_eq, not_false_eq_true, if_true]
  apply List.dropLast_append_getLast?
  obtain ⟨x, hx⟩ : ∃ x, (sortHigher b).getLast? = some x := by
    cases h : (sortHigher b).getLast? with
    | none => exact absurd (List.getLast?_eq_none_iff.mp h) hs
    | some x => exact ⟨x, rfl⟩
  rw [List.getLastD_eq_getLast?, hx]
  simp

theorem remainder_candidate_perm (b : List ChemRecord) (hb : b ≠ []) :
    (remainder b ++ [candidate b]).Perm b := by
  rw [remainder_append_candidate b hb]; exact sortHigher_perm b

theorem candidate_mem (b : List ChemRecord) (hb : b ≠ []) : candidate b ∈ b :=
  (remainder_candidate_perm b hb).subset (by simp)

theorem remainder_subset (b : List ChemRecord) : ∀ r ∈ remainder b, r ∈ b := by
  intro r hr
  by_cases hb : b = []
  · subst hb; simp [remainder] at hr
  · exact (remainder_candidate_perm b hb).subset (by simp [hr])

theorem remainder_length (b : List ChemRecord) (hb : b ≠ []) :
    (remainder b).length + 1 = b.length := by
  have := (remainder_candidate_perm b hb).length_eq
  simpa using this

/-! ## The second loop of a grouping step -/

theorem pushback_NA (d l s : F32) : pushback d l s NA = false := by
  simp [pushback, NA, ChemRecord.nfields]

theorem cutoff_ge (d l : F32) (hd : 0 ≤ d) (hl : 0 < l) : l ≤ cutoff d l := by
  unfold cutoff
  split
  · exact f32_le_mul (1 + d) l (f32_one_le_one_add d hd) hl
  · exact f32_le_add l d hd hl

theorem pushback_lowest (d l s : F32) (r : ChemRecord) (hd : 0 ≤ d) (hl : 0 < l)
    (hr : r.time1 = l) : pushback d l s r = false := by
  have hc := cutoff_ge d l hd hl
  unfold pushback
  split
  · rw [if_neg (by rw [hr]; exact f32_not_lt_of_le hc),
      if_neg (by rw [hr]; exact f32_not_abs_lt_sub_self _ _)]
  · rfl

/-- The entry of `lowest_recs` that a grouping step leaves for a file. -/
theorem groupingStep_lowest_recs (d : F32) (bs : List (List ChemRecord)) :
    (groupingStep d bs).lowest_recs =
      bs.map fun b =>
        if pushback d (selectCandidates bs).lowest_time1
            (selectCandidates bs).second_lowest_time1 (candidate b) then NA
        else candidate b := by
  simp [groupingStep, selectCandidates_lowest_recs, List.map_map, Function.comp_def]

/-- The vector that a grouping step leaves for a file. -/
theorem groupingStep_buckets (d : F32) (bs : List (List ChemRecord)) :
    (groupingStep d bs).buckets =
      bs.map fun b =>
        if pushback d (selectCandidates bs).lowest_time1
            (selectCandidates bs).second_lowest_time1 (candidate b) then
          remainder b ++ [candidate b]
        else remainder b := by
  simp only [groupingStep, selectCandidates_lowest_recs, selectCandidates_buckets]
  rw [List.zipWith_map]
  generalize pushback d (selectCandidates bs).lowest_time1
    (selectCandidates bs).second_lowest_time1 = pb
  induction bs with
  | nil => rfl
  | cons b bs ih => simp [ih]

theorem groupingStep_more (d : F32) (bs : List (List ChemRecord)) :
    (groupingStep d bs).more_data_seen =
      ((bs.any fun b => !(remainder b).isEmpty) ||
        bs.any fun b => pushback d (selectCandidates bs).lowest_time1
            (selectCandidates bs).second_lowest_time1 (candidate b)) := by
  simp only [groupingStep, selectCandidates_lowest_recs, selectCandidates_more]
  generalize pushback d (selectCandidates bs).lowest_time1
    (selectCandidates bs).second_lowest_time1 = pb
  congr 1
  induction bs with
  | nil => rfl
  | cons b bs ih => simp [ih]

theorem groupingStep_lowest_time1 (d : F32) (bs : List (List ChemRecord)) :
    (groupingStep d bs).lowest_time1 = (selectCandidates bs).lowest_time1 := rfl

/-- One file in one grouping step: the record kept in the row (if any) and the
vector left are together the vector before. -/
theorem step_file_perm (pb : ChemRecord → Bool) (hNA : pb NA = false) (b : List ChemRecord)
    (hb : ∀ r ∈ b, r.nfields ≠ 0) :
    (([if pb (candidate b) then NA else candidate b].filter fun r => r.nfields != 0) ++
      (if pb (candidate b) then remainder b ++ [candidate b] else remainder b)).Perm b := by
  by_cases hne : b = []
  · subst hne
    rw [candidate_nil, remainder_nil, hNA]
    simp [NA, ChemRecord.nfields]
  · have hc : (candidate b).nfields ≠ 0 := hb _ (candidate_mem b hne)
    by_cases hp : pb (candidate b) = true
    · simp only [hp, if_true]
      have : ([NA].filter fun r => r.nfields != 0) = [] := by
        simp [NA, ChemRecord.nfields]
      rw [this, List.nil_append]
      exact remainder_candidate_perm b hne
    · rw [if_neg hp, if_neg hp]
      have : ([candidate b].filter fun r => r.nfields != 0) = [candidate b] := by
        simp [hc]
      rw [this]
      exact (List.perm_append_comm).trans (remainder_candidate_perm b hne)

theorem step_file_subset (pb : ChemRecord → Bool) (hNA : pb NA = false) (b : List ChemRecord) :
    ∀ r ∈ (if pb (candidate b) then remainder b ++ [candidate b] else remainder b), r ∈ b := by
  intro r hr
  by_cases hne : b = []
  · subst hne
    rw [candidate_nil, remainder_nil, hNA] at hr
    simp at hr
  · split at hr
    · exact (remainder_candidate_perm b hne).subset hr
    · exact remainder_subset b r hr

theorem step_file_length_le (pb : ChemRecord → Bool) (hNA : pb NA = false)
    (b : List ChemRecord) :
    (if pb (candidate b) then remainder b ++ [candidate b] else remainder b).length ≤
      b.length := by
  by_cases hne : b = []
  · subst hne; simp [candidate_nil, remainder_nil, hNA]
  · have := remainder_length b hne
    split
    · simp; omega
    · omega

theorem step_file_length_lt (pb : ChemRecord → Bool) (b : List ChemRecord) (hne : b ≠ [])
    (hp : pb (candidate b) = false) :
    (if pb (candidate b) then remainder b ++ [candidate b] else remainder b).length <
      b.length := by
  have := remainder_length b hne
  simp only [hp, Bool.false_eq_true, if_false]
  omega

/-! ## The loop of one chemical: progress and partition -/

theorem groupingStep_progress (d : F32) (bs : List (List ChemRecord)) (hd : 0 ≤ d)
    (hpos : ∀ b ∈ bs, ∀ r ∈ b, 0 < r.time1)
    (hmore : (groupingStep d bs).more_data_seen = true) :
    totalRecords (groupingStep d bs).buckets < totalRecords bs := by
  rw [groupingStep_more] at hmore
  have hne : ∃ b ∈ bs, b ≠ [] := by
    simp only [Bool.or_eq_true, List.any_eq_true] at hmore
    rcases hmore with ⟨b, hb, h⟩ | ⟨b, hb, h⟩
    · refine ⟨b, hb, ?_⟩
      intro h0; subst h0; simp [remainder_nil] at h
    · refine ⟨b, hb, ?_⟩
      intro h0; subst h0; rw [candidate_nil, pushback_NA] at h; exact Bool.false_ne_true h
  obtain ⟨b0, hb0, hb0ne, hb0t⟩ := selectCandidates_lowest_mem bs hne
  have hl : 0 < (selectCandidates bs).lowest_time1 := by
    rw [← hb0t]; exact hpos b0 hb0 _ (candidate_mem b0 hb0ne)
  have hkeep := pushback_lowest d _ (selectCandidates bs).second_lowest_time1 (candidate b0)
    hd hl hb0t
  rw [groupingStep_buckets]
  unfold totalRecords
  rw [List.map_map]
  have h := List.sum_lt_sum
    (List.length ∘ fun b =>
      if pushback d (selectCandidates bs).lowest_time1
          (selectCandidates bs).second_lowest_time1 (candidate b) then
        remainder b ++ [candidate b]
      else remainder b) List.length (l := bs)
    (fun b _ => step_file_length_le _ (pushback_NA d _ _) b)
    ⟨b0, hb0, step_file_length_lt _ b0 hb0ne hkeep⟩
  exact h

theorem groupingStep_done (d : F32) (bs : List (List ChemRecord))
    (hmore : (groupingStep d bs).more_data_seen = false) :
    ∀ b ∈ (groupingStep d bs).buckets, b = [] := by
  rw [groupingStep_more] at hmore
  simp only [Bool.or_eq_false_iff, List.any_eq_false] at hmore
  intro b hb
  rw [groupingStep_buckets] at hb
  obtain ⟨b', hb', rfl⟩ := List.mem_map.mp hb
  have h1 := hmore.1 b' hb'
  have h2 := hmore.2 b' hb'
  rw [if_neg h2]
  simpa using h1

/-- For every file, the detection kept in the row of a grouping step and the
vector the step leaves are together the vector it started from. -/
theorem groupingStep_file_perm (d : F32) (keychem : Str) (bs : List (List ChemRecord))
    (hfields : ∀ b ∈ bs, ∀ r ∈ b, r.nfields ≠ 0) (f : Nat) :
    (contribution f ⟨keychem, (groupingStep d bs).lowest_recs, (groupingStep d bs).lowest_time1⟩
      ++ ((groupingStep d bs).buckets[f]?).getD []).Perm ((bs[f]?).getD []) := by
  unfold contribution
  simp only [groupingStep_lowest_recs, groupingStep_buckets, List.getElem?_map]
  cases hf : bs[f]? with
  | none => simp
  | some b =>
    have hb : b ∈ bs := List.getElem?_mem hf
    simpa using step_file_perm _ (pushback_NA d _ _) b (hfields b hb)

theorem groupingStep_subset (d : F32) (bs : List (List ChemRecord)) :
    ∀ b' ∈ (groupingStep d bs).buckets, ∃ b ∈ bs, ∀ r ∈ b', r ∈ b := by
  intro b' hb'
  rw [groupingStep_buckets] at hb'
  obtain ⟨b, hb, rfl⟩ := List.mem_map.mp hb'
  exact ⟨b, hb, step_file_subset _ (pushback_NA d _ _) b⟩

theorem groupingStep_buckets_length (d : F32) (bs : List (List ChemRecord)) :
    (groupingStep d bs).buckets.length = bs.length := by
  rw [groupingStep_buckets, List.length_map]

theorem detectionsOf_cons (f : Nat) (row : AlignedRow) (rows : List AlignedRow) :
    detectionsOf f (row :: rows) = contribution f row ++ detectionsOf f rows := by
  simp [detectionsOf]

theorem detectionsOf_append (f : Nat) (rows rows' : List AlignedRow) :
    detectionsOf f (rows ++ rows') = detectionsOf f rows ++ detectionsOf f rows' := by
  simp [detectionsOf]

/-- The loop of one chemical, unrestricted, with positive times and a
non-negative tolerance: with more fuel than records it ends, leaves every
vector empty, and for every file the detections in the rows are the file's
detections. -/
theorem alignLoop_complete (d : F32) (keychem : Str) (hd : 0 ≤ d) :
    ∀ (fuel : Nat) (bs : List (List ChemRecord)),
      (∀ b ∈ bs, ∀ r ∈ b, r.nfields ≠ 0 ∧ 0 < r.time1) → totalRecords bs < fuel →
      (alignLoop d false keychem fuel bs).finished = true ∧
      (∀ b ∈ (alignLoop d false keychem fuel bs).buckets, b = []) ∧
      ∀ f, (detectionsOf f (alignLoop d false keychem fuel bs).rows).Perm ((bs[f]?).getD []) := by
  intro fuel
  induction fuel with
  | zero => intro bs _ h; exact absurd h (Nat.not_lt_zero _)
  | succ k ih =>
    intro bs hinv hfuel
    have hfields : ∀ b ∈ bs, ∀ r ∈ b, r.nfields ≠ 0 := fun b hb r hr => (hinv b hb r hr).1
    have hpos : ∀ b ∈ bs, ∀ r ∈ b, 0 < r.time1 := fun b hb r hr => (hinv b hb r hr).2
    have hperm := groupingStep_file_perm d keychem bs hfields
    rw [alignLoop]
    simp only [Bool.not_false, Bool.or_true, if_true]
    cases hmore : (groupingStep d bs).more_data_seen with
    | false =>
      have hdone := groupingStep_done d bs hmore
      simp only [Bool.false_eq_true, if_false]
      refine ⟨trivial, hdone, fun f => ?_⟩
      have hf : ((groupingStep d bs).buckets[f]?).getD [] = [] := by
        cases h : (groupingStep d bs).buckets[f]? with
        | none => rfl
        | some b => exact hdone b (List.getElem?_mem h)
      have := hperm f
      rw [hf, List.append_nil] at this
      simpa [detectionsOf] using this
    | true =>
      have hprog := groupingStep_progress d bs hd hpos hmore
      have hinv' : ∀ b ∈ (groupingStep d bs).buckets, ∀ r ∈ b, r.nfields ≠ 0 ∧ 0 < r.time1 := by
        intro b' hb' r hr
        obtain ⟨b, hb, hsub⟩ := groupingStep_subset d bs b' hb'
        exact hinv b hb r (hsub r hr)
      obtain ⟨h1, h2, h3⟩ := ih (groupingStep d bs).buckets hinv' (by omega)
      simp only [if_true]
      refine ⟨h1, h2, fun f => ?_⟩
      rw [List.singleton_append, detectionsOf_cons]
      exact (List.Perm.append_left _ (h3 f)).trans (hperm f)

theorem alignLoop_keychem (d : F32) (restricted : Bool) (keychem : Str) :
    ∀ (fuel : Nat) (bs : List (List ChemRecord)),
      ∀ row ∈ (alignLoop d restricted keychem fuel bs).rows, row.keychem = keychem := by
  intro fuel
  induction fuel with
  | zero => intro bs row h; simp [alignLoop] at h
  | succ k ih =>
    intro bs row h
    rw [alignLoop] at h
    dsimp only at h
    split at h
    · rcases List.mem_append.mp h with h | h
      · split at h
        · simp at h; rw [h]
        · simp at h
      · exact ih _ row h
    · dsimp only at h
      split at h
      · simp at h; rw [h]
      · simp at h

theorem alignAll_keychem (d : F32) (restricted : Bool) (fuel : Nat) (AllFileData : List FileData) :
    ∀ (Chemicals : List Str),
      ∀ row ∈ (alignAll d restricted fuel AllFileData Chemicals).1, row.keychem ∈ Chemicals := by
  intro Chemicals
  induction Chemicals with
  | nil => intro row h; simp [alignAll] at h
  | cons k ks ih =>
    intro row h
    rw [alignAll] at h
    dsimp only at h
    split at h
    · rcases List.mem_append.mp h with h | h
      · rw [alignLoop_keychem d restricted k fuel _ row h]; simp
      · exact List.mem_cons_of_mem _ (ih row h)
    · rw [alignLoop_keychem d restricted k fuel _ row h]; simp

/-- C1 (completeness, partition).  Unrestricted, with a tolerance that is not
negative, every retention time positive, every stored record a detection (it
has fields), and fuel above the number of records of each chemical: the run
over all chemicals ends, and for every chemical and every file the detections
that appear in the rows emitted for the chemical are, as a multiset, the
detections of the file's vector for the chemical. -/
theorem completeness_partition (adiff : F32) (fuel : Nat) (AllFileData : List FileData)
    (Chemicals : List Str) (hd : 0 ≤ adiff) (hnodup : Chemicals.Nodup)
    (hrec : ∀ fd ∈ AllFileData, ∀ k, ∀ r ∈ fd k, r.nfields ≠ 0 ∧ 0 < r.time1)
    (hfuel : ∀ k ∈ Chemicals, totalRecords (AllFileData.map fun fd => fd k) < fuel) :
    (alignAll adiff false fuel AllFileData Chemicals).2 = true ∧
    ∀ k ∈ Chemicals, ∀ f,
      (detectionsOf f
        ((alignAll adiff false fuel AllFileData Chemicals).1.filter
          fun row => decide (row.keychem = k))).Perm
        (((AllFileData[f]?).map fun fd => fd k).getD []) := by
  induction Chemicals with
  | nil => exact ⟨rfl, fun k hk => absurd hk (List.not_mem_nil k)⟩
  | cons c cs ih =>
    have hinv : ∀ b ∈ (AllFileData.map fun fd => fd c), ∀ r ∈ b, r.nfields ≠ 0 ∧ 0 < r.time1 := by
      intro b hb r hr
      obtain ⟨fd, hfd, rfl⟩ := List.mem_map.mp hb
      exact hrec fd hfd c r hr
    obtain ⟨h1, _, h3⟩ := alignLoop_complete adiff c hd fuel _ hinv (hfuel c (by simp))
    obtain ⟨hc, hcs⟩ := List.nodup_cons.mp hnodup
    obtain ⟨i1, i2⟩ := ih hcs (fun k hk => hfuel k (List.mem_cons_of_mem _ hk))
    rw [alignAll]
    simp only [h1, if_true]
    refine ⟨i1, fun k hk f => ?_⟩
    rw [List.filter_append, detectionsOf_append]
    by_cases hkc : k = c
    · subst hkc
      have e1 : (alignLoop adiff false k fuel (AllFileData.map fun fd => fd k)).rows.filter
          (fun row => decide (row.keychem = k)) =
          (alignLoop adiff false k fuel (AllFileData.map fun fd => fd k)).rows := by
        rw [List.filter_eq_self]
        intro row hrow
        simp [alignLoop_keychem adiff false k fuel _ row hrow]
      have e2 : (alignAll adiff false fuel AllFileData cs).1.filter
          (fun row => decide (row.keychem = k)) = [] := by
        rw [List.filter_eq_nil_iff]
        intro row hrow
        have := alignAll_keychem adiff false fuel AllFileData cs row hrow
        simp only [decide_eq_true_eq]
        intro h; rw [h] at this; exact hc this
      rw [e1, e2]
      have := h3 f
      rw [List.getElem?_map] at this
      simpa [detectionsOf] using this
    · have hk' : k ∈ cs := by
        rcases List.mem_cons.mp hk with h | h
        · exact absurd h hkc
        · exact h
      have e1 : (alignLoop adiff false c fuel (AllFileData.map fun fd => fd c)).rows.filter
          (fun row => decide (row.keychem = k)) = [] := by
        rw [List.filter_eq_nil_iff]
        intro row hrow
        simp only [decide_eq_true_eq]
        rw [alignLoop_keychem adiff false c fuel _ row hrow]
        exact fun h => hkc h.symm
      rw [e1]
      simpa [detectionsOf] using i2 k hk' f

/-! ## Two files with one detection each -/

theorem groupingStep_pair (d : F32) (a b : ChemRecord) :
    groupingStep d [[a], [b]] =
      { lowest_recs :=
          [if pushback d (lowerTo (lowerTo 0 a.time1) b.time1) 0 a then NA else a,
           if pushback d (lowerTo (lowerTo 0 a.time1) b.time1) 0 b then NA else b]
        buckets :=
          [if pushback d (lowerTo (lowerTo 0 a.time1) b.time1) 0 a then [a] else [],
           if pushback d (lowerTo (lowerTo 0 a.time1) b.time1) 0 b then [b] else []]
        lowest_time1 := lowerTo (lowerTo 0 a.time1) b.time1
        second_lowest_time1 := 0
        more_data_seen :=
          pushback d (lowerTo (lowerTo 0 a.time1) b.time1) 0 a ||
            pushback d (lowerTo (lowerTo 0 a.time1) b.time1) 0 b } := by
  simp [groupingStep, selectCandidates, selectFile, sortHigher]

theorem groupingStep_left (d : F32) (a : ChemRecord) :
    groupingStep d [[a], []] =
      { lowest_recs := [if pushback d (lowerTo 0 a.time1) 0 a then NA else a, NA]
        buckets := [if pushback d (lowerTo 0 a.time1) 0 a then [a] else [], []]
        lowest_time1 := lowerTo 0 a.time1
        second_lowest_time1 := 0
        more_data_seen := pushback d (lowerTo 0 a.time1) 0 a } := by
  simp [groupingStep, selectCandidates, selectFile, sortHigher, pushback_NA]

theorem groupingStep_right (d : F32) (b : ChemRecord) :
    groupingStep d [[], [b]] =
      { lowest_recs := [NA, if pushback d (lowerTo 0 b.time1) 0 b then NA else b]
        buckets := [[], if pushback d (lowerTo 0 b.time1) 0 b then [b] else []]
        lowest_time1 := lowerTo 0 b.time1
        second_lowest_time1 := 0
        more_data_seen := pushback d (lowerTo 0 b.time1) 0 b } := by
  simp [groupingStep, selectCandidates, selectFile, sortHigher, pushback_NA]

theorem lowerTo_zero (t : F32) : lowerTo 0 t = t := by simp [lowerTo]

theorem lowerTo_of_le (x t : F32) (hx : 0 < x) (h : x ≤ t) : lowerTo x t = x := by
  unfold lowerTo
  rw [if_neg]
  rintro (h0 | h1)
  · rw [h0] at hx
    exact f32_lt_irrefl 0 hx
  · exact f32_not_lt_of_le h h1

theorem lowerTo_of_ge (x t : F32) (h : t ≤ x) : lowerTo x t = t := by
  unfold lowerTo
  split
  · rfl
  · next hn =>
    push_neg at hn
    exact f32_le_antisymm
      (f32_le_of_not_lt (f32_ne_nan_of_le_left h) (f32_ne_nan_of_le_right h) hn.2) h

theorem cutoff_fraction (d l : F32) (hd : d < 1) : cutoff d l = (1 + d) * l := by
  have : ¬ (d ≥ 1) := f32_not_le_of_lt hd
  simp [cutoff, afraction, this]

/-- With nothing left in the vectors (`second_lowest_time1` is 0) and a positive
lowest time, only the cutoff test can push a detection back. -/
theorem pushback_second_zero (d l : F32) (r : ChemRecord) (hf : r.nfields ≠ 0) (hl : 0 < l) :
    pushback d l 0 r = decide (r.time1 > cutoff d l) := by
  unfold pushback
  rw [if_pos hf]
  by_cases h : r.time1 > cutoff d l
  · simp [h]
  · rw [if_neg h, if_neg (f32_not_abs_neg_lt_sub l r.time1 hl)]
    simp [h]

theorem alignLoop_last (d : F32) (restricted : Bool) (k : Str) (fuel : Nat) (a : ChemRecord)
    (hd : 0 ≤ d) (hpos : 0 < a.time1) :
    alignLoop d restricted k (fuel + 1) [[a], []] =
        ⟨if restricted then [] else [⟨k, [a, NA], a.time1⟩], [[], []], true⟩ ∧
    alignLoop d restricted k (fuel + 1) [[], [a]] =
        ⟨if restricted then [] else [⟨k, [NA, a], a.time1⟩], [[], []], true⟩ := by
  have hp : pushback d a.time1 0 a = false := pushback_lowest d a.time1 0 a hd hpos rfl
  constructor
  · rw [alignLoop, groupingStep_left, lowerTo_zero, hp]
    cases restricted <;> simp [unfound, NA, ChemRecord.nfields]
  · rw [alignLoop, groupingStep_right, lowerTo_zero, hp]
    cases restricted <;> simp [unfound, NA, ChemRecord.nfields]

/-- The loop on two files with one detection each, `lo` not later than `hi`:
the cases of the tolerance test, for both orders of the files and both values
of `restricted`. -/
theorem alignLoop_two (d : F32) (k : Str) (lo hi : ChemRecord) (fuel : Nat) (restricted : Bool)
    (hlo : lo.nfields ≠ 0) (hhi : hi.nfields ≠ 0) (hpos : 0 < lo.time1)
    (hle : lo.time1 ≤ hi.time1) (hd0 : 0 ≤ d) (hd1 : d < 1) :
    (hi.time1 ≤ lo.time1 * (1 + d) →
      alignLoop d restricted k (fuel + 2) [[lo], [hi]] =
          ⟨[⟨k, [lo, hi], lo.time1⟩], [[], []], true⟩ ∧
      alignLoop d restricted k (fuel + 2) [[hi], [lo]] =
          ⟨[⟨k, [hi, lo], lo.time1⟩], [[], []], true⟩) ∧
    (¬ hi.time1 ≤ lo.time1 * (1 + d) →
      alignLoop d restricted k (fuel + 2) [[lo], [hi]] =
          ⟨if restricted then [] else [⟨k, [lo, NA], lo.time1⟩, ⟨k, [NA, hi], hi.time1⟩],
            [[], []], true⟩ ∧
      alignLoop d restricted k (fuel + 2) [[hi], [lo]] =
          ⟨if restricted then [] else [⟨k, [NA, lo], lo.time1⟩, ⟨k, [hi, NA], hi.time1⟩],
            [[], []], true⟩) := by
  have hhipos : 0 < hi.time1 := f32_lt_of_lt_of_le hpos hle
  have hcut : lo.time1 ≤ (1 + d) * lo.time1 := by
    have := cutoff_ge d lo.time1 hd0 hpos
    rwa [cutoff_fraction d _ hd1] at this
  have hL1 : lowerTo (lowerTo 0 lo.time1) hi.time1 = lo.time1 := by
    rw [lowerTo_zero, lowerTo_of_le _ _ hpos hle]
  have hL2 : lowerTo (lowerTo 0 hi.time1) lo.time1 = lo.time1 := by
    rw [lowerTo_zero, lowerTo_of_ge _ _ hle]
  have hplo : pushback d lo.time1 0 lo = false := pushback_lowest d lo.time1 0 lo hd0 hpos rfl
  have hphi : pushback d lo.time1 0 hi = decide (hi.time1 > (1 + d) * lo.time1) := by
    rw [pushback_second_zero d lo.time1 hi hhi hpos, cutoff_fraction d _ hd1]
  have hnf : unfound [lo, hi] = false ∧ unfound [hi, lo] = false := by
    have h1 : lo.nfields ≠ 0 := hlo
    have h2 : hi.nfields ≠ 0 := hhi
    simp [unfound, h1, h2]
  have hnf1 : unfound [lo, NA] = true ∧ unfound [NA, lo] = true := by
    simp [unfound, NA, ChemRecord.nfields]
  constructor
  · intro hin
    have hdec : decide (hi.time1 > (1 + d) * lo.time1) = false := by
      rw [decide_eq_false_iff_not, f32_mul_comm]
      exact f32_not_lt_of_le hin
    constructor
    · rw [alignLoop, groupingStep_pair, hL1, hplo, hphi, hdec]
      simp [hnf.1]
    · rw [alignLoop, groupingStep_pair, hL2, hplo, hphi, hdec]
      simp [hnf.2]
  · intro hout
    have hdec : decide (hi.time1 > (1 + d) * lo.time1) = true := by
      rw [decide_eq_true_iff]
      rw [f32_mul_comm] at hout
      exact f32_lt_of_not_le (f32_ne_nan_of_le_right hle) (f32_ne_nan_of_le_right hcut) hout
    have hlast := alignLoop_last d restricted k fuel hi hd0 hhipos
    constructor
    · rw [alignLoop, groupingStep_pair, hL1, hplo, hphi, hdec]
      simp only [Bool.false_eq_true, if_false, if_true, Bool.false_or, hnf1.1, Bool.not_true]
      rw [hlast.2]
      cases restricted <;> simp
    · rw [alignLoop, groupingStep_pair, hL2, hplo, hphi, hdec]
      simp only [Bool.false_eq_true, if_false, if_true, Bool.or_false, hnf1.2, Bool.not_true]
      rw [hlast.1]
      cases restricted <;> simp

/-- C2, as stated, fails in three ways.  In restricted mode: with times 10.0
and 10.11 and tolerance 0.01 the loop run with `restricted` emits no row instead
of two.  Through the rounding of `float`: the texts `7` and `7.07` with
tolerance `0.01` satisfy `7.07 ≤ 7 * (1 + 0.01)` as numbers, but the `float`
read from `7.07` is above the `float` product, and the run writes two rows
instead of one.  And with times and a tolerance that are `float`s exactly, `lo`
= 1 + 100/2^23, `hi` = 1 + 1/128 + 101/2^23, `d` = 1/128: `hi` is above the
exact `lo * (1 + d)`, but the product is rounded up to `hi`, and the loop emits
one row with both detections instead of two rows. -/
theorem tolerance_boundary_counterexample :
    ((0 : F32) < 10 ∧ (10 : F32) ≤ 1011 / 100 ∧ (0 : F32) ≤ 1 / 100 ∧ (1 / 100 : F32) < 1 ∧
      ¬ ((1011 / 100 : F32) ≤ 10 * (1 + 1 / 100)) ∧
      alignLoop (1 / 100) true "X".toList 2
          [[exampleDetection "7" "10.0" 10], [exampleDetection "8" "10.11" (1011 / 100)]] =
        ⟨[], [[], []], true⟩) ∧
    ((707 / 100 : ℚ) ≤ 7 * (1 + 1 / 100) ∧
      (strtofDecimal "0.01".toList).1 = 1 / 100 ∧
      F32.toRat? (strtofDecimal "7.07".toList).1 = some (14826865 / 2097152) ∧
      F32.toRat? ((7 : F32) * (1 + 1 / 100)) = some (14826864 / 2097152) ∧
      mainRun strtofDecimal false false (1 / 100) "\n".toList 2
          [[",A,A".toList, "id,x,t".toList, "X,1,7".toList],
           [",B,B".toList, "peak,y,t".toList, "X,2,7.07".toList]] =
        RunResult.written [",A,,B,\n".toList, "id,x,t,y,t\n".toList, "X,1,7,,\n".toList,
          "X,,,2,7.07\n".toList]) ∧
    (F32.toRat? (8388708 / 8388608) = some (8388708 / 8388608) ∧
      F32.toRat? (8454245 / 8388608) = some (8454245 / 8388608) ∧
      F32.toRat? (1 / 128) = some (1 / 128) ∧
      ¬ ((8454245 / 8388608 : ℚ) ≤ 8388708 / 8388608 * (1 + 1 / 128)) ∧
      (8454245 / 8388608 : F32) ≤ 8388708 / 8388608 * (1 + 1 / 128) ∧
      alignLoop (1 / 128) false "X".toList 2
          [[exampleDetection "7" "lo" (8388708 / 8388608)],
           [exampleDetection "8" "hi" (8454245 / 8388608)]] =
        ⟨[⟨"X".toList, [exampleDetection "7" "lo" (8388708 / 8388608),
            exampleDetection "8" "hi" (8454245 / 8388608)], 8388708 / 8388608⟩],
          [[], []], true⟩) := by
  decide!

/-- C2 (tolerance boundary), amended.  Two files with one detection each of the
same chemical, positive times with `lo` not later than `hi`, a fractional
tolerance `0 ≤ d < 1`, at least two units of fuel; times and tolerance are
`float`s, and `lo * (1 + d)` is the `float` product of `lo` and the `float` sum
`1 + d`, each rounded to the nearest `float`.  If `hi ≤ lo * (1 + d)` the loop
emits one row holding both detections (in either mode).  Otherwise,
unrestricted, it emits two rows, the first holding only the `lo` detection and
the second only the `hi` detection, and restricted it emits no row.  Both
orders of the two files are covered. -/
theorem tolerance_boundary (d : F32) (k : Str) (lo hi : ChemRecord) (fuel : Nat)
    (hlo : lo.nfields ≠ 0) (hhi : hi.nfields ≠ 0) (hpos : 0 < lo.time1)
    (hle : lo.time1 ≤ hi.time1) (hd0 : 0 ≤ d) (hd1 : d < 1) (hfuel : 2 ≤ fuel) :
    (hi.time1 ≤ lo.time1 * (1 + d) →
      ∀ restricted,
        alignLoop d restricted k fuel [[lo], [hi]] =
            ⟨[⟨k, [lo, hi], lo.time1⟩], [[], []], true⟩ ∧
        alignLoop d restricted k fuel [[hi], [lo]] =
            ⟨[⟨k, [hi, lo], lo.time1⟩], [[], []], true⟩) ∧
    (¬ hi.time1 ≤ lo.time1 * (1 + d) →
      alignLoop d false k fuel [[lo], [hi]] =
          ⟨[⟨k, [lo, NA], lo.time1⟩, ⟨k, [NA, hi], hi.time1⟩], [[], []], true⟩ ∧
      alignLoop d false k fuel [[hi], [lo]] =
          ⟨[⟨k, [NA, lo], lo.time1⟩, ⟨k, [hi, NA], hi.time1⟩], [[], []], true⟩ ∧
      alignLoop d true k fuel [[lo], [hi]] = ⟨[], [[], []], true⟩ ∧
      alignLoop d true k fuel [[hi], [lo]] = ⟨[], [[], []], true⟩) := by
  obtain ⟨n, rfl⟩ : ∃ n, fuel = n + 2 := ⟨fuel - 2, by omega⟩
  refine ⟨fun hin restricted => ?_, fun hout => ?_⟩
  · exact (alignLoop_two d k lo hi n restricted hlo hhi hpos hle hd0 hd1).1 hin
  · have hf := (alignLoop_two d k lo hi n false hlo hhi hpos hle hd0 hd1).2 hout
    have ht := (alignLoop_two d k lo hi n true hlo hhi hpos hle hd0 hd1).2 hout
    exact ⟨by simpa using hf.1, by simpa using hf.2, by simpa using ht.1, by simpa using ht.2⟩

/-- The witness of C2: the times 10.0 and 10.09 with tolerance 0.01 give one
row with both detections; the times 10.0 and 10.11 give two rows. -/
theorem tolerance_boundary_witness :
    alignLoop (1 / 100) false "X".toList 2
        [[exampleDetection "7" "10.0" 10], [exampleDetection "8" "10.09" (1009 / 100)]] =
      ⟨[⟨"X".toList,
          [exampleDetection "7" "10.0" 10, exampleDetection "8" "10.09" (1009 / 100)], 10⟩],
        [[], []], true⟩ ∧
    alignLoop (1 / 100) false "X".toList 2
        [[exampleDetection "7" "10.0" 10], [exampleDetection "8" "10.11" (1011 / 100)]] =
      ⟨[⟨"X".toList, [exampleDetection "7" "10.0" 10, NA], 10⟩,
        ⟨"X".toList, [NA, exampleDetection "8" "10.11" (1011 / 100)], 1011 / 100⟩],
        [[], []], true⟩ :=
  ⟨((tolerance_boundary (1 / 100) "X".toList (exampleDetection "7" "10.0" 10)
      (exampleDetection "8" "10.09" (1009 / 100)) 2 (by decide) (by decide)
      (by decide!) (by decide!) (by decide!)
      (by decide!) (le_refl 2)).1 (by decide!) false).1,
   ((tolerance_boundary (1 / 100) "X".toList (exampleDetection "7" "10.0" 10)
      (exampleDetection "8" "10.11" (1011 / 100)) 2 (by decide) (by decide)
      (by decide!) (by decide!) (by decide!)
      (by decide!) (le_refl 2)).2 (by decide!)).1⟩

/-! ## Restricted mode -/

theorem unfound_eq_not_everyFileContributes (row : AlignedRow) :
    unfound row.lowest_recs = !everyFileContributes row := by
  unfold unfound everyFileContributes
  induction row.lowest_recs with
  | nil => rfl
  | cons r rs ih =>
    simp only [List.any_cons, List.all_cons, ih, Bool.not_and]
    cases h : r.nfields == 0 <;> simp [bne, h]

theorem alignLoop_restricted (d : F32) (k : Str) :
    ∀ (fuel : Nat) (bs : List (List ChemRecord)),
      (alignLoop d true k fuel bs).rows =
          (alignLoop d false k fuel bs).rows.filter everyFileContributes ∧
      (alignLoop d true k fuel bs).buckets = (alignLoop d false k fuel bs).buckets ∧
      (alignLoop d true k fuel bs).finished = (alignLoop d false k fuel bs).finished := by
  intro fuel
  induction fuel with
  | zero => intro bs; simp [alignLoop]
  | succ n ih =>
    intro bs
    obtain ⟨h1, h2, h3⟩ := ih (groupingStep d bs).buckets
    have hu := unfound_eq_not_everyFileContributes
      ⟨k, (groupingStep d bs).lowest_recs, (groupingStep d bs).lowest_time1⟩
    simp only [] at hu
    rw [alignLoop, alignLoop]
    cases hmore : (groupingStep d bs).more_data_seen <;>
      cases hc : everyFileContributes
        ⟨k, (groupingStep d bs).lowest_recs, (groupingStep d bs).lowest_time1⟩ <;>
      simp [hu, hc, h1, h2, h3, List.filter_cons]

theorem alignAll_restricted (d : F32) (fuel : Nat) (AllFileData : List FileData) :
    ∀ (Chemicals : List Str),
      (alignAll d true fuel AllFileData Chemicals).1 =
          (alignAll d false fuel AllFileData Chemicals).1.filter everyFileContributes ∧
      (alignAll d true fuel AllFileData Chemicals).2 =
          (alignAll d false fuel AllFileData Chemicals).2 := by
  intro Chemicals
  induction Chemicals with
  | nil => simp [alignAll]
  | cons c cs ih =>
    obtain ⟨h1, _, h3⟩ := alignLoop_restricted d c fuel (AllFileData.map fun fd => fd c)
    rw [alignAll, alignAll]
    simp only [h3, h1]
    split
    · simp [ih.1, ih.2]
    · simp

/-- C3 (restricted-mode filtering), amended.  For every input and every amount
of fuel (every number of grouping steps the run is followed for), the rows
emitted with `restricted` are the rows emitted without it in which every file
contributes a detection, in the same order, and the run ends in one mode
exactly when it ends in the other.  With two files and a chemical that only
file 1 has, as one detection with a positive time (tolerance not negative, at
least one grouping step): restricted, no row is emitted; unrestricted, one row
is emitted, and its text is the chemical name, the fields of the detection and
then one comma for each data column of file 2. -/
theorem restricted_mode_filtering (d : F32) (fuel : Nat) (AllFileData : List FileData)
    (Chemicals : List Str) (k : Str) (a : ChemRecord) (n : Nat) (dc1 dc2 : Int) (term : Str) :
    ((alignAll d true fuel AllFileData Chemicals).1 =
        (alignAll d false fuel AllFileData Chemicals).1.filter everyFileContributes ∧
      (alignAll d true fuel AllFileData Chemicals).2 =
        (alignAll d false fuel AllFileData Chemicals).2) ∧
    (0 ≤ d → a.nfields ≠ 0 → 0 < a.time1 →
      (alignLoop d true k (n + 1) [[a], []]).rows = [] ∧
      (alignLoop d false k (n + 1) [[a], []]).rows = [⟨k, [a, NA], a.time1⟩] ∧
      outline [dc1, dc2] term ⟨k, [a, NA], a.time1⟩ =
        k ++ emitFields dc1 0 a.fields ++ List.replicate dc2.toNat ',' ++ term) := by
  refine ⟨alignAll_restricted d fuel AllFileData Chemicals, fun hd ha hpos => ⟨?_, ?_, ?_⟩⟩
  · rw [(alignLoop_last d true k n a hd hpos).1]; rfl
  · rw [(alignLoop_last d false k n a hd hpos).1]; rfl
  · have ha' : a.fields.length ≠ 0 := ha
    simp [outline, accumulate, emitBlanks, NA, ChemRecord.nfields, ha']

/-- The witness of C1: two files, three detections of one chemical. -/
theorem completeness_partition_witness :
    (alignAll (1 / 100) false 4
        [exampleFile [exampleDetection "7" "10.0" 10, exampleDetection "9" "12.0" 12],
         exampleFile [exampleDetection "8" "10.09" (1009 / 100)]] ["X".toList]).2 = true ∧
    ∀ k ∈ ["X".toList], ∀ f,
      (detectionsOf f
        ((alignAll (1 / 100) false 4
          [exampleFile [exampleDetection "7" "10.0" 10, exampleDetection "9" "12.0" 12],
           exampleFile [exampleDetection "8" "10.09" (1009 / 100)]] ["X".toList]).1.filter
          fun row => decide (row.keychem = k))).Perm
        ((([exampleFile [exampleDetection "7" "10.0" 10, exampleDetection "9" "12.0" 12],
           exampleFile [exampleDetection "8" "10.09" (1009 / 100)]][f]?).map
            fun fd => fd k).getD []) :=
  completeness_partition (1 / 100) 4
    [exampleFile [exampleDetection "7" "10.0" 10, exampleDetection "9" "12.0" 12],
     exampleFile [exampleDetection "8" "10.09" (1009 / 100)]] ["X".toList]
    (by decide!) (by simp)
    (by
      intro fd hfd k r hr
      simp only [List.mem_cons, List.mem_singleton, List.not_mem_nil, or_false] at hfd
      rcases hfd with rfl | rfl
      · simp only [exampleFile, List.foldl_cons, List.foldl_nil, storeRecord] at hr
        split at hr
        · simp only [List.nil_append, List.cons_append, List.mem_cons, List.mem_singleton,
            List.not_mem_nil, or_false] at hr
          rcases hr with rfl | rfl <;>
            exact ⟨by decide, by decide!⟩
        · simp at hr
      · simp only [exampleFile, List.foldl_cons, List.foldl_nil, storeRecord] at hr
        split at hr
        · simp only [List.nil_append, List.mem_singleton] at hr
          subst hr
          exact ⟨by decide, by decide!⟩
        · simp at hr)
    (by
      intro k hk
      simp only [List.mem_singleton] at hk
      subst hk
      decide)

/-- The witness of C3: the chemical `X` at time 5.0 in file 1 only. -/
theorem restricted_mode_filtering_witness :
    ((alignAll (1 / 100) true 1
          [exampleFile [exampleDetection "7" "5.0" 5], exampleFile []] ["X".toList]).1 =
        (alignAll (1 / 100) false 1
          [exampleFile [exampleDetection "7" "5.0" 5], exampleFile []] ["X".toList]).1.filter
            everyFileContributes ∧
      (alignAll (1 / 100) true 1
          [exampleFile [exampleDetection "7" "5.0" 5], exampleFile []] ["X".toList]).2 =
        (alignAll (1 / 100) false 1
          [exampleFile [exampleDetection "7" "5.0" 5], exampleFile []] ["X".toList]).2) ∧
    (alignLoop (1 / 100) true "X".toList (0 + 1) [[exampleDetection "7" "5.0" 5], []]).rows
      = [] ∧
    (alignLoop (1 / 100) false "X".toList (0 + 1) [[exampleDetection "7" "5.0" 5], []]).rows
      = [⟨"X".toList, [exampleDetection "7" "5.0" 5, NA], (exampleDetection "7" "5.0" 5).time1⟩] ∧
    outline [2, 2] "\n".toList
        ⟨"X".toList, [exampleDetection "7" "5.0" 5, NA], (exampleDetection "7" "5.0" 5).time1⟩ =
      "X".toList ++ emitFields 2 0 (exampleDetection "7" "5.0" 5).fields ++
        List.replicate (2 : Int).toNat ',' ++ "\n".toList :=
  ⟨(restricted_mode_filtering (1 / 100) 1
      [exampleFile [exampleDetection "7" "5.0" 5], exampleFile []] ["X".toList] "X".toList
      (exampleDetection "7" "5.0" 5) 0 2 2 "\n".toList).1,
   (restricted_mode_filtering (1 / 100) 1
      [exampleFile [exampleDetection "7" "5.0" 5], exampleFile []] ["X".toList] "X".toList
      (exampleDetection "7" "5.0" 5) 0 2 2 "\n".toList).2 (by decide!) (by decide)
      (by decide!)⟩

/-! ## Header lines and their cells -/

theorem getlineFields_cell (c : Str) (hc : ',' ∉ c) (acc rest : Str) :
    getlineFields acc (c ++ rest) = getlineFields (acc ++ c) rest := by
  induction c generalizing acc with
  | nil => simp
  | cons x xs ih =>
    have hx : x ≠ ',' := by
      intro h; apply hc; simp [h]
    have hxs : ',' ∉ xs := by
      intro h; apply hc; simp [h]
    rw [List.cons_append, getlineFields, if_neg hx, ih hxs]
    simp

/-- Splitting the comma-joined line of cells without commas, the last of them
not empty, gives the cells back. -/
theorem getlineFields_joinFields (cells : List Str) (hne : cells ≠ [])
    (hcomma : ∀ c ∈ cells, ',' ∉ c) (hlast : cells.getLast? ≠ some []) :
    getlineFields [] (joinFields cells) = cells := by
  induction cells with
  | nil => exact absurd rfl hne
  | cons c cs ih =>
    cases cs with
    | nil =>
      have hc : c ≠ [] := by simpa using hlast
      have := getlineFields_cell c (hcomma c (by simp)) [] []
      simp only [List.append_nil, List.nil_append] at this
      simp only [joinFields]
      rw [this, getlineFields]
      simp [hc]
    | cons d ds =>
      have hl : (d :: ds).getLast? ≠ some [] := by simpa [List.getLast?_cons_cons] using hlast
      simp only [joinFields]
      rw [getlineFields_cell c (hcomma c (by simp)), List.nil_append, getlineFields, if_pos rfl,
        ih (by simp) (fun x hx => hcomma x (by simp [hx])) hl]

theorem blankCell_nil : blankCell [] = true := rfl

theorem ne_nil_of_not_blank (c : Str) (h : blankCell c = false) : c ≠ [] := by
  intro h0; subst h0; simp [blankCell] at h

theorem header1Cell_header (s : HeaderScan) (c : Str) :
    (header1Cell s c).header = s.header ++ [keptCell c] := by
  unfold header1Cell keptCell blankCell
  by_cases h1 : c.isEmpty = true
  · simp [h1, last_field]
  · by_cases h2 : virtuallyEmpty c = true
    · simp [h1, h2, last_field]
    · simp [h1, h2]

theorem header1Cell_count (s : HeaderScan) (c : Str) :
    (header1Cell s c).count_empties = s.count_empties + (if c.isEmpty then 1 else 0) := by
  unfold header1Cell
  by_cases h1 : c.isEmpty = true
  · simp [h1]
  · by_cases h2 : virtuallyEmpty c = true
    · simp [h1, h2]
    · simp [h1, h2]

theorem header1Cell_flags (s : HeaderScan) (c : Str) :
    (header1Cell s c).last_field_empty = blankCell c ∧
      (header1Cell s c).last_empty_field_counted = c.isEmpty := by
  unfold header1Cell blankCell
  by_cases h1 : c.isEmpty = true
  · simp [h1]
  · by_cases h2 : virtuallyEmpty c = true
    · simp [h1, h2]
    · simp [h1, h2]

theorem header2Cell_eq (s : HeaderScan) (c : Str) : header2Cell s c = header1Cell s c := by
  unfold header2Cell header1Cell
  by_cases h1 : c.isEmpty = true
  · have : c = [] := by simpa using h1
    simp [this, last_field]
  · simp [h1]

theorem foldl_header1Cell_header (cells : List Str) (s : HeaderScan) :
    (cells.foldl header1Cell s).header = s.header ++ cells.map keptCell := by
  induction cells generalizing s with
  | nil => simp
  | cons c cs ih => simp [ih, header1Cell_header]

theorem foldl_header1Cell_count (cells : List Str) (s : HeaderScan) :
    (cells.foldl header1Cell s).count_empties =
      s.count_empties + ((cells.filter fun c => c.isEmpty).length : Int) := by
  induction cells generalizing s with
  | nil => simp
  | cons c cs ih =>
    rw [List.foldl_cons, ih, header1Cell_count, List.filter_cons]
    by_cases h : c.isEmpty = true
    · simp [h]; ring
    · simp [h]

theorem foldl_header1Cell_flags (cells : List Str) (s : HeaderScan) (last : Str)
    (h : cells.getLast? = some last) :
    (cells.foldl header1Cell s).last_field_empty = blankCell last ∧
      (cells.foldl header1Cell s).last_empty_field_counted = last.isEmpty := by
  induction cells using List.reverseRecOn with
  | nil => simp at h
  | append_singleton cs c _ =>
    rw [List.getLast?_append, List.getLast?_singleton] at h
    have h : c = last := by simpa [Option.or] using h
    subst h
    rw [List.foldl_append, List.foldl_cons, List.foldl_nil]
    exact header1Cell_flags _ _

theorem foldl_header2Cell (cells : List Str) (s : HeaderScan) :
    cells.foldl header2Cell s = cells.foldl header1Cell s := by
  induction cells generalizing s with
  | nil => rfl
  | cons c cs ih => rw [List.foldl_cons, List.foldl_cons, header2Cell_eq, ih]

/-- The first header line of a row of cells (no commas inside) whose last cell
is not blank: `header1` holds the cells, blank ones emptied, and
`count_empties` is the number of empty cells. -/
theorem readHeader1_joinFields (row : List Str) (hcomma : ∀ c ∈ row, ',' ∉ c) (last : Str)
    (hlast : row.getLast? = some last) (hnb : blankCell last = false) :
    readHeader1 (joinFields row) =
      (row.map keptCell, ((row.filter fun c => c.isEmpty).length : Int)) := by
  have hne : row ≠ [] := by
    intro h; subst h; simp at hlast
  have hl : row.getLast? ≠ some [] := by
    rw [hlast]; intro h
    have := ne_nil_of_not_blank last hnb
    exact this (Option.some.inj h)
  have hflags := foldl_header1Cell_flags row HeaderScan.start last hlast
  have hle : last.isEmpty = false := by
    have := ne_nil_of_not_blank last hnb
    simpa using this
  unfold readHeader1 finishHeader
  rw [getlineFields_joinFields row hne hcomma hl, hflags.1, hflags.2, hnb, hle,
    foldl_header1Cell_header, foldl_header1Cell_count]
  simp [HeaderScan.start]

theorem readHeader2_eq (aline : Str) : readHeader2 aline = readHeader1 aline := by
  unfold readHeader2 readHeader1
  rw [foldl_header2Cell]

/-! ## Composite names without quotes -/

theorem getLast?_ne_of_not_mem (s : Str) (x : Char) (h : x ∉ s) : (s.getLast? == some x) = false := by
  rw [beq_eq_false_iff_ne]
  intro hl
  exact h (List.mem_of_getLast?_eq_some hl)

theorem head?_ne_of_not_mem (s : Str) (x : Char) (h : x ∉ s) : (s.head? == some x) = false := by
  rw [beq_eq_false_iff_ne]
  intro hl
  exact h (List.mem_of_mem_head? hl)

/-- One pass of the composite loop when no cell holds a double quote. -/
theorem compositeCell_plain (sh : Bool) (last h2 h1 : Str) (hq2 : '"' ∉ h2) (hq1 : '"' ∉ h1)
    (hql : '"' ∉ last) :
    compositeCell sh last h2 h1 =
      ⟨h2 ++ (if (if h1 = [] then last else h1) = [] then []
              else HEADER_SEPARATOR ++ (if h1 = [] then last else h1)),
        if h1 = [] then last else h1, if h1 = [] then last else h1⟩ := by
  have e2 := getLast?_ne_of_not_mem h2 '"' hq2
  by_cases h1e : h1 = []
  · subst h1e
    by_cases hle : last = []
    · subst hle
      simp [compositeCell, e2]
    · have el := head?_ne_of_not_mem last '"' hql
      have hlen : 0 < last.length := List.length_pos.mpr hle
      simp [compositeCell, e2, el, hle, hlen]
  · have e1 := head?_ne_of_not_mem h1 '"' hq1
    have hlen : 0 < h1.length := List.length_pos.mpr h1e
    simp [compositeCell, e2, e1, h1e, hlen]

theorem keptCell_eq_nil_iff (c : Str) : keptCell c = [] ↔ blankCell c = true := by
  unfold keptCell
  by_cases h : blankCell c = true
  · simp [h]
  · have hf : blankCell c = false := by simpa using h
    simp [hf, ne_nil_of_not_blank c hf]

theorem carried_append (pre : List Str) (c : Str) :
    carried (pre ++ [c]) = if blankCell c then carried pre else c := by
  unfold carried
  rw [List.reverse_append, List.reverse_singleton, List.singleton_append, List.find?_cons]
  by_cases h : blankCell c = true
  · simp [h]
  · simp [h]

theorem carried_mem (pre : List Str) : carried pre = [] ∨ carried pre ∈ pre := by
  unfold carried
  cases h : pre.reverse.find? (fun c => !blankCell c) with
  | none => left; rfl
  | some x =>
    right
    have := List.mem_of_find?_eq_some h
    simpa using this

theorem qualifier_at (pre : List Str) (c : Str) (cs : List Str) :
    qualifier (pre ++ c :: cs) pre.length =
      (pre ++ [c]).reverse.find? fun c => !blankCell c := by
  unfold qualifier
  rw [List.take_append]
  simp

theorem withQualifier_carried (h2 : Str) (pre : List Str) :
    h2 ++ (if carried pre = [] then [] else HEADER_SEPARATOR ++ carried pre) =
      withQualifier h2 (pre.reverse.find? fun c => !blankCell c) := by
  unfold carried
  cases h : pre.reverse.find? (fun c => !blankCell c) with
  | none => simp [withQualifier]
  | some q =>
    have hq : blankCell q = false := by
      have := List.find?_some h
      simpa using this
    have := ne_nil_of_not_blank q hq
    simp [withQualifier, this]

theorem compositeLoop_length (sh : Bool) :
    ∀ (h2 h1 : List Str) (last : Str), h1.length = h2.length →
      (compositeLoop sh last h2 h1).length = h1.length := by
  intro h2
  induction h2 with
  | nil =>
    intro h1 last h
    have : h1 = [] := List.length_eq_zero.mp h
    subst this
    simp [compositeLoop]
  | cons x xs ih =>
    intro h1 last h
    match h1, h with
    | y :: ys, h =>
      rw [compositeLoop, List.length_cons, List.length_cons, ih ys _ (by simpa using h)]

/-- The composite loop on quote-free rows: column `i` gets the row-2 cell with
the qualifier that the cells up to it determine. -/
theorem compositeLoop_spec (sh : Bool) :
    ∀ (r1 r2 pre : List Str), r1.length = r2.length →
      (∀ c ∈ pre ++ r1, '"' ∉ c) → (∀ c ∈ r2, '"' ∉ c) →
      ∀ i, i < r1.length →
        ((compositeLoop sh (carried pre) r2 (r1.map keptCell)).map
            CompositeCell.composite)[i]? =
          some (withQualifier (r2.getD i []) (qualifier (pre ++ r1) (pre.length + i))) := by
  intro r1
  induction r1 with
  | nil => intro r2 pre _ _ _ i hi; simp at hi
  | cons c cs ih =>
    intro r2 pre hlen hq1 hq2 i hi
    match r2, hlen, hq2 with
    | h2 :: hs, hlen, hq2 =>
      have hqc : '"' ∉ keptCell c := by
        unfold keptCell
        split
        · simp
        · exact hq1 c (by simp)
      have hql : '"' ∉ carried pre := by
        rcases carried_mem pre with h | h
        · rw [h]; simp
        · exact hq1 _ (by simp [h])
      have hcell := compositeCell_plain sh (carried pre) h2 (keptCell c) (hq2 h2 (by simp)) hqc hql
      have hcarry : (if keptCell c = [] then carried pre else keptCell c) =
          carried (pre ++ [c]) := by
        rw [carried_append]
        by_cases hb : blankCell c = true
        · rw [if_pos ((keptCell_eq_nil_iff c).mpr hb), if_pos hb]
        · rw [if_neg (fun h => hb ((keptCell_eq_nil_iff c).mp h)), if_neg hb]
          simp [keptCell, hb]
      rw [hcarry] at hcell
      rw [List.map_cons, compositeLoop, hcell]
      cases i with
      | zero =>
        simp only [List.map_cons, List.getElem?_cons_zero, Nat.add_zero, List.getD_cons_zero]
        rw [withQualifier_carried, qualifier_at]
      | succ j =>
        have := ih hs (pre ++ [c]) (by simpa using hlen)
          (by intro x hx; apply hq1 x; simpa using hx)
          (fun x hx => hq2 x (by simp [hx])) j (by simpa using hi)
        simp only [List.map_cons, List.getElem?_cons_succ, List.getD_cons_succ]
        rw [this]
        simp [Nat.add_assoc, Nat.add_comm 1 j]

theorem keptCell_of_not_blank (row : List Str) (h : ∀ c ∈ row, blankCell c = false) :
    row.map keptCell = row := by
  induction row with
  | nil => rfl
  | cons c cs ih =>
    rw [List.map_cons, ih (fun x hx => h x (by simp [hx]))]
    simp [keptCell, h c (by simp)]

theorem no_empty_of_not_blank (row : List Str) (h : ∀ c ∈ row, blankCell c = false) :
    (row.filter fun c => c.isEmpty) = [] := by
  rw [List.filter_eq_nil_iff]
  intro c hc
  have := ne_nil_of_not_blank c (h c hc)
  simpa using this

/-- C5, as stated, fails in two ways.  A row 1 that ends in a blank cell is read
one cell short (the piece after the last comma is not a cell for `getline`), so
the run stops with exit code -3.  And a row 1 whose only blank cell is white
space is not counted as having an empty cell, so no second row is read and the
column identities are the cells of row 1. -/
theorem header_carry_forward_counterexample :
    (["".toList, "A".toList, "".toList].length = ["id".toList, "x".toList, "y".toList].length ∧
      "".toList ∈ ["".toList, "A".toList, "".toList] ∧
      (∀ c ∈ ["id".toList, "x".toList, "y".toList], blankCell c = false) ∧
      processHeader 0 false (joinFields ["".toList, "A".toList, "".toList])
        (joinFields ["id".toList, "x".toList, "y".toList]) = Except.error (-3)) ∧
    (blankCell " ".toList = true ∧
      processHeader 0 false (joinFields [" ".toList, "A".toList])
        (joinFields ["id".toList, "x".toList]) =
        Except.ok ⟨false, ["".toList, "A".toList], [], [], [], -1⟩) := by
  refine ⟨⟨by decide, by decide, by decide, by rfl⟩, by decide, by rfl⟩

/-- C5 (header qualifier carry-forward), amended.  For every two-row header
whose rows have the same number of cells (cells without commas or double
quotes), with at least one empty cell in row 1, a last cell of row 1 that is
not blank, and no blank cell in row 2 (blank: empty, or white space of at most
two characters): the header is accepted, as many composites are produced as
there are cells, and the composite of column `i` is the cell `i` of row 2
followed by `@` and the qualifier (the cell `i` of row 1 if it is not blank,
else the nearest cell to its left that is not blank), or just the cell of row 2
when there is no such cell. -/
theorem header_carry_forward (ifile : Nat) (single_header : Bool) (row1 row2 : List Str)
    (last1 : Str) (hlen : row1.length = row2.length)
    (hcomma : ∀ c ∈ row1 ++ row2, ',' ∉ c) (hquote : ∀ c ∈ row1 ++ row2, '"' ∉ c)
    (hempty : [] ∈ row1) (hlast : row1.getLast? = some last1)
    (hnb : blankCell last1 = false) (hrow2 : ∀ c ∈ row2, blankCell c = false) :
    ∃ res, processHeader ifile single_header (joinFields row1) (joinFields row2) =
        Except.ok res ∧
      res.required = true ∧ res.fields.length = row1.length ∧
      ∀ i, i < row1.length → res.fields[i]? = some (specComposite row1 row2 i) := by
  have h1 := readHeader1_joinFields row1 (fun c hc => hcomma c (by simp [hc])) last1 hlast hnb
  have hcount : ((row1.filter fun c => c.isEmpty).length : Int) ≠ 0 := by
    have : [] ∈ row1.filter fun c => c.isEmpty := by
      rw [List.mem_filter]; exact ⟨hempty, rfl⟩
    have := List.length_pos_of_mem this
    omega
  have hreq : header2_required (joinFields row1) = true := by
    simp only [header2_required, h1]
    exact decide_eq_true hcount
  have hne2 : row2 ≠ [] := by
    intro h
    rw [h] at hlen
    have : row1 = [] := List.length_eq_zero.mp hlen
    rw [this] at hempty
    exact absurd hempty (List.not_mem_nil _)
  obtain ⟨last2, hlast2⟩ : ∃ x, row2.getLast? = some x := by
    cases h : row2.getLast? with
    | none => exact absurd (List.getLast?_eq_none_iff.mp h) hne2
    | some x => exact ⟨x, rfl⟩
  have h2 := readHeader1_joinFields row2 (fun c hc => hcomma c (by simp [hc])) last2 hlast2
    (hrow2 last2 (List.mem_of_getLast?_eq_some hlast2))
  rw [keptCell_of_not_blank row2 hrow2, no_empty_of_not_blank row2 hrow2] at h2
  have hlenk : (row1.map keptCell).length = row2.length := by simpa using hlen
  have hloop := compositeLoop_length single_header row2 (row1.map keptCell) [] hlenk
  have hproc : processHeader ifile single_header (joinFields row1) (joinFields row2) =
      Except.ok
        { required := true
          fields := (compositeLoop single_header [] row2 (row1.map keptCell)).map
            CompositeCell.composite
          Header := (compositeLoop single_header [] row2 (row1.map keptCell)).map
            CompositeCell.composite
          Header1 := ((List.zip (compositeLoop single_header [] row2 (row1.map keptCell))
            row2).enum.filter fun x => ifile == 0 || decide (x.1 > 0)).map fun x => x.2.1.suffix
          Header2 := ((List.zip (compositeLoop single_header [] row2 (row1.map keptCell))
            row2).enum.filter fun x => ifile == 0 || decide (x.1 > 0)).map fun x => x.2.2
          DataColumns :=
            (0 + ((compositeLoop single_header [] row2 (row1.map keptCell)).length : Int)) - 1 } := by
    unfold processHeader
    rw [hreq, readHeader2_eq, h2, h1]
    simp only [List.length_nil, Nat.cast_zero, ne_eq, not_true_eq_false, if_false, if_true,
      hlenk]
  refine ⟨_, hproc, rfl, ?_, ?_⟩
  · simp [hloop]
  · intro i hi
    have := compositeLoop_spec single_header row1 row2 [] hlen
      (fun c hc => hquote c (by simpa using Or.inl hc))
      (fun c hc => hquote c (by simp [hc])) i hi
    simpa [carried, specComposite] using this

/-- The witness of C5: row 1 = `["","A","","B"]` and row 2 = `["id","x","y","z"]`
give `id`, `x@A`, `y@A`, `z@B`. -/
theorem header_carry_forward_witness :
    processHeader 0 false (joinFields ["".toList, "A".toList, "".toList, "B".toList])
        (joinFields ["id".toList, "x".toList, "y".toList, "z".toList]) =
      Except.ok ⟨true, ["id".toList, "x@A".toList, "y@A".toList, "z@B".toList],
        ["id".toList, "x@A".toList, "y@A".toList, "z@B".toList],
        ["".toList, "A".toList, "A".toList, "B".toList],
        ["id".toList, "x".toList, "y".toList, "z".toList], 3⟩ ∧
    ∃ res, processHeader 0 false (joinFields ["".toList, "A".toList, "".toList, "B".toList])
        (joinFields ["id".toList, "x".toList, "y".toList, "z".toList]) = Except.ok res ∧
      res.required = true ∧
      res.fields.length = ["".toList, "A".toList, "".toList, "B".toList].length ∧
      ∀ i, i < ["".toList, "A".toList, "".toList, "B".toList].length →
        res.fields[i]? =
          some (specComposite ["".toList, "A".toList, "".toList, "B".toList]
            ["id".toList, "x".toList, "y".toList, "z".toList] i) :=
  ⟨by rfl,
   header_carry_forward 0 false ["".toList, "A".toList, "".toList, "B".toList]
    ["id".toList, "x".toList, "y".toList, "z".toList] "B".toList (by decide) (by decide)
    (by decide) (by decide) (by decide) (by decide) (by decide)⟩

/-! ## The time of a data row -/

/-- C6, as stated, fails: in the row `X,1.5,2.5` raw field 1 is `1.5`, and the
stored time is 2.5, the value of raw field 2. -/
theorem time_field_counterexample :
    readRow strtofDecimal "X,1.5,2.5".toList =
      RowResult.stored "X".toList ⟨["1.5".toList, "2.5".toList], 5 / 2⟩ ∧
    ("X".toList :: ["1.5".toList, "2.5".toList])[1]? = some "1.5".toList ∧
    (strtofDecimal (timeText "1.5".toList)).1 = 3 / 2 ∧
    (strtofDecimal (timeText "1.5".toList)).1 ≠ (5 / 2 : F32) := by
  decide!

theorem time_from_second_field_aux (strtof : Strtof) (aline chemicalName : Str)
    (chemrecord : ChemRecord)
    (h : readRow strtof aline = RowResult.stored chemicalName chemrecord) :
    chemicalName = (tokenize aline).1 ∧ chemrecord.fields = (tokenize aline).2 ∧
    ∃ field, (chemicalName :: chemrecord.fields)[2]? = some field ∧
      chemrecord.time1 = (strtof (timeText field)).1 := by
  unfold readRow at h
  simp only [] at h
  split at h
  · exact RowResult.noConfusion h
  · next field hf =>
    split at h
    · exact RowResult.noConfusion h
    · split at h
      · exact RowResult.noConfusion h
      · injection h with h1 h2
        subst h1 h2
        exact ⟨rfl, rfl, field, by simpa using hf, rfl⟩

/-- C6, amended.  For every data row that is stored, with any `strtof`: the
chemical name is raw field 0, the stored fields are the raw fields after it,
and the time is parsed from raw field 2 of the row (the second field after the
chemical name, `Fields[1]`), after one leading double quote is skipped. -/
theorem time_from_second_field (strtof : Strtof) (aline chemicalName : Str)
    (chemrecord : ChemRecord)
    (h : readRow strtof aline = RowResult.stored chemicalName chemrecord) :
    chemicalName = (tokenize aline).1 ∧ chemrecord.fields = (tokenize aline).2 ∧
    ∃ field, (chemicalName :: chemrecord.fields)[2]? = some field ∧
      chemrecord.time1 = (strtof (timeText field)).1 :=
  time_from_second_field_aux strtof aline chemicalName chemrecord h

/-- The witness of C6: the row `X,1.5,2.5` read with the decimal `strtof`. -/
theorem time_from_second_field_witness :
    "X".toList = (tokenize "X,1.5,2.5".toList).1 ∧
    (⟨["1.5".toList, "2.5".toList], 5 / 2⟩ : ChemRecord).fields =
      (tokenize "X,1.5,2.5".toList).2 ∧
    ∃ field, ("X".toList ::
        (⟨["1.5".toList, "2.5".toList], 5 / 2⟩ : ChemRecord).fields)[2]? = some field ∧
      (⟨["1.5".toList, "2.5".toList], 5 / 2⟩ : ChemRecord).time1 =
        (strtofDecimal (timeText field)).1 :=
  time_from_second_field strtofDecimal "X,1.5,2.5".toList "X".toList
    ⟨["1.5".toList, "2.5".toList], 5 / 2⟩ (by decide!)

/-! ## The order of the output -/

theorem orderedInsert_pairwise {α : Type} (r : α → α → Prop) [DecidableRel r] (P : α → Prop)
    (htot : ∀ a b, P a → P b → r a b ∨ r b a)
    (htr : ∀ a b c, P a → P b → P c → r a b → r b c → r a c) (a : α) (ha : P a) :
    ∀ (l : List α), (∀ x ∈ l, P x) → l.Pairwise r → (l.orderedInsert r a).Pairwise r := by
  intro l
  induction l with
  | nil => intro _ _; simp
  | cons b l ih =>
    intro hP hl
    have hb : P b := hP b (by simp)
    have hPl : ∀ x ∈ l, P x := fun x hx => hP x (List.mem_cons_of_mem _ hx)
    rw [List.pairwise_cons] at hl
    rw [List.orderedInsert]
    split
    · next hab =>
      rw [List.pairwise_cons]
      refine ⟨?_, List.pairwise_cons.mpr hl⟩
      intro x hx
      rcases List.mem_cons.mp hx with rfl | hx
      · exact hab
      · exact htr a b x ha hb (hPl x hx) hab (hl.1 x hx)
    · next hab =>
      have hba : r b a := by
        rcases htot a b ha hb with h | h
        · exact absurd h hab
        · exact h
      rw [List.pairwise_cons]
      refine ⟨?_, ih hPl hl.2⟩
      intro x hx
      rcases (List.mem_orderedInsert r).mp hx with rfl | hx
      · exact hba
      · exact hl.1 x hx

theorem insertionSort_pairwise {α : Type} (r : α → α → Prop) [DecidableRel r] (P : α → Prop)
    (htot : ∀ a b, P a → P b → r a b ∨ r b a)
    (htr : ∀ a b c, P a → P b → P c → r a b → r b c → r a c) :
    ∀ (l : List α), (∀ x ∈ l, P x) → (l.insertionSort r).Pairwise r := by
  intro l
  induction l with
  | nil => intro _; simp
  | cons a l ih =>
    intro hP
    rw [List.insertionSort]
    apply orderedInsert_pairwise r P htot htr a (hP a (by simp))
    · intro x hx
      exact hP x (List.mem_cons_of_mem _ ((List.perm_insertionSort r l).subset hx))
    · exact ih (fun x hx => hP x (List.mem_cons_of_mem _ hx))

/-- Among numbers, "not above" is total. -/
theorem f32_not_lt_total (a b : F32) : ¬ (b < a) ∨ ¬ (a < b) := by
  by_cases h : b < a
  · exact Or.inr (f32_not_lt_of_le (f32_le_of_lt h))
  · exact Or.inl h

/-- Among numbers (no NaN), "not above" is transitive. -/
theorem f32_not_lt_trans (a b c : F32) (ha : a ≠ F32.nan) (hb : b ≠ F32.nan)
    (hc : c ≠ F32.nan) (h1 : ¬ (b < a)) (h2 : ¬ (c < b)) : ¬ (c < a) :=
  f32_not_lt_of_le (f32_le_trans (f32_le_of_not_lt hb ha h1) (f32_le_of_not_lt hc hb h2))

/-- Sorting the records of the rows is sorting the rows by their time. -/
theorem sortLower_map (DataColumns : List Int) (LineTerminator : Str) (rows : List AlignedRow) :
    sortLower (rows.map (toOutputRecord DataColumns LineTerminator)) =
      (sortRows rows).map (toOutputRecord DataColumns LineTerminator) := by
  unfold sortLower sortRows
  symm
  apply List.map_insertionSort
  intro a _ b _
  simp [OutputRecord.lower, toOutputRecord]

theorem writtenLines_map (DataColumns : List Int) (LineTerminator : Str)
    (rows : List AlignedRow) :
    writtenLines (rows.map (toOutputRecord DataColumns LineTerminator)) =
      (sortRows rows).map (outline DataColumns LineTerminator) := by
  unfold writtenLines
  rw [sortLower_map, List.map_map]
  rfl

theorem sortRows_perm (rows : List AlignedRow) : (sortRows rows).Perm rows :=
  List.perm_insertionSort _ _

/-- Rows without a NaN time come out of the sort with times that never
decrease. -/
theorem sortRows_sorted (rows : List AlignedRow) (hnan : ∀ row ∈ rows, row.time1 ≠ F32.nan) :
    (sortRows rows).Pairwise (fun r1 r2 => r1.time1 ≤ r2.time1) := by
  have hs := insertionSort_pairwise (fun r1 r2 : AlignedRow => ¬ (r2.time1 < r1.time1))
    (fun row => row.time1 ≠ F32.nan)
    (fun a b _ _ => f32_not_lt_total a.time1 b.time1)
    (fun a b c ha hb hc h1 h2 => f32_not_lt_trans a.time1 b.time1 c.time1 ha hb hc h1 h2)
    rows hnan
  have hmem : ∀ row ∈ sortRows rows, row.time1 ≠ F32.nan := fun row h =>
    hnan row ((sortRows_perm rows).subset h)
  have hs' : (sortRows rows).Pairwise
      (fun r1 r2 => r1.time1 ≠ F32.nan ∧ r2.time1 ≠ F32.nan ∧ ¬ (r2.time1 < r1.time1)) := by
    rw [List.pairwise_iff_forall_sublist] 
    intro a b hab
    have hab' := List.pairwise_iff_forall_sublist.mp hs hab
    exact ⟨hmem a (hab.subset (by simp)), hmem b (hab.subset (by simp)), hab'⟩
  exact hs'.imp fun h => f32_le_of_not_lt h.2.1 h.1 h.2.2

/-- The run in terms of the sorted rows: what is written after the header lines
are the texts of the emitted rows in the order of `sortRows`. -/
theorem mainRun_eq (strtof : Strtof) (single_header restricted : Bool) (adiff : F32)
    (LineTerminator : Str) (fuel : Nat) (files : List (List Str)) :
    mainRun strtof single_header restricted adiff LineTerminator fuel files =
      match readFiles strtof single_header 0 files Globals.start with
      | Except.error (Stop.exit code) => RunResult.exit code
      | Except.error Stop.undefined => RunResult.undefined
      | Except.ok g =>
        if (alignAll adiff restricted fuel g.AllFileData g.Chemicals).2 then
          RunResult.written
            (outputHeader single_header g.required LineTerminator g.Header g.Header1 g.Header2 ++
              (sortRows (alignAll adiff restricted fuel g.AllFileData g.Chemicals).1).map
                (outline g.DataColumns LineTerminator))
        else RunResult.unfinished := by
  unfold mainRun
  cases readFiles strtof single_header 0 files Globals.start with
  | error e => cases e <;> rfl
  | ok g =>
    simp only
    rw [writtenLines_map]

/-! ## The shape of an output row -/

theorem emitFields_eq (dc : Int) :
    ∀ (fields : List Str) (column : Int),
      emitFields dc column fields = commaFields (fields.take (dc - column).toNat) := by
  intro fields
  induction fields with
  | nil => intro column; simp [emitFields, commaFields]
  | cons f fs ih =>
    intro column
    rw [emitFields]
    by_cases h : column + 1 > dc
    · have : (dc - column).toNat = 0 := by omega
      simp [h, this, commaFields]
    · have : (dc - column).toNat = (dc - (column + 1)).toNat + 1 := by omega
      rw [if_neg h, ih, this, List.take_succ_cons]
      simp [commaFields]

theorem emitBlanks_eq (dc : Int) :
    emitBlanks dc = commaFields (List.replicate dc.toNat []) := by
  unfold emitBlanks commaFields
  induction dc.toNat with
  | zero => rfl
  | succ n ih => simp [List.replicate_succ, ih]

theorem accumulate_eq (lowest_recs : List ChemRecord) :
    ∀ (DataColumns : List Int),
      accumulate lowest_recs DataColumns = commaFields (rowFields lowest_recs DataColumns) := by
  induction lowest_recs with
  | nil => intro DataColumns; simp [accumulate, rowFields, commaFields]
  | cons r rs ih =>
    intro DataColumns
    cases DataColumns with
    | nil => simp [accumulate, rowFields, commaFields]
    | cons dc dcs =>
      rw [accumulate, rowFields, ih dcs]
      unfold fileFields
      split
      · rw [emitFields_eq]; simp [commaFields]
      · rw [emitBlanks_eq]; simp [commaFields]

theorem rowFields_length (lowest_recs : List ChemRecord) :
    ∀ (DataColumns : List Int), lowest_recs.length = DataColumns.length →
      (∀ x ∈ List.zip lowest_recs DataColumns,
        0 ≤ x.2 ∧ (x.1.nfields ≠ 0 → x.2 ≤ (x.1.nfields : Int))) →
      ((rowFields lowest_recs DataColumns).length : Int) = DataColumns.sum := by
  induction lowest_recs with
  | nil =>
    intro DataColumns hlen _
    have : DataColumns = [] := List.length_eq_zero.mp hlen.symm
    subst this
    simp [rowFields]
  | cons r rs ih =>
    intro DataColumns hlen h
    cases DataColumns with
    | nil => simp at hlen
    | cons dc dcs =>
      have h0 := h (r, dc) (by simp)
      have hrest := ih dcs (by simpa using hlen) (fun x hx => h x (by simp [hx]))
      rw [rowFields, List.length_append, List.sum_cons, Nat.cast_add, hrest]
      congr 1
      unfold fileFields
      split
      · next hn =>
        have := h0.2 hn
        simp only [ChemRecord.nfields] at this
        rw [List.length_take]
        omega
      · rw [List.length_replicate]; omega

/-- C8, as stated, fails for a data row with fewer fields than the file has
data columns: with three data columns and the detection `5,7` the row is
`X,5,7`, three fields and not 1 + 3. -/
theorem row_shape_counterexample :
    outline [3] "\n".toList ⟨"X".toList, [⟨["5".toList, "7".toList], 7⟩], 7⟩ =
      "X,5,7\n".toList ∧
    rowFields [⟨["5".toList, "7".toList], 7⟩] [3] = ["5".toList, "7".toList] ∧
    1 + (rowFields [⟨["5".toList, "7".toList], 7⟩] [3]).length ≠ 1 + 3 := by
  decide

/-- C8 (output row shape), amended.  Every row text is the chemical name, then
for each file in argument order its fields, a comma before each, then the line
terminator; the fields of a file are the first `DataColumns[f]` fields of its
detection when it contributes one (all of them when the detection has fewer),
and `DataColumns[f]` empty fields otherwise.  When no count is negative and
every contributing detection has at least `DataColumns[f]` fields, the row has
exactly 1 + (sum of the `DataColumns[f]`) fields. -/
theorem row_shape (DataColumns : List Int) (LineTerminator : Str) (row : AlignedRow) :
    outline DataColumns LineTerminator row =
      row.keychem ++ commaFields (rowFields row.lowest_recs DataColumns) ++ LineTerminator ∧
    (row.lowest_recs.length = DataColumns.length →
      (∀ x ∈ List.zip row.lowest_recs DataColumns,
        0 ≤ x.2 ∧ (x.1.nfields ≠ 0 → x.2 ≤ (x.1.nfields : Int))) →
      ((1 + (rowFields row.lowest_recs DataColumns).length : Nat) : Int) =
        1 + DataColumns.sum) := by
  refine ⟨?_, fun hlen h => ?_⟩
  · rw [outline, accumulate_eq]
  · rw [Nat.cast_add, rowFields_length _ _ hlen h]; rfl

/-- The witness of C8: two files with two data columns each, the second file
blank. -/
theorem row_shape_witness :
    outline [2, 2] "\n".toList
        ⟨"X".toList, [⟨["5".toList, "7".toList, "".toList], 7⟩, NA], 7⟩ =
      "X".toList ++
        commaFields (rowFields [⟨["5".toList, "7".toList, "".toList], 7⟩, NA] [2, 2]) ++
        "\n".toList ∧
    ((1 + (rowFields [⟨["5".toList, "7".toList, "".toList], 7⟩, NA] [2, 2]).length : Nat) : Int) =
      1 + ([2, 2] : List Int).sum :=
  ⟨(row_shape [2, 2] "\n".toList
      ⟨"X".toList, [⟨["5".toList, "7".toList, "".toList], 7⟩, NA], 7⟩).1,
   (row_shape [2, 2] "\n".toList
      ⟨"X".toList, [⟨["5".toList, "7".toList, "".toList], 7⟩, NA], 7⟩).2 rfl (by decide)⟩

/-! ## Single-row headers -/

/-- C9 at a failing input: the single-row header `Peak,RT1,RT2` has three cells
and no empty one; no second row is used and the cells are the column
identities, but `DataColumns` is -1 and not 2, and a row of this file is
written without any of its fields. -/
theorem single_header_count_failing_input :
    processHeader 0 false "Peak,RT1,RT2".toList "X,1.0,2.0".toList =
      Except.ok ⟨false, ["Peak".toList, "RT1".toList, "RT2".toList], [], [], [], -1⟩ ∧
    ((readHeader1 "Peak,RT1,RT2".toList).1.length : Int) - 1 = 2 ∧
    outline [-1] "\n".toList ⟨"X".toList, [⟨["1.0".toList, "2.0".toList], 2⟩], 2⟩ =
      "X\n".toList := by
  refine ⟨by rfl, by decide, by decide⟩

/-! ## When the second header row is required -/

theorem readHeader1_count (aline : Str) :
    (readHeader1 aline).2 =
      (((getlineFields [] aline).dropLast.filter fun c => c.isEmpty).length : Int) := by
  unfold readHeader1 finishHeader
  generalize getlineFields [] aline = cells
  induction cells using List.reverseRecOn with
  | nil => simp [HeaderScan.start]
  | append_singleton cs c _ =>
    have hflags := foldl_header1Cell_flags (cs ++ [c]) HeaderScan.start c (by simp)
    dsimp only
    rw [hflags.2, foldl_header1Cell_count, List.dropLast_concat, List.filter_append]
    by_cases h : c.isEmpty = true
    · simp [h, HeaderScan.start]
    · simp [h, HeaderScan.start]

/-- C10, as stated, fails: the cell ` ` of the first row `peak, ,x` is virtually
empty and is not the last cell, and no second header row is required. -/
theorem header2_required_counterexample :
    getlineFields [] "peak, ,x".toList = ["peak".toList, " ".toList, "x".toList] ∧
    virtuallyEmpty " ".toList = true ∧
    header2_required "peak, ,x".toList = false := by
  decide

/-- C10, amended.  A second header row is required for a file exactly when its
first header row has an empty (zero-length) cell other than its last cell; a
cell of white space is never counted.  The cells are the pieces between commas
as `getline` yields them (no cell after a final comma). -/
theorem header2_required_iff (aline : Str) :
    header2_required aline = true ↔ ∃ c ∈ (getlineFields [] aline).dropLast, c = [] := by
  unfold header2_required
  rw [decide_eq_true_iff, readHeader1_count]
  constructor
  · intro h
    have hpos : 0 < ((getlineFields [] aline).dropLast.filter fun c => c.isEmpty).length := by
      omega
    obtain ⟨c, hc⟩ := List.exists_mem_of_length_pos hpos
    rw [List.mem_filter] at hc
    exact ⟨c, hc.1, by simpa using hc.2⟩
  · rintro ⟨c, hc, rfl⟩
    have : [] ∈ (getlineFields [] aline).dropLast.filter fun c => c.isEmpty := by
      rw [List.mem_filter]; exact ⟨hc, rfl⟩
    have := List.length_pos_of_mem this
    omega

/-- In the single-header branch the count is -1 whatever the header: the
composite loop, which counts the columns, is not run. -/
theorem single_header_DataColumns (ifile : Nat) (single_header : Bool) (aline1 aline2 : Str)
    (h : header2_required aline1 = false) :
    processHeader ifile single_header aline1 aline2 =
      Except.ok ⟨false, (readHeader1 aline1).1, [], [], [], -1⟩ := by
  unfold processHeader
  simp [h]

/-- Every record that the reader stores has at least two fields, so it is
never taken for the placeholder `NA`. -/
theorem readRow_nfields (strtof : Strtof) (aline chemicalName : Str) (chemrecord : ChemRecord)
    (h : readRow strtof aline = RowResult.stored chemicalName chemrecord) :
    2 ≤ chemrecord.nfields := by
  obtain ⟨_, hf, field, hfield, _⟩ := time_from_second_field_aux strtof aline chemicalName
    chemrecord h
  have : chemrecord.fields[1]? = some field := by simpa using hfield
  have hlt := (List.getElem?_eq_some_iff.mp this).1
  exact hlt

/-! ## Two-row headers: column count and size check -/

theorem processHeader_required (ifile : Nat) (single_header : Bool) (aline1 aline2 : Str)
    (res : HeaderResult)
    (h : processHeader ifile single_header aline1 aline2 = Except.ok res) :
    res.required = header2_required aline1 := by
  unfold processHeader at h
  split at h
  · next hreq =>
    dsimp only at h
    split at h
    · exact Except.noConfusion h
    · split at h
      · exact Except.noConfusion h
      · injection h with h; subst h; exact hreq.symm
  · next hreq =>
    injection h with h; subst h
    simpa using hreq

/-- What an accepted two-row header leaves: the two rows have the same number
of cells, and the composites and the count come from the composite loop. -/
theorem processHeader_two_rows (ifile : Nat) (single_header : Bool) (aline1 aline2 : Str)
    (res : HeaderResult)
    (h : processHeader ifile single_header aline1 aline2 = Except.ok res)
    (hreq : res.required = true) :
    (readHeader2 aline2).2 = 0 ∧
    (readHeader2 aline2).1.length = (readHeader1 aline1).1.length ∧
    res.fields =
      (compositeLoop single_header [] (readHeader2 aline2).1 (readHeader1 aline1).1).map
        CompositeCell.composite ∧
    res.Header = res.fields ∧
    res.DataColumns =
      ((compositeLoop single_header [] (readHeader2 aline2).1
        (readHeader1 aline1).1).length : Int) - 1 := by
  have hr := processHeader_required ifile single_header aline1 aline2 res h
  rw [hreq] at hr
  unfold processHeader at h
  rw [← hr] at h
  simp only [if_true] at h
  split at h
  · exact Except.noConfusion h
  · next h2 =>
    split at h
    · exact Except.noConfusion h
    · next h3 =>
      injection h with h; subst h
      refine ⟨by simpa using h2, by simpa using h3, rfl, rfl, ?_⟩
      simp

/-- C20 (two-row header column count).  For every file whose two-row header is
accepted, with `n` cells in each row (after a trailing empty cell is taken
off): `n` composites are recorded, the identity column's among them, and the
data-column count of the file is `n - 1`. -/
theorem two_row_column_count (ifile : Nat) (single_header : Bool) (aline1 aline2 : Str)
    (res : HeaderResult)
    (h : processHeader ifile single_header aline1 aline2 = Except.ok res)
    (hreq : res.required = true) :
    (readHeader2 aline2).1.length = (readHeader1 aline1).1.length ∧
    res.fields.length = (readHeader1 aline1).1.length ∧
    res.Header = res.fields ∧
    res.DataColumns = ((readHeader1 aline1).1.length : Int) - 1 := by
  obtain ⟨_, hlen, hf, hH, hdc⟩ :=
    processHeader_two_rows ifile single_header aline1 aline2 res h hreq
  have hloop := compositeLoop_length single_header (readHeader2 aline2).1
    (readHeader1 aline1).1 [] hlen.symm
  refine ⟨hlen, ?_, hH, ?_⟩
  · rw [hf, List.length_map, hloop]
  · rw [hdc, hloop]

/-- The witness of C20: the header `,A,,B` over `id,x,y,z` has four cells per
row and three data columns. -/
theorem two_row_column_count_witness :
    (readHeader2 "id,x,y,z".toList).1.length = (readHeader1 ",A,,B".toList).1.length ∧
    (⟨true, ["id".toList, "x@A".toList, "y@A".toList, "z@B".toList],
        ["id".toList, "x@A".toList, "y@A".toList, "z@B".toList],
        ["".toList, "A".toList, "A".toList, "B".toList],
        ["id".toList, "x".toList, "y".toList, "z".toList], 3⟩ : HeaderResult).fields.length =
      (readHeader1 ",A,,B".toList).1.length ∧
    (⟨true, ["id".toList, "x@A".toList, "y@A".toList, "z@B".toList],
        ["id".toList, "x@A".toList, "y@A".toList, "z@B".toList],
        ["".toList, "A".toList, "A".toList, "B".toList],
        ["id".toList, "x".toList, "y".toList, "z".toList], 3⟩ : HeaderResult).Header =
      (⟨true, ["id".toList, "x@A".toList, "y@A".toList, "z@B".toList],
        ["id".toList, "x@A".toList, "y@A".toList, "z@B".toList],
        ["".toList, "A".toList, "A".toList, "B".toList],
        ["id".toList, "x".toList, "y".toList, "z".toList], 3⟩ : HeaderResult).fields ∧
    (⟨true, ["id".toList, "x@A".toList, "y@A".toList, "z@B".toList],
        ["id".toList, "x@A".toList, "y@A".toList, "z@B".toList],
        ["".toList, "A".toList, "A".toList, "B".toList],
        ["id".toList, "x".toList, "y".toList, "z".toList], 3⟩ : HeaderResult).DataColumns =
      ((readHeader1 ",A,,B".toList).1.length : Int) - 1 :=
  two_row_column_count 0 false ",A,,B".toList "id,x,y,z".toList
    ⟨true, ["id".toList, "x@A".toList, "y@A".toList, "z@B".toList],
      ["id".toList, "x@A".toList, "y@A".toList, "z@B".toList],
      ["".toList, "A".toList, "A".toList, "B".toList],
      ["id".toList, "x".toList, "y".toList, "z".toList], 3⟩ (by rfl) rfl

/-! ### The size check -/

theorem readHeader1_header (aline : Str) :
    ∀ c ∈ (getlineFields [] aline).dropLast, keptCell c ∈ (readHeader1 aline).1 := by
  unfold readHeader1 finishHeader
  generalize getlineFields [] aline = cells
  induction cells using List.reverseRecOn with
  | nil => intro c hc; simp at hc
  | append_singleton cs x _ =>
    intro c hc
    rw [List.dropLast_concat] at hc
    dsimp only
    rw [foldl_header1Cell_header]
    simp only [HeaderScan.start, List.nil_append, List.map_append, List.map_cons, List.map_nil]
    split
    · rw [List.dropLast_concat]; exact List.mem_map_of_mem _ hc
    · exact List.mem_append_left _ (List.mem_map_of_mem _ hc)

theorem readHeader2_count_zero (aline : Str) (h : ∀ c ∈ (readHeader2 aline).1, c ≠ []) :
    (readHeader2 aline).2 = 0 := by
  rw [readHeader2_eq] at h ⊢
  rw [readHeader1_count]
  have : ((getlineFields [] aline).dropLast.filter fun c => c.isEmpty) = [] := by
    rw [List.filter_eq_nil_iff]
    intro c hc hce
    have hnil : c = [] := by simpa using hce
    have := readHeader1_header aline c hc
    rw [hnil] at this
    exact h _ this rfl
  rw [this]; rfl

theorem processHeader_check (ifile : Nat) (single_header : Bool) (aline1 aline2 : Str)
    (hreq : header2_required aline1 = true) :
    ((readHeader2 aline2).1.length ≠ (readHeader1 aline1).1.length →
      processHeader ifile single_header aline1 aline2 = Except.error (-2) ∨
      processHeader ifile single_header aline1 aline2 = Except.error (-3)) ∧
    ((readHeader2 aline2).1.length = (readHeader1 aline1).1.length →
      (∀ c ∈ (readHeader2 aline2).1, c ≠ []) →
      ∃ res, processHeader ifile single_header aline1 aline2 = Except.ok res ∧
        res.required = true) := by
  constructor
  · intro hne
    unfold processHeader
    rw [hreq]
    simp only [if_true]
    by_cases h2 : (readHeader2 aline2).2 ≠ 0
    · left; rw [if_pos h2]
    · right; rw [if_neg h2, if_pos hne]
  · intro heq hnb
    have h2 := readHeader2_count_zero aline2 hnb
    unfold processHeader
    rw [hreq]
    simp only [if_true, h2, ne_eq, not_true_eq_false, if_false, heq]
    exact ⟨_, rfl, rfl⟩

theorem readFiles_append (strtof : Strtof) (single_header : Bool) :
    ∀ (pre : List (List Str)) (ifile : Nat) (rest : List (List Str)) (g : Globals),
      readFiles strtof single_header ifile (pre ++ rest) g =
        match readFiles strtof single_header ifile pre g with
        | Except.error e => Except.error e
        | Except.ok g' => readFiles strtof single_header (ifile + pre.length) rest g' := by
  intro pre
  induction pre with
  | nil => intro ifile rest g; simp [readFiles]
  | cons f fs ih =>
    intro ifile rest g
    rw [List.cons_append, readFiles, readFiles]
    cases readFile strtof single_header ifile f g with
    | error e => rfl
    | ok g' =>
      simp only []
      rw [ih]
      simp [Nat.add_assoc, Nat.add_comm 1]

/-- A header that is refused ends the run with its exit code, wherever the file
stands among the files, when the files before it were read. -/
theorem mainRun_header_exit (strtof : Strtof) (single_header restricted : Bool) (adiff : F32)
    (LineTerminator : Str) (fuel : Nat) (pre post : List (List Str)) (lines : List Str)
    (g : Globals) (code : Int)
    (hpre : readFiles strtof single_header 0 pre Globals.start = Except.ok g)
    (hhead : processHeader pre.length single_header (lines.headD []) (lines.tail.headD []) =
      Except.error code) :
    mainRun strtof single_header restricted adiff LineTerminator fuel (pre ++ lines :: post) =
      RunResult.exit code := by
  unfold mainRun
  rw [readFiles_append, hpre]
  simp only [Nat.zero_add]
  rw [readFiles, readFile, hhead]

/-- C11 (header size mismatch is fatal).  When the first header row requires a
second one: if the second row's cell count (after a trailing empty cell is
taken off) differs from the first row's, header processing fails with exit code
-2 or -3, and a run in which the files before this one were read ends with that
exit code and writes nothing; if the counts agree and no cell of the second row
is blank, header processing succeeds. -/
theorem header_size_mismatch_fatal (strtof : Strtof) (single_header restricted : Bool)
    (adiff : F32) (LineTerminator : Str) (fuel : Nat) (pre post : List (List Str))
    (aline1 aline2 : Str) (rows : List Str) (g : Globals)
    (hreq : header2_required aline1 = true) :
    ((readHeader2 aline2).1.length ≠ (readHeader1 aline1).1.length →
      (processHeader pre.length single_header aline1 aline2 = Except.error (-2) ∨
        processHeader pre.length single_header aline1 aline2 = Except.error (-3)) ∧
      (readFiles strtof single_header 0 pre Globals.start = Except.ok g →
        mainRun strtof single_header restricted adiff LineTerminator fuel
            (pre ++ (aline1 :: aline2 :: rows) :: post) = RunResult.exit (-2) ∨
        mainRun strtof single_header restricted adiff LineTerminator fuel
            (pre ++ (aline1 :: aline2 :: rows) :: post) = RunResult.exit (-3))) ∧
    ((readHeader2 aline2).1.length = (readHeader1 aline1).1.length →
      (∀ c ∈ (readHeader2 aline2).1, c ≠ []) →
      ∃ res, processHeader pre.length single_header aline1 aline2 = Except.ok res ∧
        res.required = true) := by
  have hc := processHeader_check pre.length single_header aline1 aline2 hreq
  refine ⟨fun hne => ⟨hc.1 hne, fun hpre => ?_⟩, hc.2⟩
  rcases hc.1 hne with h | h
  · left
    exact mainRun_header_exit strtof single_header restricted adiff LineTerminator fuel pre post
      (aline1 :: aline2 :: rows) g (-2) hpre h
  · right
    exact mainRun_header_exit strtof single_header restricted adiff LineTerminator fuel pre post
      (aline1 :: aline2 :: rows) g (-3) hpre h

/-- The witness of C11: under the first row `,A,,B` the second row `id,x` stops
the run, and the second row `id,x,y,z` is accepted. -/
theorem header_size_mismatch_fatal_witness :
    ((processHeader ([] : List (List Str)).length false ",A,,B".toList "id,x".toList =
          Except.error (-2) ∨
        processHeader ([] : List (List Str)).length false ",A,,B".toList "id,x".toList =
          Except.error (-3)) ∧
      (readFiles strtofDecimal false 0 [] Globals.start = Except.ok Globals.start →
        mainRun strtofDecimal false false (1 / 100) "\n".toList 1
            ([] ++ (",A,,B".toList :: "id,x".toList :: ["X,1,2".toList]) :: []) =
          RunResult.exit (-2) ∨
        mainRun strtofDecimal false false (1 / 100) "\n".toList 1
            ([] ++ (",A,,B".toList :: "id,x".toList :: ["X,1,2".toList]) :: []) =
          RunResult.exit (-3))) ∧
    ∃ res, processHeader ([] : List (List Str)).length false ",A,,B".toList
        "id,x,y,z".toList = Except.ok res ∧ res.required = true :=
  ⟨(header_size_mismatch_fatal strtofDecimal false false (1 / 100) "\n".toList 1 [] []
      ",A,,B".toList "id,x".toList ["X,1,2".toList] Globals.start (by decide)).1 (by decide),
   (header_size_mismatch_fatal strtofDecimal false false (1 / 100) "\n".toList 1 [] []
      ",A,,B".toList "id,x,y,z".toList ["X,1,2".toList] Globals.start (by decide)).2
      (by decide) (by decide)⟩

/-! ## The check of the time field -/

/-- The reader on a row that has a time field shorter than the buffer: the row
is stored when the value is not zero and the parse stops at the end of the text
or at a double quote, and the run stops otherwise. -/
theorem readRow_eq (strtof : Strtof) (aline field : Str)
    (hf : (tokenize aline).2[1]? = some field)
    (hlen : (field.takeWhile fun c => c != Char.ofNat 0).length < 128) :
    readRow strtof aline =
      if (strtof (timeText field)).1 ≠ 0 ∧
          ((strtof (timeText field)).2 = [] ∨ (strtof (timeText field)).2.head? = some '"') then
        RowResult.stored (tokenize aline).1 ⟨(tokenize aline).2, (strtof (timeText field)).1⟩
      else RowResult.fatal := by
  unfold readRow
  simp only [hf]
  rw [if_neg (by omega)]
  by_cases h0 : (strtof (timeText field)).1 = 0
  · simp [h0]
  · cases hp : (strtof (timeText field)).2 with
    | nil => simp [h0]
    | cons x xs =>
      by_cases hx : x = '"'
      · simp [h0, hx]
      · simp [h0, hx]

theorem readRows_fatal (strtof : Strtof) (aline : Str) (post : List Str)
    (hbad : readRow strtof aline = RowResult.fatal) :
    ∀ (before : List Str), (∀ l ∈ before, ∃ c r, readRow strtof l = RowResult.stored c r) →
      ∀ (fd : FileData) (Chemicals : List Str),
        readRows strtof (before ++ aline :: post) fd Chemicals =
          Except.error (Stop.exit (-1)) := by
  intro before
  induction before with
  | nil =>
    intro _ fd Chemicals
    rw [List.nil_append, readRows, hbad]
  | cons l ls ih =>
    intro h fd Chemicals
    obtain ⟨c, r, hl⟩ := h l (by simp)
    rw [List.cons_append, readRows, hl]
    exact ih (fun x hx => h x (by simp [hx])) _ _

/-- A data row that is refused ends the run with exit code -1, when the files
before its file, the header of its file and the rows before it were read. -/
theorem mainRun_row_exit (strtof : Strtof) (single_header restricted : Bool) (adiff : F32)
    (LineTerminator : Str) (fuel : Nat) (pre post : List (List Str)) (lines : List Str)
    (g : Globals) (res : HeaderResult) (before after : List Str) (aline : Str)
    (hpre : readFiles strtof single_header 0 pre Globals.start = Except.ok g)
    (hhead : processHeader pre.length single_header (lines.headD []) (lines.tail.headD []) =
      Except.ok res)
    (hrows : (if res.required then lines.drop 2 else lines.drop 1) = before ++ aline :: after)
    (hbefore : ∀ l ∈ before, ∃ c r, readRow strtof l = RowResult.stored c r)
    (hbad : readRow strtof aline = RowResult.fatal) :
    mainRun strtof single_header restricted adiff LineTerminator fuel (pre ++ lines :: post) =
      RunResult.exit (-1) := by
  unfold mainRun
  rw [readFiles_append, hpre]
  simp only [Nat.zero_add]
  rw [readFiles, readFile, hhead]
  simp only []
  rw [hrows, readRows_fatal strtof aline after hbad before hbefore]

/-- C12, as stated, fails: in the row `X,7,1.5"x` the parse of the time field
`1.5"x` stops at the double quote, which is not the end of the text, and the row
is stored with the time 1.5. -/
theorem time_validation_counterexample :
    (tokenize "X,7,1.5\"x".toList).2[1]? = some "1.5\"x".toList ∧
    strtofDecimal (timeText "1.5\"x".toList) = (3 / 2, "\"x".toList) ∧
    "\"x".toList ≠ [] ∧ "\"x".toList ≠ "\"".toList ∧
    readRow strtofDecimal "X,7,1.5\"x".toList =
      RowResult.stored "X".toList ⟨["7".toList, "1.5\"x".toList], 3 / 2⟩ := by
  decide!

/-- C12 (time-field validation), amended.  For a data row with a time field
(`Fields[1]`) shorter than the 128-byte buffer, and any `strtof`: the row is
accepted iff, after one leading double quote is skipped, the parsed value is
not zero and the parse stops at the end of the text or at a double quote
(whatever follows that quote); in every other case the row is refused, and a
run that has read everything before this row ends with exit code -1. -/
theorem time_validation (strtof : Strtof) (single_header restricted : Bool) (adiff : F32)
    (LineTerminator : Str) (fuel : Nat) (pre post : List (List Str)) (lines : List Str)
    (g : Globals) (res : HeaderResult) (before after : List Str) (aline field : Str)
    (hf : (tokenize aline).2[1]? = some field)
    (hlen : (field.takeWhile fun c => c != Char.ofNat 0).length < 128) :
    ((∃ c r, readRow strtof aline = RowResult.stored c r) ↔
      (strtof (timeText field)).1 ≠ 0 ∧
        ((strtof (timeText field)).2 = [] ∨ (strtof (timeText field)).2.head? = some '"')) ∧
    (¬ ((strtof (timeText field)).1 ≠ 0 ∧
        ((strtof (timeText field)).2 = [] ∨ (strtof (timeText field)).2.head? = some '"')) →
      readRow strtof aline = RowResult.fatal ∧
      (readFiles strtof single_header 0 pre Globals.start = Except.ok g →
        processHeader pre.length single_header (lines.headD []) (lines.tail.headD []) =
          Except.ok res →
        (if res.required then lines.drop 2 else lines.drop 1) = before ++ aline :: after →
        (∀ l ∈ before, ∃ c r, readRow strtof l = RowResult.stored c r) →
        mainRun strtof single_header restricted adiff LineTerminator fuel
          (pre ++ lines :: post) = RunResult.exit (-1))) := by
  have h := readRow_eq strtof aline field hf hlen
  refine ⟨⟨?_, ?_⟩, ?_⟩
  · rintro ⟨c, r, hs⟩
    by_contra hn
    rw [if_neg hn] at h
    rw [h] at hs
    exact RowResult.noConfusion hs
  · intro hc
    rw [if_pos hc] at h
    exact ⟨_, _, h⟩
  · intro hn
    rw [if_neg hn] at h
    exact ⟨h, fun hpre hhead hrows hbefore =>
      mainRun_row_exit strtof single_header restricted adiff LineTerminator fuel pre post lines
        g res before after aline hpre hhead hrows hbefore h⟩

/-- The witness of C12: the row `X,7,1.5` is accepted; the row `X,7,abc` is
refused and ends the run of the one file `id,a,b` / `X,7,abc` with exit code
-1. -/
theorem time_validation_witness :
    ((∃ c r, readRow strtofDecimal "X,7,1.5".toList = RowResult.stored c r) ↔
      (strtofDecimal (timeText "1.5".toList)).1 ≠ 0 ∧
        ((strtofDecimal (timeText "1.5".toList)).2 = [] ∨
          (strtofDecimal (timeText "1.5".toList)).2.head? = some '"')) ∧
    readRow strtofDecimal "X,7,abc".toList = RowResult.fatal ∧
    mainRun strtofDecimal false false (1 / 100) "\n".toList 1
      ([] ++ ["id,a,b".toList, "X,7,abc".toList] :: []) = RunResult.exit (-1) :=
  ⟨(time_validation strtofDecimal false false (1 / 100) "\n".toList 1 [] []
      ["id,a,b".toList, "X,7,1.5".toList] Globals.start
      ⟨false, ["id".toList, "a".toList, "b".toList], [], [], [], -1⟩ [] []
      "X,7,1.5".toList "1.5".toList (by decide) (by decide)).1,
   ((time_validation strtofDecimal false false (1 / 100) "\n".toList 1 [] []
      ["id,a,b".toList, "X,7,abc".toList] Globals.start
      ⟨false, ["id".toList, "a".toList, "b".toList], [], [], [], -1⟩ [] []
      "X,7,abc".toList "abc".toList (by decide) (by decide)).2 (by decide!)).1,
   ((time_validation strtofDecimal false false (1 / 100) "\n".toList 1 [] []
      ["id,a,b".toList, "X,7,abc".toList] Globals.start
      ⟨false, ["id".toList, "a".toList, "b".toList], [], [], [], -1⟩ [] []
      "X,7,abc".toList "abc".toList (by decide) (by decide)).2 (by decide!)).2
      rfl (by rfl) (by rfl) (by simp)⟩

/-! ## A comma at the end of a data line -/

theorem scanFields_joinFields_comma (fields : List Str) (hne : fields ≠ [])
    (henc : ∀ f ∈ fields, encodedField f = true) (hcr : ∀ f ∈ fields, '\r' ∉ f) (p : Char) :
    scanFields 0 p [] (joinFields fields ++ [',']) = fields := by
  induction fields generalizing p with
  | nil => exact absurd rfl hne
  | cons f fs ih =>
    cases fs with
    | nil =>
      obtain ⟨q', p', hend, hs⟩ :=
        scanFields_field f (henc f (by simp)) (hcr f (by simp)) p [',']
      simp only [joinFields]
      rw [hs, scanFields_comma_last q' p' f hend]
    | cons g gs =>
      obtain ⟨q', p', hend, hs⟩ :=
        scanFields_field f (henc f (by simp)) (hcr f (by simp)) p
          (',' :: (joinFields (g :: gs) ++ [',']))
      simp only [joinFields, List.append_assoc, List.cons_append]
      rw [hs, scanFields_comma_next q' p' f _ hend (by simp),
        ih (by simp) (fun x hx => henc x (by simp [hx])) (fun x hx => hcr x (by simp [hx]))]

/-- C13, as stated, fails: the line `X,1,2,` ends with a comma outside quotes
and has three commas; the scanner gives the name `X` and the fields `1`, `2`,
three fields in all, the last of them not empty. -/
theorem trailing_field_counterexample :
    tokenize "X,1,2,".toList = ("X".toList, ["1".toList, "2".toList]) ∧
    "X,1,2,".toList.getLast? = some ',' ∧
    "X,1,2,".toList.count ',' = 3 ∧
    (1 + (tokenize "X,1,2,".toList).2.length) ≠ 3 + 1 ∧
    (tokenize "X,1,2,".toList).2.getLast? ≠ some [] := by
  decide

/-- C13, amended.  A comma that ends a data line after two or more fields adds
no field: for fields as in C4 (the last one may be empty), the line of the
comma-joined fields followed by one more comma gives the first field as the
name and the others as `Fields`, so its `k` commas yield `k` fields, the name
included.  Only after a single field does the comma at the end give an empty
field. -/
theorem trailing_comma_adds_no_field (fields : List Str) (f : Str)
    (hlen : 2 ≤ fields.length) (henc : ∀ x ∈ fields, encodedField x = true)
    (hcr : ∀ x ∈ fields.tail, '\r' ∉ x) (hf : encodedField f = true) :
    tokenize (joinFields fields ++ [',']) = (fields.headD [], fields.tail) ∧
    1 + (tokenize (joinFields fields ++ [','])).2.length = fields.length ∧
    tokenize (f ++ [',']) = (f, [[]]) := by
  have h1 : tokenize (joinFields fields ++ [',']) = (fields.headD [], fields.tail) := by
    match fields, hlen, henc, hcr with
    | a :: g :: fs, _, henc, hcr =>
      obtain ⟨p', hp'⟩ := scanChemicalName_field a (henc a (by simp)) (Char.ofNat 0)
        (joinFields (g :: fs) ++ [','])
      simp only [tokenize, joinFields, List.append_assoc, List.cons_append, hp',
        List.headD_cons, List.tail_cons]
      rw [scanFields_joinFields_comma (g :: fs) (by simp) (fun x hx => henc x (by simp [hx]))
        (fun x hx => hcr x (by simpa using hx))]
  refine ⟨h1, ?_, ?_⟩
  · rw [h1]
    match fields, hlen with
    | a :: g :: fs, _ => simp; omega
  · obtain ⟨p', hp'⟩ := scanChemicalName_field f hf (Char.ofNat 0) []
    simp only [tokenize, hp']
    rw [scanFields]

/-- The witness of C13: the fields `X`, `1`, `2` and a comma at the end. -/
theorem trailing_comma_adds_no_field_witness :
    tokenize (joinFields ["X".toList, "1".toList, "2".toList] ++ [',']) =
      (["X".toList, "1".toList, "2".toList].headD [],
        ["X".toList, "1".toList, "2".toList].tail) ∧
    1 + (tokenize (joinFields ["X".toList, "1".toList, "2".toList] ++ [','])).2.length =
      ["X".toList, "1".toList, "2".toList].length ∧
    tokenize ("X".toList ++ [',']) = ("X".toList, [[]]) :=
  trailing_comma_adds_no_field ["X".toList, "1".toList, "2".toList] "X".toList (by decide)
    (by decide) (by decide) (by decide)

/-! ## Joining the scanned fields again -/

theorem getLast?_cons_ne_nil (c : Char) (it : Str) (h : it ≠ []) :
    (c :: it).getLast? = it.getLast? := by
  cases it with
  | nil => exact absurd rfl h
  | cons x xs => exact List.getLast?_cons_cons

theorem getLast?_append_ne_nil (a r : Str) (h : r ≠ []) :
    (a ++ r).getLast? = r.getLast? := by
  rw [List.getLast?_append]
  cases hr : r.getLast? with
  | none => exact absurd (List.getLast?_eq_none_iff.mp hr) h
  | some x => rfl

theorem scanFields_cr (q : Nat) (p : Char) (acc it : Str) :
    scanFields q p acc ('\r' :: it) = scanFields q p acc it := by
  rw [scanFields]; simp

theorem scanChemicalName_split :
    ∀ (l : Str) (q : Nat) (p : Char) (acc : Str),
      ((scanChemicalName q p acc l).1 = acc ++ l ∧ (scanChemicalName q p acc l).2.2 = []) ∨
      acc ++ l = (scanChemicalName q p acc l).1 ++ ',' :: (scanChemicalName q p acc l).2.2 := by
  intro l
  induction l with
  | nil => intro q p acc; left; simp [scanChemicalName]
  | cons c it ih =>
    intro q p acc
    by_cases hq : c = '"'
    · subst hq
      rw [scanChemicalName_quote]
      rcases ih (incQuotes q) '"' (acc ++ ['"']) with h | h
      · left; simpa using h
      · right; simpa using h
    · by_cases hc : c = ','
      · subst hc
        cases he : commaEndsField q p with
        | true => right; rw [scanChemicalName_comma_end q p acc it he]
        | false =>
          rw [scanChemicalName_comma_inside q p acc it he]
          rcases ih q ',' (acc ++ [',']) with h | h
          · left; simpa using h
          · right; simpa using h
      · rw [scanChemicalName_plain q p c acc it hq hc]
        rcases ih q c (acc ++ [c]) with h | h
        · left; simpa using h
        · right; simpa using h

theorem scanFields_ne_nil : ∀ (l : Str) (q : Nat) (p : Char) (acc : Str),
    scanFields q p acc l ≠ [] := by
  intro l
  induction l with
  | nil => intro q p acc; simp [scanFields]
  | cons c it ih =>
    intro q p acc
    by_cases hq : c = '"'
    · subst hq; rw [scanFields_quote]; exact ih _ _ _
    · by_cases hc : c = ','
      · subst hc
        cases he : commaEndsField q p with
        | true =>
          by_cases hit : it = []
          · subst hit; rw [scanFields_comma_last q p acc he]; simp
          · rw [scanFields_comma_next q p acc it he hit]; simp
        | false => rw [scanFields_comma_inside q p acc it he]; exact ih _ _ _
      · by_cases hr : c = '\r'
        · subst hr; rw [scanFields_cr]; exact ih _ _ _
        · rw [scanFields_plain q p c acc it hq hc hr]; exact ih _ _ _

theorem joinFields_cons (f : Str) (fs : List Str) (h : fs ≠ []) :
    joinFields (f :: fs) = f ++ ',' :: joinFields fs := by
  cases fs with
  | nil => exact absurd rfl h
  | cons g gs => rfl

/-- The fields of the field loop, joined again, are the text the loop was given,
when the text holds no carriage return and does not end with a comma. -/
theorem joinFields_scanFields : ∀ (l : Str), '\r' ∉ l → l.getLast? ≠ some ',' →
    ∀ (q : Nat) (p : Char) (acc : Str), joinFields (scanFields q p acc l) = acc ++ l := by
  intro l
  induction l with
  | nil => intro _ _ q p acc; simp [scanFields, joinFields]
  | cons c it ih =>
    intro hcr hlast q p acc
    have hr : c ≠ '\r' := by
      intro h; apply hcr; simp [h]
    have hcr' : '\r' ∉ it := by
      intro h; apply hcr; simp [h]
    have hlast' : it.getLast? ≠ some ',' := by
      intro h; apply hlast
      have hit : it ≠ [] := by
        intro h0; rw [h0] at h; simp at h
      rw [getLast?_cons_ne_nil c it hit]; exact h
    by_cases hq : c = '"'
    · subst hq
      rw [scanFields_quote, ih hcr' hlast']; simp
    · by_cases hc : c = ','
      · subst hc
        have hit : it ≠ [] := by
          intro h0; apply hlast; rw [h0]; rfl
        cases he : commaEndsField q p with
        | true =>
          rw [scanFields_comma_next q p acc it he hit,
            joinFields_cons _ _ (scanFields_ne_nil _ _ _ _), ih hcr' hlast']
          simp
        | false =>
          rw [scanFields_comma_inside q p acc it he, ih hcr' hlast']; simp
      · rw [scanFields_plain q p c acc it hq hc hr, ih hcr' hlast']; simp

/-- C14, as stated, fails on a line in which no comma ends the chemical name:
the line `X` comes back as `X,`, and so does a line whose only comma follows
text after a closing quote. -/
theorem round_trip_counterexample :
    '\r' ∉ "X".toList ∧ "X".toList.getLast? ≠ some ',' ∧
    tokenize "X".toList = ("X".toList, [[]]) ∧
    joinFields ((tokenize "X".toList).1 :: (tokenize "X".toList).2) = "X,".toList ∧
    joinFields ((tokenize "\"a\"b,c".toList).1 :: (tokenize "\"a\"b,c".toList).2) =
      "\"a\"b,c,".toList := by
  decide

/-- C14 (round-trip), amended.  For every data line that contains no carriage
return and does not end with a comma: joining the chemical name and the scanned
fields with `,` reproduces the line exactly when the scanner found a comma that
ends the chemical name (the name is not the whole line); a line in which it
found none comes back with one comma added at its end. -/
theorem round_trip (aline : Str) (hcr : '\r' ∉ aline) (hend : aline.getLast? ≠ some ',') :
    joinFields ((tokenize aline).1 :: (tokenize aline).2) =
      if (tokenize aline).1 = aline then aline ++ [','] else aline := by
  unfold tokenize
  dsimp only
  rcases scanChemicalName_split aline 0 (Char.ofNat 0) [] with ⟨h1, h2⟩ | h
  · rw [List.nil_append] at h1
    rw [h2, h1, if_pos rfl, scanFields]
    simp [joinFields]
  · rw [List.nil_append] at h
    have hne : (scanChemicalName 0 (Char.ofNat 0) [] aline).1 ≠ aline := by
      intro he
      have := congrArg List.length h
      rw [List.length_append, he] at this
      simp at this
    have hrest : (scanChemicalName 0 (Char.ofNat 0) [] aline).2.2 ≠ [] := by
      intro he
      apply hend
      rw [h, he]; simp
    have hcr' : '\r' ∉ (scanChemicalName 0 (Char.ofNat 0) [] aline).2.2 := by
      intro hm; apply hcr; rw [h]; simp [hm]
    have hlast' : (scanChemicalName 0 (Char.ofNat 0) [] aline).2.2.getLast? ≠ some ',' := by
      intro hl; apply hend
      have e := getLast?_append_ne_nil (scanChemicalName 0 (Char.ofNat 0) [] aline).1
        (',' :: (scanChemicalName 0 (Char.ofNat 0) [] aline).2.2) (by simp)
      rw [← h, getLast?_cons_ne_nil _ _ hrest, hl] at e
      exact e
    rw [if_neg hne, joinFields_cons _ _ (scanFields_ne_nil _ _ _ _),
      joinFields_scanFields _ hcr' hlast', List.nil_append]
    exact h.symm

/-- The witness of C14: a line with a quoted field. -/
theorem round_trip_witness :
    joinFields ((tokenize "X,\"a\"\"b\",1.5".toList).1 ::
        (tokenize "X,\"a\"\"b\",1.5".toList).2) =
      if (tokenize "X,\"a\"\"b\",1.5".toList).1 = "X,\"a\"\"b\",1.5".toList then
        "X,\"a\"\"b\",1.5".toList ++ [',']
      else "X,\"a\"\"b\",1.5".toList :=
  round_trip "X,\"a\"\"b\",1.5".toList (by decide) (by decide)

/-! ## Header lines and quoted commas -/

/-- C15 at a failing input: the line `"a,b",c`.  Read as a header line it is
cut at both commas and gives three cells; read as a data line the comma inside
the quotes stays in the name and the line gives two cells. -/
theorem header_split_failing_input :
    getlineFields [] "\"a,b\",c".toList = ["\"a".toList, "b\"".toList, "c".toList] ∧
    (readHeader1 "\"a,b\",c".toList).1 = ["\"a".toList, "b\"".toList, "c".toList] ∧
    tokenize "\"a,b\",c".toList = ("\"a,b\"".toList, ["c".toList]) ∧
    (readHeader1 "\"a,b\",c".toList).1.length ≠
      1 + (tokenize "\"a,b\",c".toList).2.length := by
  decide

/-! ## Quotes in composite names -/

theorem quoted_getLast? (s : Str) : (quoted s).getLast? = some '"' := by
  unfold quoted
  exact List.getLast?_concat ('"' :: s)

theorem quoted_dropLast (s : Str) : (quoted s).dropLast = '"' :: s := by
  unfold quoted
  exact List.dropLast_concat

theorem getLast?_append_plain (a s : Str) (hs : s ≠ []) (hq : '"' ∉ s) :
    ((a ++ s).getLast? != some '"') = true := by
  rw [getLast?_append_ne_nil a s hs]
  have := getLast?_ne_of_not_mem s '"' hq
  simpa [bne] using this

/-- The composite of a wrapped second-row cell. -/
theorem compositeCell_wrapped (sh : Bool) (last h1 name qname : Str)
    (hname : '"' ∉ name) (hqname : '"' ∉ qname) :
    (qualifierCell last h1 = [] → name ≠ [] →
      (compositeCell sh last (quoted name) h1).composite = quoted name) ∧
    (qualifierCell last h1 = qname → qname ≠ [] →
      (compositeCell sh last (quoted name) h1).composite =
        quoted (name ++ HEADER_SEPARATOR ++ qname)) ∧
    (qualifierCell last h1 = quoted qname →
      (compositeCell true last (quoted name) h1).composite =
        quoted (name ++ HEADER_SEPARATOR ++ qname) ∧
      (compositeCell false last (quoted name) h1).composite =
        '"' :: name ++ HEADER_SEPARATOR ++ quoted qname) := by
  have hsuffix : (if h1.length > 0 then h1 else if last.length > 0 then last else []) =
      qualifierCell last h1 := by
    unfold qualifierCell
    by_cases h : h1 = []
    · subst h
      by_cases hl : last = []
      · subst hl; rfl
      · have : 0 < last.length := List.length_pos.mpr hl
        simp [this]
    · have : 0 < h1.length := List.length_pos.mpr h
      simp [h, this]
  have hL := quoted_getLast? name
  have hD := quoted_dropLast name
  refine ⟨fun hq hne => ?_, fun hq hne => ?_, fun hq => ⟨?_, ?_⟩⟩
  · unfold compositeCell
    simp only [hsuffix, hq, hL, hD, beq_self_eq_true, if_true, List.head?_nil,
      List.length_nil, gt_iff_lt, lt_self_iff_false, if_false, Bool.false_and,
      Bool.not_true, Bool.and_false, Bool.true_and]
    have : (('"' :: name).getLast? != some '"') = true := by
      have := getLast?_append_plain ['"'] name hne hname
      simpa using this
    simp [this, quoted]
  · unfold compositeCell
    have hh : (qname.head? == some '"') = false := head?_ne_of_not_mem qname '"' hqname
    have hlen : 0 < qname.length := List.length_pos.mpr hne
    have hlast : ((('"' :: name) ++ HEADER_SEPARATOR ++ qname).getLast? != some '"') = true :=
      getLast?_append_plain _ qname hne hqname
    simp only [hsuffix, hq, hL, hD, beq_self_eq_true, if_true, hh, Bool.false_and,
      Bool.false_eq_true, if_false, hlen, gt_iff_lt, hlast, Bool.and_self, Bool.not_true,
      Bool.and_false]
    simp [quoted, HEADER_SEPARATOR]
  · have e : ('"' :: (name ++ '@' :: (qname ++ ['"']))).getLast? = some '"' :=
      List.getLast?_concat ('"' :: (name ++ '@' :: qname)) ▸ by simp
    unfold compositeCell
    simp only [hsuffix, hq, hL, hD, beq_self_eq_true, if_true]
    simp [quoted, HEADER_SEPARATOR, e]
  · have e : ('"' :: (name ++ '@' :: '"' :: (qname ++ ['"']))).getLast? = some '"' :=
      List.getLast?_concat ('"' :: (name ++ '@' :: '"' :: qname)) ▸ by simp
    unfold compositeCell
    simp only [hsuffix, hq, hL, hD, beq_self_eq_true, if_true]
    simp [quoted, HEADER_SEPARATOR, e]

/-- The composite of a second-row cell without quotes under a wrapped
qualifier. -/
theorem compositeCell_wrapped_qualifier (last h1 name qname : Str)
    (hname : '"' ∉ name) (hq : qualifierCell last h1 = quoted qname) :
    (compositeCell true last name h1).composite =
        quoted (name ++ HEADER_SEPARATOR ++ qname) ∧
    (compositeCell false last name h1).composite =
        '"' :: name ++ HEADER_SEPARATOR ++ quoted qname := by
  have hsuffix : (if h1.length > 0 then h1 else if last.length > 0 then last else []) =
      qualifierCell last h1 := by
    unfold qualifierCell
    by_cases h : h1 = []
    · subst h
      by_cases hl : last = []
      · subst hl; rfl
      · have : 0 < last.length := List.length_pos.mpr hl
        simp [this]
    · have : 0 < h1.length := List.length_pos.mpr h
      simp [h, this]
  have hL := getLast?_ne_of_not_mem name '"' hname
  constructor
  · unfold compositeCell
    simp only [hsuffix, hq, hL]
    simp [quoted, HEADER_SEPARATOR]
  · unfold compositeCell
    simp only [hsuffix, hq, hL]
    simp [quoted, HEADER_SEPARATOR]

theorem quoted_ne_plain (s t : Str) (h : '"' ∉ s) : s ≠ quoted t := by
  intro he
  apply h
  rw [he]
  simp [quoted]

/-- C16, as stated, fails in two-header output mode: under the first row
`,"A"` the second-row cell `"x"` gets the composite `"x@"A"`, with a double
quote inside.  It also fails for the wrapped empty name `""` without a
qualifier, whose composite is one double quote. -/
theorem composite_quotes_counterexample :
    processHeader 0 false ",\"A\"".toList "id,\"x\"".toList =
      Except.ok ⟨true, ["id".toList, "\"x@\"A\"".toList], ["id".toList, "\"x@\"A\"".toList],
        ["".toList, "\"A\"".toList], ["id".toList, "\"x\"".toList], 1⟩ ∧
    "\"x@\"A\"".toList.count '"' = 3 ∧
    (compositeCell true [] "\"\"".toList []).composite = "\"".toList := by
  refine ⟨by rfl, by decide, by decide⟩

/-- C16 (composite quote normalization), amended.  For a column whose
second-row cell is `name` or `"name"` and whose qualifier cell is absent, is
`qname` or is `"qname"` (no double quote inside `name` and `qname`), at least
one of the two wrapped, and not the wrapped empty name without a qualifier: in
single-header mode, and in two-header mode when the qualifier is not wrapped,
the composite is `"name@qname"` (`"name"` without a qualifier), with one double
quote at each end and none inside; in two-header mode a wrapped qualifier keeps
its opening quote and the composite is `"name@"qname"`. -/
theorem composite_quote_normalization (sh : Bool) (last h1 h2 name qname : Str)
    (hname : '"' ∉ name) (hqname : '"' ∉ qname)
    (h2c : h2 = name ∨ h2 = quoted name)
    (hqc : qualifierCell last h1 = [] ∨ (qualifierCell last h1 = qname ∧ qname ≠ []) ∨
      qualifierCell last h1 = quoted qname)
    (hsome : h2 = quoted name ∨ qualifierCell last h1 = quoted qname)
    (hne : name ≠ [] ∨ qualifierCell last h1 ≠ []) :
    ((sh = true ∨ qualifierCell last h1 ≠ quoted qname) →
      (compositeCell sh last h2 h1).composite =
        quoted (name ++ if qualifierCell last h1 = [] then [] else HEADER_SEPARATOR ++ qname)) ∧
    (sh = false → qualifierCell last h1 = quoted qname →
      (compositeCell sh last h2 h1).composite =
        '"' :: name ++ HEADER_SEPARATOR ++ quoted qname) := by
  have hqne : quoted qname ≠ [] := by simp [quoted]
  rcases h2c with h2c | h2c
  · -- the second-row cell has no quotes, so the qualifier is the wrapped one
    have hq : qualifierCell last h1 = quoted qname := by
      rcases hsome with h | h
      · rw [h2c] at h; exact absurd h (quoted_ne_plain name name hname)
      · exact h
    have hw := compositeCell_wrapped_qualifier last h1 name qname hname hq
    subst h2c
    constructor
    · rintro (hs | hs)
      · subst hs
        rw [hw.1, hq, if_neg hqne, List.append_assoc]
      · exact absurd hq hs
    · intro hs _
      subst hs
      exact hw.2
  · subst h2c
    have hw := compositeCell_wrapped sh last h1 name qname hname hqname
    rcases hqc with hq | ⟨hq, hqn⟩ | hq
    · have hn : name ≠ [] := by
        rcases hne with h | h
        · exact h
        · exact absurd hq h
      constructor
      · intro _
        rw [hw.1 hq hn, hq, if_pos rfl, List.append_nil]
      · intro _ hq'
        rw [hq] at hq'
        exact absurd hq'.symm hqne
    · constructor
      · intro _
        rw [hw.2.1 hq hqn, hq, if_neg hqn, List.append_assoc]
      · intro _ hq'
        rw [hq] at hq'
        exact absurd hq' (quoted_ne_plain qname qname hqname)
    · constructor
      · rintro (hs | hs)
        · subst hs
          rw [(hw.2.2 hq).1, hq, if_neg hqne, List.append_assoc]
        · exact absurd hq hs
      · intro hs _
        subst hs
        exact (hw.2.2 hq).2

/-- The witness of C16: the cell `"x"` under the qualifier `"A"` in
single-header mode, and the cell `x` under it in two-header mode. -/
theorem composite_quote_normalization_witness :
    (compositeCell true [] (quoted "x".toList) (quoted "A".toList)).composite =
      quoted ("x".toList ++
        if qualifierCell [] (quoted "A".toList) = [] then []
        else HEADER_SEPARATOR ++ "A".toList) ∧
    (compositeCell false [] "x".toList (quoted "A".toList)).composite =
      '"' :: "x".toList ++ HEADER_SEPARATOR ++ quoted "A".toList :=
  ⟨(composite_quote_normalization true [] (quoted "A".toList) (quoted "x".toList) "x".toList
      "A".toList (by decide) (by decide) (Or.inr rfl) (Or.inr (Or.inr rfl)) (Or.inl rfl)
      (Or.inl (by decide))).1 (Or.inl rfl),
   (composite_quote_normalization false [] (quoted "A".toList) "x".toList "x".toList
      "A".toList (by decide) (by decide) (Or.inl rfl) (Or.inr (Or.inr rfl)) (Or.inr rfl)
      (Or.inl (by decide))).2 rfl rfl⟩

/-! ## The header line of single-header output -/

/-- C17 at a failing input: two two-header files, `,A` over `id,x` and `,B` over
`peak,y`, with single-header output.  The header line written is `id,x@A,peak`:
the identity name `peak` of the second file appears and its data column `y@B`
does not, where the claim (and the two-header output, `id,x,y`) has the second
file's data column. -/
theorem single_header_line_failing_input :
    mainRun strtofDecimal true false (1 / 100) "\n".toList 2
        [[",A".toList, "id,x".toList, "X,7,1.5".toList],
         [",B".toList, "peak,y".toList, "X,8,1.5".toList]] =
      RunResult.written ["id,x@A,peak\n".toList, "X,7,8\n".toList] ∧
    mainRun strtofDecimal false false (1 / 100) "\n".toList 2
        [[",A".toList, "id,x".toList, "X,7,1.5".toList],
         [",B".toList, "peak,y".toList, "X,8,1.5".toList]] =
      RunResult.written [",A,B\n".toList, "id,x,y\n".toList, "X,7,8\n".toList] ∧
    "id,x@A,peak\n".toList ≠ "id,x@A,y@B\n".toList := by
  decide!

/-! ## The lowest and the second lowest time of a grouping step -/

theorem lowerAll_nil (x : F32) : lowerAll x [] = x := rfl

theorem lowerAll_some (x t : F32) (os : List (Option F32)) :
    lowerAll x (some t :: os) = lowerAll (lowerTo x t) os := rfl

theorem lowerAll_none (x : F32) (os : List (Option F32)) :
    lowerAll x (none :: os) = lowerAll x os := rfl

theorem lowerTo_pos (x t : F32) (hx : 0 ≤ x) (ht : 0 < t) :
    0 < lowerTo x t ∧ lowerTo x t ≤ t ∧ (0 < x → lowerTo x t ≤ x) := by
  unfold lowerTo
  split
  · next h =>
    refine ⟨ht, f32_le_refl (f32_ne_nan_of_lt_right ht), fun hx0 => ?_⟩
    rcases h with h | h
    · rw [h] at hx0
      exact absurd hx0 (f32_lt_irrefl 0)
    · exact f32_le_of_lt h
  · next h =>
    push_neg at h
    exact ⟨f32_lt_of_le_of_ne hx (Ne.symm h.1),
      f32_le_of_not_lt (f32_ne_nan_of_lt_right ht) (f32_ne_nan_of_le_right hx) h.2,
      fun _ => f32_le_refl (f32_ne_nan_of_le_right hx)⟩

theorem lowerAll_le (os : List (Option F32)) (hpos : ∀ t, some t ∈ os → 0 < t) :
    ∀ (x : F32), 0 ≤ x →
      (∀ t, some t ∈ os → lowerAll x os ≤ t) ∧ (0 < x → 0 < lowerAll x os ∧ lowerAll x os ≤ x) := by
  induction os with
  | nil =>
    intro x hx
    exact ⟨fun t ht => absurd ht (List.not_mem_nil _),
      fun h => ⟨h, f32_le_refl (f32_ne_nan_of_le_right hx)⟩⟩
  | cons o os ih =>
    intro x hx
    have ih' := ih (fun t ht => hpos t (List.mem_cons_of_mem _ ht))
    cases o with
    | none =>
      rw [lowerAll_none]
      refine ⟨fun t ht => ?_, (ih' x hx).2⟩
      rcases List.mem_cons.mp ht with h | h
      · exact Option.noConfusion h
      · exact (ih' x hx).1 t h
    | some u =>
      rw [lowerAll_some]
      have hu : 0 < u := hpos u (by simp)
      obtain ⟨h1, h2, h3⟩ := lowerTo_pos x u hx hu
      obtain ⟨i1, i2⟩ := ih' (lowerTo x u) (f32_le_of_lt h1)
      refine ⟨fun t ht => ?_, fun hx0 => ⟨(i2 h1).1, f32_le_trans (i2 h1).2 (h3 hx0)⟩⟩
      rcases List.mem_cons.mp ht with h | h
      · injection h with h; subst h
        exact f32_le_trans (i2 h1).2 h2
      · exact i1 t h

theorem lowerAll_mem (os : List (Option F32)) :
    ∀ (x : F32), lowerAll x os = x ∨ some (lowerAll x os) ∈ os := by
  induction os with
  | nil => intro x; left; rfl
  | cons o os ih =>
    intro x
    cases o with
    | none =>
      rw [lowerAll_none]
      rcases ih x with h | h
      · left; exact h
      · right; exact List.mem_cons_of_mem _ h
    | some u =>
      rw [lowerAll_some]
      rcases ih (lowerTo x u) with h | h
      · rcases lowerTo_mem x u with h' | h'
        · left; rw [h, h']
        · right; rw [h, h']; simp
      · right; exact List.mem_cons_of_mem _ h

theorem lowerAll_zero_mem (os : List (Option F32)) (h : ∃ t, some t ∈ os) :
    some (lowerAll 0 os) ∈ os := by
  induction os with
  | nil => obtain ⟨t, ht⟩ := h; exact absurd ht (List.not_mem_nil _)
  | cons o os ih =>
    cases o with
    | none =>
      rw [lowerAll_none]
      obtain ⟨t, ht⟩ := h
      rcases List.mem_cons.mp ht with h' | h'
      · exact Option.noConfusion h'
      · exact List.mem_cons_of_mem _ (ih ⟨t, h'⟩)
    | some u =>
      rw [lowerAll_some, lowerTo_zero]
      rcases lowerAll_mem os u with h' | h'
      · rw [h']; simp
      · exact List.mem_cons_of_mem _ h'

theorem selectFile_second (s : Selection) (b : List ChemRecord) :
    (selectFile s b).second_lowest_time1 =
      match remainderTime b with
      | some t => lowerTo s.second_lowest_time1 t
      | none => s.second_lowest_time1 := by
  unfold selectFile remainderTime remainder
  split
  · next h =>
    dsimp only
    split
    · next h' => simp [h']
    · next h' => simp [h']
  · next h =>
    have : b = [] := by simpa using h
    simp [this]

theorem foldl_selectFile_lowest_eq (bs : List (List ChemRecord)) (s : Selection) :
    (bs.foldl selectFile s).lowest_time1 = lowerAll s.lowest_time1 (bs.map candidateTime) := by
  induction bs generalizing s with
  | nil => rfl
  | cons b bs ih =>
    rw [List.foldl_cons, ih, selectFile_lowest_time1, List.map_cons]
    unfold candidateTime
    split
    · rw [lowerAll_some]
    · rw [lowerAll_none]

theorem foldl_selectFile_second_eq (bs : List (List ChemRecord)) (s : Selection) :
    (bs.foldl selectFile s).second_lowest_time1 =
      lowerAll s.second_lowest_time1 (bs.map remainderTime) := by
  induction bs generalizing s with
  | nil => rfl
  | cons b bs ih =>
    rw [List.foldl_cons, ih, selectFile_second, List.map_cons]
    cases remainderTime b with
    | none => rw [lowerAll_none]
    | some t => rw [lowerAll_some]

theorem selectCandidates_lowest_eq (bs : List (List ChemRecord)) :
    (selectCandidates bs).lowest_time1 = lowerAll 0 (bs.map candidateTime) :=
  foldl_selectFile_lowest_eq bs _

theorem selectCandidates_second_eq (bs : List (List ChemRecord)) :
    (selectCandidates bs).second_lowest_time1 = lowerAll 0 (bs.map remainderTime) :=
  foldl_selectFile_second_eq bs _

/-! ### The sorted vector -/

theorem sortHigher_sorted (b : List ChemRecord) (hnan : ∀ r ∈ b, r.time1 ≠ F32.nan) :
    (sortHigher b).Pairwise fun c1 c2 => c2.time1 ≤ c1.time1 := by
  have hs := insertionSort_pairwise
    (fun c1 c2 : ChemRecord => ¬ (ChemRecord.higher c2 c1 = true))
    (fun r => r.time1 ≠ F32.nan)
    (fun a c _ _ => by
      simp only [ChemRecord.higher, decide_eq_true_eq, gt_iff_lt]
      exact f32_not_lt_total c.time1 a.time1)
    (fun a c e ha hc he h1 h2 => by
      simp only [ChemRecord.higher, decide_eq_true_eq, gt_iff_lt] at h1 h2 ⊢
      exact f32_not_lt_trans e.time1 c.time1 a.time1 he hc ha h2 h1)
    b hnan
  refine List.Pairwise.imp_of_mem ?_ hs
  intro a c ha hc hac
  simp only [ChemRecord.higher, decide_eq_true_eq, gt_iff_lt] at hac
  exact f32_le_of_not_lt (hnan a ((sortHigher_perm b).subset ha))
    (hnan c ((sortHigher_perm b).subset hc)) hac

/-- The record taken from a vector has the smallest time of the vector. -/
theorem candidate_le (b : List ChemRecord) (hb : b ≠ []) (hnan : ∀ r ∈ b, r.time1 ≠ F32.nan) :
    ∀ r ∈ b, (candidate b).time1 ≤ r.time1 := by
  have hs := sortHigher_sorted b hnan
  rw [← remainder_append_candidate b hb, List.pairwise_append] at hs
  intro r hr
  have hr' : r ∈ remainder b ++ [candidate b] := (remainder_candidate_perm b hb).symm.subset hr
  rcases List.mem_append.mp hr' with h | h
  · exact hs.2.2 r h (candidate b) (by simp)
  · have : r = candidate b := by simpa using h
    rw [this]
    exact f32_le_refl (hnan _ (candidate_mem b hb))

/-- The time that a file gives to `second_lowest_time1` is the smallest time
left in its vector. -/
theorem remainderTime_spec (b : List ChemRecord) (hnan : ∀ r ∈ b, r.time1 ≠ F32.nan) (t : F32)
    (h : remainderTime b = some t) :
    (∃ r ∈ remainder b, r.time1 = t) ∧ ∀ r ∈ remainder b, t ≤ r.time1 := by
  unfold remainderTime at h
  split at h
  · exact Option.noConfusion h
  · next hne =>
    injection h with h
    have hne' : remainder b ≠ [] := by simpa using hne
    have hb : b ≠ [] := by
      intro h0; subst h0; exact hne' remainder_nil
    obtain ⟨x, hx⟩ : ∃ x, (remainder b).getLast? = some x := by
      cases hl : (remainder b).getLast? with
      | none => exact absurd (List.getLast?_eq_none_iff.mp hl) hne'
      | some x => exact ⟨x, rfl⟩
    have hD : (remainder b).getLastD NA = x := by
      rw [List.getLastD_eq_getLast?, hx]; rfl
    rw [hD] at h
    subst h
    have hsplit := List.dropLast_append_getLast? x hx
    have hs := sortHigher_sorted b hnan
    rw [← remainder_append_candidate b hb, ← hsplit, List.pairwise_append] at hs
    have hs1 := hs.1
    rw [List.pairwise_append] at hs1
    refine ⟨⟨x, List.mem_of_getLast?_eq_some hx, rfl⟩, fun r hr => ?_⟩
    rw [← hsplit] at hr
    rcases List.mem_append.mp hr with h' | h'
    · exact hs1.2.2 r h' x (by simp)
    · have : r = x := by simpa using h'
      rw [this]
      exact f32_le_refl (hnan _ (remainder_subset b x (List.mem_of_getLast?_eq_some hx)))

theorem remainderTime_isSome (b : List ChemRecord) (h : remainder b ≠ []) :
    ∃ t, remainderTime b = some t := by
  unfold remainderTime
  have : (remainder b).isEmpty = false := by simpa using h
  rw [this]
  exact ⟨_, rfl⟩

/-! ## The push-back rule -/

theorem f32_nan_mul (a : F32) : F32.nan * a = F32.nan := rfl

theorem f32_add_nan_right (a : F32) : a + F32.nan = F32.nan := by
  cases a <;> rfl

theorem cutoff_eq_specCutoff (d l : F32) : cutoff d l = specCutoff d l := by
  unfold cutoff specCutoff afraction
  by_cases hn : d = F32.nan
  · subst hn
    have h1 : ¬ (F32.nan ≥ (1 : F32)) := f32_not_le_nan 1
    have h2 : ¬ (F32.nan < (1 : F32)) := f32_not_nan_lt 1
    simp only [h1, h2, decide_False, Bool.not_false, if_true, if_false]
    rw [f32_add_nan_right, f32_nan_mul, f32_add_nan_right]
  · have h1 : (1 : F32) ≠ F32.nan := by decide!
    by_cases h : d < 1
    · have : ¬ (d ≥ 1) := f32_not_le_of_lt h
      simp only [h, this, decide_False, Bool.not_false, if_true]
      exact f32_mul_comm _ _
    · have : d ≥ 1 := f32_le_of_not_lt hn h1 h
      simp only [h, this, decide_True, Bool.not_true, if_false, Bool.false_eq_true]

theorem pushback_iff (d l s : F32) (c : ChemRecord) (hf : c.nfields ≠ 0) :
    pushback d l s c = true ↔
      (c.time1 > specCutoff d l ∨ c.time1 - l > F32.abs (s - c.time1)) := by
  unfold pushback
  rw [if_pos hf, cutoff_eq_specCutoff]
  by_cases h1 : c.time1 > specCutoff d l
  · simp [h1]
  · by_cases h2 : c.time1 - l > F32.abs (s - c.time1)
    · simp [h1, h2]
    · simp [h1, h2]

theorem lowerAll_all_none (os : List (Option F32)) (h : ∀ o ∈ os, o = none) (x : F32) :
    lowerAll x os = x := by
  induction os with
  | nil => rfl
  | cons o os ih =>
    have ho : o = none := h o (by simp)
    subst ho
    rw [lowerAll_none]
    exact ih (fun o ho => h o (List.mem_cons_of_mem _ ho))

/-- The lowest time of a grouping step is the least time of the candidates. -/
theorem selectCandidates_lowest_least (bs : List (List ChemRecord))
    (hpos : ∀ b ∈ bs, ∀ r ∈ b, 0 < r.time1) :
    ∀ b ∈ bs, b ≠ [] → (selectCandidates bs).lowest_time1 ≤ (candidate b).time1 := by
  intro b hb hne
  rw [selectCandidates_lowest_eq]
  refine (lowerAll_le (bs.map candidateTime) ?_ 0 f32_zero_le_zero).1 _ ?_
  · intro t ht
    obtain ⟨b', hb', hc⟩ := List.mem_map.mp ht
    unfold candidateTime at hc
    split at hc
    · next hlen =>
      injection hc with hc
      rw [← hc]
      have hne' : b' ≠ [] := by simpa using hlen
      exact hpos b' hb' _ (candidate_mem b' hne')
    · exact Option.noConfusion hc
  · refine List.mem_map.mpr ⟨b, hb, ?_⟩
    have : b.length ≠ 0 := by simpa using hne
    simp [candidateTime, this]

/-- The second lowest time of a grouping step is the least time left in the
vectors, when something is left, and 0 otherwise. -/
theorem selectCandidates_second_least (bs : List (List ChemRecord))
    (hpos : ∀ b ∈ bs, ∀ r ∈ b, 0 < r.time1) :
    ((∃ b ∈ bs, remainder b ≠ []) →
      (∃ b ∈ bs, ∃ r ∈ remainder b, r.time1 = (selectCandidates bs).second_lowest_time1) ∧
      ∀ b ∈ bs, ∀ r ∈ remainder b, (selectCandidates bs).second_lowest_time1 ≤ r.time1) ∧
    ((¬ ∃ b ∈ bs, remainder b ≠ []) → (selectCandidates bs).second_lowest_time1 = 0) := by
  rw [selectCandidates_second_eq]
  have hnan : ∀ b ∈ bs, ∀ r ∈ b, r.time1 ≠ F32.nan := fun b hb r hr =>
    f32_ne_nan_of_lt_right (hpos b hb r hr)
  have hpos' : ∀ t, some t ∈ bs.map remainderTime → 0 < t := by
    intro t ht
    obtain ⟨b, hb, hc⟩ := List.mem_map.mp ht
    obtain ⟨⟨r, hr, hrt⟩, _⟩ := remainderTime_spec b (hnan b hb) t hc
    rw [← hrt]
    exact hpos b hb r (remainder_subset b r hr)
  constructor
  · rintro ⟨b0, hb0, hne0⟩
    obtain ⟨t0, ht0⟩ := remainderTime_isSome b0 hne0
    have hmem := lowerAll_zero_mem (bs.map remainderTime)
      ⟨t0, List.mem_map.mpr ⟨b0, hb0, ht0⟩⟩
    obtain ⟨b1, hb1, hc1⟩ := List.mem_map.mp hmem
    obtain ⟨⟨r, hr, hrt⟩, _⟩ := remainderTime_spec b1 (hnan b1 hb1) _ hc1
    refine ⟨⟨b1, hb1, r, hr, hrt⟩, fun b hb r hr => ?_⟩
    have hneb : remainder b ≠ [] := List.ne_nil_of_mem hr
    obtain ⟨t, ht⟩ := remainderTime_isSome b hneb
    have hle := (lowerAll_le (bs.map remainderTime) hpos' 0 f32_zero_le_zero).1 t
      (List.mem_map.mpr ⟨b, hb, ht⟩)
    exact f32_le_trans hle ((remainderTime_spec b (hnan b hb) t ht).2 r hr)
  · intro hnone
    apply lowerAll_all_none
    intro o ho
    obtain ⟨b, hb, hc⟩ := List.mem_map.mp ho
    rw [← hc]
    unfold remainderTime
    have : remainder b = [] := by
      by_contra h
      exact hnone ⟨b, hb, h⟩
    simp [this]

/-- C18, as stated, fails when the product is rounded.  With the times 1 +
100/2^23 and 1 + 1/128 + 101/2^23 in two files and the tolerance 1/128, all of
them `float`s exactly, the second time is above `lowest * (1 + diff)` as a
number, but the `float` product is rounded up to the second time itself, the
test `t > cutoff` is false, and the candidate stays in the row. -/
theorem pushback_rule_counterexample :
    F32.toRat? (8388708 / 8388608) = some (8388708 / 8388608) ∧
    F32.toRat? (8454245 / 8388608) = some (8454245 / 8388608) ∧
    F32.toRat? (1 / 128) = some (1 / 128) ∧
    (8454245 / 8388608 : ℚ) > 8388708 / 8388608 * (1 + 1 / 128) ∧
    F32.toRat? (cutoff (1 / 128) (8388708 / 8388608)) = some (8454245 / 8388608) ∧
    ¬ ((8454245 / 8388608 : F32) > cutoff (1 / 128) (8388708 / 8388608)) ∧
    groupingStep (1 / 128)
        [[exampleDetection "7" "lo" (8388708 / 8388608)],
         [exampleDetection "8" "hi" (8454245 / 8388608)]] =
      ⟨[exampleDetection "7" "lo" (8388708 / 8388608),
          exampleDetection "8" "hi" (8454245 / 8388608)],
        [[], []], 8388708 / 8388608, 0, false⟩ := by
  decide!

/-- C18 (push-back rule of one grouping step), amended.  With every record a
detection with a positive time and a tolerance that is not negative, all
arithmetic being that of `float` (each sum, difference and product rounded to
the nearest `float`): the candidate of a file is a record of its vector with
the least time; `lowest_time1` is the least time of the candidates and is not
above the cutoff; `second_lowest_time1` is the least time left in the vectors
after the candidates are taken; and the candidate of a file, with time `t`, is
pushed back (its place in the row is blank and it is in the file's vector
again) iff `t` exceeds the cutoff, or something is left and the rounded
`t - lowest` exceeds the absolute value of the rounded `second_lowest - t`;
every other candidate is kept in the row and is no longer in the vector.  The
cutoff is the rounded product of `lowest` and the rounded `1 + d` for `d < 1`,
and the rounded `lowest + d` otherwise. -/
theorem pushback_rule (d : F32) (bs : List (List ChemRecord)) (hd : 0 ≤ d)
    (hrec : ∀ b ∈ bs, ∀ r ∈ b, r.nfields ≠ 0 ∧ 0 < r.time1) :
    (∀ b ∈ bs, b ≠ [] →
      candidate b ∈ b ∧ (∀ r ∈ b, (candidate b).time1 ≤ r.time1) ∧
        (remainder b ++ [candidate b]).Perm b) ∧
    ((∃ b ∈ bs, b ≠ []) →
      (∃ b ∈ bs, b ≠ [] ∧ (candidate b).time1 = (groupingStep d bs).lowest_time1) ∧
      (∀ b ∈ bs, b ≠ [] → (groupingStep d bs).lowest_time1 ≤ (candidate b).time1) ∧
      (groupingStep d bs).lowest_time1 ≤ specCutoff d (groupingStep d bs).lowest_time1) ∧
    ((∃ b ∈ bs, remainder b ≠ []) →
      (∃ b ∈ bs, ∃ r ∈ remainder b, r.time1 = (groupingStep d bs).second_lowest_time1) ∧
      ∀ b ∈ bs, ∀ r ∈ remainder b, (groupingStep d bs).second_lowest_time1 ≤ r.time1) ∧
    ∀ (f : Nat) (b : List ChemRecord), bs[f]? = some b → b ≠ [] →
      (((candidate b).time1 > specCutoff d (groupingStep d bs).lowest_time1 ∨
          ((∃ b' ∈ bs, remainder b' ≠ []) ∧
            (candidate b).time1 - (groupingStep d bs).lowest_time1 >
              F32.abs ((groupingStep d bs).second_lowest_time1 - (candidate b).time1))) →
        (groupingStep d bs).lowest_recs[f]? = some NA ∧
        (groupingStep d bs).buckets[f]? = some (remainder b ++ [candidate b])) ∧
      (¬ ((candidate b).time1 > specCutoff d (groupingStep d bs).lowest_time1 ∨
          ((∃ b' ∈ bs, remainder b' ≠ []) ∧
            (candidate b).time1 - (groupingStep d bs).lowest_time1 >
              F32.abs ((groupingStep d bs).second_lowest_time1 - (candidate b).time1))) →
        (groupingStep d bs).lowest_recs[f]? = some (candidate b) ∧
        (groupingStep d bs).buckets[f]? = some (remainder b)) := by
  have hpos : ∀ b ∈ bs, ∀ r ∈ b, 0 < r.time1 := fun b hb r hr => (hrec b hb r hr).2
  have hsec := selectCandidates_second_least bs hpos
  have hL : (groupingStep d bs).lowest_time1 = (selectCandidates bs).lowest_time1 := rfl
  have hS : (groupingStep d bs).second_lowest_time1 =
      (selectCandidates bs).second_lowest_time1 := rfl
  refine ⟨fun b hb hne => ⟨candidate_mem b hne,
      candidate_le b hne (fun r hr => f32_ne_nan_of_lt_right (hpos b hb r hr)),
      remainder_candidate_perm b hne⟩,
    fun hex => ⟨selectCandidates_lowest_mem bs hex, selectCandidates_lowest_least bs hpos, ?_⟩,
    fun hex => by rw [hS]; exact hsec.1 hex, ?_⟩
  · obtain ⟨b0, hb0, hb0ne, hb0t⟩ := selectCandidates_lowest_mem bs hex
    have hl : 0 < (selectCandidates bs).lowest_time1 := by
      rw [← hb0t]; exact hpos b0 hb0 _ (candidate_mem b0 hb0ne)
    rw [hL, ← cutoff_eq_specCutoff]
    exact cutoff_ge d _ hd hl
  intro f b hf hne
  have hb : b ∈ bs := List.getElem?_mem hf
  have hcf : (candidate b).nfields ≠ 0 := (hrec b hb _ (candidate_mem b hne)).1
  have hLpos : 0 < (selectCandidates bs).lowest_time1 := by
    obtain ⟨b0, hb0, hb0ne, hb0t⟩ := selectCandidates_lowest_mem bs ⟨b, hb, hne⟩
    rw [← hb0t]; exact hpos b0 hb0 _ (candidate_mem b0 hb0ne)
  have hiff := pushback_iff d (selectCandidates bs).lowest_time1
    (selectCandidates bs).second_lowest_time1 (candidate b) hcf
  -- the second test cannot hold when nothing is left
  have hrule : pushback d (selectCandidates bs).lowest_time1
      (selectCandidates bs).second_lowest_time1 (candidate b) = true ↔
      ((candidate b).time1 > specCutoff d (selectCandidates bs).lowest_time1 ∨
        ((∃ b' ∈ bs, remainder b' ≠ []) ∧
          (candidate b).time1 - (selectCandidates bs).lowest_time1 >
            F32.abs ((selectCandidates bs).second_lowest_time1 - (candidate b).time1))) := by
    rw [hiff]
    constructor
    · rintro (h | h)
      · exact Or.inl h
      · by_cases hex : ∃ b' ∈ bs, remainder b' ≠ []
        · exact Or.inr ⟨hex, h⟩
        · exfalso
          rw [hsec.2 hex] at h
          exact f32_not_abs_neg_lt_sub _ _ hLpos h
    · rintro (h | ⟨_, h⟩)
      · exact Or.inl h
      · exact Or.inr h
  rw [hL, hS, groupingStep_lowest_recs, groupingStep_buckets, List.getElem?_map,
    List.getElem?_map, hf]
  constructor
  · intro h
    have hp := hrule.mpr h
    simp [hp]
  · intro h
    have hp : ¬ pushback d (selectCandidates bs).lowest_time1
        (selectCandidates bs).second_lowest_time1 (candidate b) = true :=
      fun hp => h (hrule.mp hp)
    simp [hp]

/-- The witness of C18: the vectors `[10.0]` and `[10.11]` with tolerance 0.01;
the candidate of the second file is over the cutoff and is pushed back. -/
theorem pushback_rule_witness :
    (groupingStep (1 / 100)
        [[exampleDetection "7" "10.0" 10],
         [exampleDetection "8" "10.11" (1011 / 100)]]).lowest_recs[1]? = some NA ∧
    (groupingStep (1 / 100)
        [[exampleDetection "7" "10.0" 10],
         [exampleDetection "8" "10.11" (1011 / 100)]]).buckets[1]? =
      some (remainder [exampleDetection "8" "10.11" (1011 / 100)] ++
        [candidate [exampleDetection "8" "10.11" (1011 / 100)]]) :=
  ((pushback_rule (1 / 100)
      [[exampleDetection "7" "10.0" 10], [exampleDetection "8" "10.11" (1011 / 100)]]
      (by decide!) (by decide!)).2.2.2 1 [exampleDetection "8" "10.11" (1011 / 100)] rfl
      (by simp)).1 (Or.inl (by decide!))

/-! ## The representative time of a row -/

/-- The row of a grouping step that starts with a record in some vector: its
time is the time of a detection in the row and no detection in the row is
earlier. -/
theorem groupingStep_row_time (d : F32) (bs : List (List ChemRecord)) (hd : 0 ≤ d)
    (hrec : ∀ b ∈ bs, ∀ r ∈ b, r.nfields ≠ 0 ∧ 0 < r.time1) (hex : ∃ b ∈ bs, b ≠ []) :
    (∃ r ∈ (groupingStep d bs).lowest_recs,
      r.nfields ≠ 0 ∧ r.time1 = (groupingStep d bs).lowest_time1) ∧
    ∀ r ∈ (groupingStep d bs).lowest_recs, r.nfields ≠ 0 →
      (groupingStep d bs).lowest_time1 ≤ r.time1 := by
  have hpos : ∀ b ∈ bs, ∀ r ∈ b, 0 < r.time1 := fun b hb r hr => (hrec b hb r hr).2
  obtain ⟨b0, hb0, hb0ne, hb0t⟩ := selectCandidates_lowest_mem bs hex
  have hl : 0 < (selectCandidates bs).lowest_time1 := by
    rw [← hb0t]; exact hpos b0 hb0 _ (candidate_mem b0 hb0ne)
  have hkeep := pushback_lowest d _ (selectCandidates bs).second_lowest_time1 (candidate b0)
    hd hl hb0t
  rw [groupingStep_lowest_recs, groupingStep_lowest_time1]
  constructor
  · refine ⟨candidate b0, ?_, (hrec b0 hb0 _ (candidate_mem b0 hb0ne)).1, hb0t⟩
    refine List.mem_map.mpr ⟨b0, hb0, ?_⟩
    rw [hkeep]; rfl
  · intro r hr hf
    obtain ⟨b, hb, hrb⟩ := List.mem_map.mp hr
    split at hrb
    · rw [← hrb] at hf; exact absurd rfl hf
    · have hne : b ≠ [] := by
        intro h0; subst h0
        rw [candidate_nil] at hrb
        rw [← hrb] at hf; exact absurd rfl hf
      rw [← hrb]
      exact selectCandidates_lowest_least bs hpos b hb hne

theorem groupingStep_more_nonempty (d : F32) (bs : List (List ChemRecord))
    (hmore : (groupingStep d bs).more_data_seen = true) :
    ∃ b ∈ (groupingStep d bs).buckets, b ≠ [] := by
  rw [groupingStep_more] at hmore
  rw [groupingStep_buckets]
  simp only [Bool.or_eq_true, List.any_eq_true] at hmore
  rcases hmore with ⟨b, hb, h⟩ | ⟨b, hb, h⟩
  · refine ⟨_, List.mem_map.mpr ⟨b, hb, rfl⟩, ?_⟩
    have hr : remainder b ≠ [] := by simpa using h
    split
    · simp
    · exact hr
  · refine ⟨_, List.mem_map.mpr ⟨b, hb, rfl⟩, ?_⟩
    rw [if_pos h]; simp

/-- Every row of the loop of one chemical that has a record in some file. -/
theorem alignLoop_row_time (d : F32) (restricted : Bool) (k : Str) (hd : 0 ≤ d) :
    ∀ (fuel : Nat) (bs : List (List ChemRecord)),
      (∀ b ∈ bs, ∀ r ∈ b, r.nfields ≠ 0 ∧ 0 < r.time1) → (∃ b ∈ bs, b ≠ []) →
      ∀ row ∈ (alignLoop d restricted k fuel bs).rows,
        (∃ r ∈ row.lowest_recs, r.nfields ≠ 0 ∧ r.time1 = row.time1) ∧
        ∀ r ∈ row.lowest_recs, r.nfields ≠ 0 → row.time1 ≤ r.time1 := by
  intro fuel
  induction fuel with
  | zero => intro bs _ _ row h; simp [alignLoop] at h
  | succ n ih =>
    intro bs hrec hex row hrow
    have hstep := groupingStep_row_time d bs hd hrec hex
    have hfirst : ∀ row' ∈ (if (!unfound (groupingStep d bs).lowest_recs || !restricted) = true
        then [(⟨k, (groupingStep d bs).lowest_recs, (groupingStep d bs).lowest_time1⟩ :
          AlignedRow)] else []),
        (∃ r ∈ row'.lowest_recs, r.nfields ≠ 0 ∧ r.time1 = row'.time1) ∧
        ∀ r ∈ row'.lowest_recs, r.nfields ≠ 0 → row'.time1 ≤ r.time1 := by
      intro row' h
      split at h
      · have : row' = ⟨k, (groupingStep d bs).lowest_recs, (groupingStep d bs).lowest_time1⟩ := by
          simpa using h
        subst this
        exact hstep
      · simp at h
    rw [alignLoop] at hrow
    dsimp only at hrow
    cases hmore : (groupingStep d bs).more_data_seen with
    | true =>
      rw [hmore] at hrow
      simp only [if_true] at hrow
      rcases List.mem_append.mp hrow with h | h
      · exact hfirst row h
      · have hrec' : ∀ b ∈ (groupingStep d bs).buckets, ∀ r ∈ b, r.nfields ≠ 0 ∧ 0 < r.time1 := by
          intro b' hb' r hr
          obtain ⟨b, hb, hsub⟩ := groupingStep_subset d bs b' hb'
          exact hrec b hb r (hsub r hr)
        exact ih _ hrec' (groupingStep_more_nonempty d bs hmore) row h
    | false =>
      rw [hmore] at hrow
      simp only [Bool.false_eq_true, if_false] at hrow
      exact hfirst row hrow

theorem alignAll_rows (d : F32) (restricted : Bool) (fuel : Nat) (AllFileData : List FileData) :
    ∀ (Chemicals : List Str),
      ∀ row ∈ (alignAll d restricted fuel AllFileData Chemicals).1,
        ∃ k ∈ Chemicals,
          row ∈ (alignLoop d restricted k fuel (AllFileData.map fun fd => fd k)).rows := by
  intro Chemicals
  induction Chemicals with
  | nil => intro row h; simp [alignAll] at h
  | cons c cs ih =>
    intro row h
    rw [alignAll] at h
    dsimp only at h
    split at h
    · rcases List.mem_append.mp h with h | h
      · exact ⟨c, by simp, h⟩
      · obtain ⟨k, hk, hr⟩ := ih row h
        exact ⟨k, List.mem_cons_of_mem _ hk, hr⟩
    · exact ⟨c, by simp, h⟩

/-! ### Rows without a NaN -/

/-- The time of the row of a grouping step is 0 or the time of a record. -/
theorem groupingStep_time_ne_nan (d : F32) (bs : List (List ChemRecord))
    (hnan : ∀ b ∈ bs, ∀ r ∈ b, r.time1 ≠ F32.nan) :
    (groupingStep d bs).lowest_time1 ≠ F32.nan := by
  rw [groupingStep_lowest_time1]
  rcases foldl_selectFile_lowest_time1_mem bs ⟨[], [], 0, 0, false⟩ with h | ⟨b, hb, hne, h⟩
  · unfold selectCandidates
    rw [h]
    decide!
  · unfold selectCandidates
    rw [← h]
    exact hnan b hb _ (candidate_mem b hne)

theorem alignLoop_time_ne_nan (d : F32) (restricted : Bool) (k : Str) :
    ∀ (fuel : Nat) (bs : List (List ChemRecord)),
      (∀ b ∈ bs, ∀ r ∈ b, r.time1 ≠ F32.nan) →
      ∀ row ∈ (alignLoop d restricted k fuel bs).rows, row.time1 ≠ F32.nan := by
  intro fuel
  induction fuel with
  | zero => intro bs _ row h; simp [alignLoop] at h
  | succ n ih =>
    intro bs hnan row hrow
    have hstep := groupingStep_time_ne_nan d bs hnan
    have hfirst : ∀ row' ∈ (if (!unfound (groupingStep d bs).lowest_recs || !restricted) = true
        then [(⟨k, (groupingStep d bs).lowest_recs, (groupingStep d bs).lowest_time1⟩ :
          AlignedRow)] else []), row'.time1 ≠ F32.nan := by
      intro row' h
      split at h
      · rw [List.mem_singleton] at h
        rw [h]
        exact hstep
      · exact absurd h (List.not_mem_nil _)
    have hnan' : ∀ b ∈ (groupingStep d bs).buckets, ∀ r ∈ b, r.time1 ≠ F32.nan := by
      intro b' hb' r hr
      obtain ⟨b, hb, hsub⟩ := groupingStep_subset d bs b' hb'
      exact hnan b hb r (hsub r hr)
    rw [alignLoop] at hrow
    dsimp only at hrow
    split at hrow
    · rcases List.mem_append.mp hrow with h | h
      · exact hfirst row h
      · exact ih _ hnan' row h
    · exact hfirst row hrow

/-- When no time read is a NaN, no emitted row has a NaN for its time. -/
theorem alignAll_time_ne_nan (d : F32) (restricted : Bool) (fuel : Nat)
    (AllFileData : List FileData) (Chemicals : List Str)
    (hnan : ∀ fd ∈ AllFileData, ∀ k, ∀ r ∈ fd k, r.time1 ≠ F32.nan) :
    ∀ row ∈ (alignAll d restricted fuel AllFileData Chemicals).1, row.time1 ≠ F32.nan := by
  intro row hrow
  obtain ⟨k, _, hr⟩ := alignAll_rows d restricted fuel AllFileData Chemicals row hrow
  refine alignLoop_time_ne_nan d restricted k fuel _ ?_ row hr
  intro b hb r hrb
  obtain ⟨fd, hfd, rfl⟩ := List.mem_map.mp hb
  exact hnan fd hfd k r hrb

/-! ### The order of the written rows -/

/-- C7, as stated, fails when a time is a NaN: the reader accepts the text
`nan`, the row of that chemical has a NaN for its time, every comparison with it
is false, and the sort leaves the rows with the times 1, 3, NaN, 2 as they are,
so that the row with time 3 is written before the row with time 2. -/
theorem output_ordering_counterexample :
    readRow strtofDecimal "C,c,nan".toList =
      RowResult.stored "C".toList ⟨["c".toList, "nan".toList], F32.nan⟩ ∧
    (match readFiles strtofDecimal false 0
        [[",A,A".toList, "id,x,t".toList, "A,a,1".toList, "B,b,3".toList,
          "C,c,nan".toList, "D,d,2".toList]] Globals.start with
      | Except.ok g =>
        some ((alignAll (1 / 100) false 1 g.AllFileData g.Chemicals).1.map
          fun row => (row.keychem, row.time1))
      | Except.error _ => none) =
      some [("A".toList, 1), ("B".toList, 3), ("C".toList, F32.nan), ("D".toList, 2)] ∧
    mainRun strtofDecimal false false (1 / 100) "\n".toList 1
        [[",A,A".toList, "id,x,t".toList, "A,a,1".toList, "B,b,3".toList,
          "C,c,nan".toList, "D,d,2".toList]] =
      RunResult.written [",A,\n".toList, "id,x,t\n".toList, "A,a,1\n".toList,
        "B,b,3\n".toList, "C,c,nan\n".toList, "D,d,2\n".toList] ∧
    ¬ ((3 : F32) ≤ 2) ∧ ¬ ((3 : F32) ≤ F32.nan) := by
  decide!

/-- C7 (output ordering), amended.  The rows written are the emitted rows in
the order of the sort by representative time (`sortRows`), a permutation of the
emitted rows, each written as its text; this is what a run that ends writes
after the header lines.  When no emitted row has a NaN for its time, the times
never decrease along the written rows; no emitted row has one when no time read
from the files is a NaN. -/
theorem output_ordering (strtof : Strtof) (single_header restricted : Bool) (adiff : F32)
    (LineTerminator : Str) (fuel : Nat) (files : List (List Str)) (DataColumns : List Int)
    (rows : List AlignedRow) (hnan : ∀ row ∈ rows, row.time1 ≠ F32.nan) :
    (sortRows rows).Perm rows ∧
    (sortRows rows).Pairwise (fun r1 r2 => r1.time1 ≤ r2.time1) ∧
    writtenLines (rows.map (toOutputRecord DataColumns LineTerminator)) =
      (sortRows rows).map (outline DataColumns LineTerminator) ∧
    (mainRun strtof single_header restricted adiff LineTerminator fuel files =
      match readFiles strtof single_header 0 files Globals.start with
      | Except.error (Stop.exit code) => RunResult.exit code
      | Except.error Stop.undefined => RunResult.undefined
      | Except.ok g =>
        if (alignAll adiff restricted fuel g.AllFileData g.Chemicals).2 then
          RunResult.written
            (outputHeader single_header g.required LineTerminator g.Header g.Header1 g.Header2 ++
              (sortRows (alignAll adiff restricted fuel g.AllFileData g.Chemicals).1).map
                (outline g.DataColumns LineTerminator))
        else RunResult.unfinished) ∧
    (∀ g, readFiles strtof single_header 0 files Globals.start = Except.ok g →
      (∀ fd ∈ g.AllFileData, ∀ k, ∀ r ∈ fd k, r.time1 ≠ F32.nan) →
      (sortRows (alignAll adiff restricted fuel g.AllFileData g.Chemicals).1).Pairwise
        (fun r1 r2 => r1.time1 ≤ r2.time1)) :=
  ⟨sortRows_perm rows, sortRows_sorted rows hnan,
    writtenLines_map DataColumns LineTerminator rows,
    mainRun_eq strtof single_header restricted adiff LineTerminator fuel files,
    fun g _ hg => sortRows_sorted _
      (alignAll_time_ne_nan adiff restricted fuel g.AllFileData g.Chemicals hg)⟩

/-- The witness of C7: three rows with the times 3, 1 and 2 are written in the
order of the times 1, 2, 3. -/
theorem output_ordering_witness :
    (sortRows [⟨"A".toList, [exampleDetection "a" "3" 3], 3⟩,
        ⟨"B".toList, [exampleDetection "b" "1" 1], 1⟩,
        ⟨"C".toList, [exampleDetection "c" "2" 2], 2⟩]).map (fun row => row.time1) =
      [1, 2, 3] ∧
    writtenLines ([⟨"A".toList, [exampleDetection "a" "3" 3], 3⟩,
        ⟨"B".toList, [exampleDetection "b" "1" 1], 1⟩,
        ⟨"C".toList, [exampleDetection "c" "2" 2], 2⟩].map
          (toOutputRecord [2] "\n".toList)) =
      ["B,b,1\n".toList, "C,c,2\n".toList, "A,a,3\n".toList] ∧
    (sortRows [⟨"A".toList, [exampleDetection "a" "3" 3], 3⟩,
        ⟨"B".toList, [exampleDetection "b" "1" 1], 1⟩,
        ⟨"C".toList, [exampleDetection "c" "2" 2], 2⟩]).Pairwise
      (fun r1 r2 => r1.time1 ≤ r2.time1) :=
  ⟨by decide!, by decide!,
    (output_ordering strtofDecimal false false (1 / 100) "\n".toList 1 [] [2]
      [⟨"A".toList, [exampleDetection "a" "3" 3], 3⟩,
        ⟨"B".toList, [exampleDetection "b" "1" 1], 1⟩,
        ⟨"C".toList, [exampleDetection "c" "2" 2], 2⟩]
      (by
        intro row h
        simp only [List.mem_cons, List.mem_singleton, List.not_mem_nil, or_false] at h
        rcases h with rfl | rfl | rfl <;> decide!)).2.1⟩

/-! ### The representative time -/

/-- C19 (representative time).  With every record a detection with a positive
time, a tolerance that is not negative, and every chemical of the run found in
some file: in every emitted row some file contributes a detection, the time of
the row is the time of one of the detections in it, and no detection in the row
has an earlier time. -/
theorem representative_time (d : F32) (restricted : Bool) (fuel : Nat)
    (AllFileData : List FileData) (Chemicals : List Str) (hd : 0 ≤ d)
    (hrec : ∀ fd ∈ AllFileData, ∀ k, ∀ r ∈ fd k, r.nfields ≠ 0 ∧ 0 < r.time1)
    (hpresent : ∀ k ∈ Chemicals, ∃ fd ∈ AllFileData, fd k ≠ []) :
    ∀ row ∈ (alignAll d restricted fuel AllFileData Chemicals).1,
      (∃ r ∈ row.lowest_recs, r.nfields ≠ 0 ∧ r.time1 = row.time1) ∧
      ∀ r ∈ row.lowest_recs, r.nfields ≠ 0 → row.time1 ≤ r.time1 := by
  intro row hrow
  obtain ⟨k, hk, hr⟩ := alignAll_rows d restricted fuel AllFileData Chemicals row hrow
  refine alignLoop_row_time d restricted k hd fuel _ ?_ ?_ row hr
  · intro b hb r hrb
    obtain ⟨fd, hfd, rfl⟩ := List.mem_map.mp hb
    exact hrec fd hfd k r hrb
  · obtain ⟨fd, hfd, hne⟩ := hpresent k hk
    exact ⟨fd k, List.mem_map.mpr ⟨fd, hfd, rfl⟩, hne⟩

/-- The witness of C19: the two files of the tolerance example, times 10.0 and
10.09; every row of the run has the least time of its detections. -/
theorem representative_time_witness :
    ((alignAll (1 / 100) false 3
        [exampleFile [exampleDetection "7" "10.0" 10],
         exampleFile [exampleDetection "8" "10.09" (1009 / 100)]] ["X".toList]).1.map
      (fun row => row.time1) = [10]) ∧
    List.Forall
      (fun row : AlignedRow =>
        (∃ r ∈ row.lowest_recs, r.nfields ≠ 0 ∧ r.time1 = row.time1) ∧
        ∀ r ∈ row.lowest_recs, r.nfields ≠ 0 → row.time1 ≤ r.time1)
      (alignAll (1 / 100) false 3
        [exampleFile [exampleDetection "7" "10.0" 10],
         exampleFile [exampleDetection "8" "10.09" (1009 / 100)]] ["X".toList]).1 :=
  ⟨by decide!, List.forall_iff_forall_mem.mpr <| representative_time (1 / 100) false 3
    [exampleFile [exampleDetection "7" "10.0" 10],
     exampleFile [exampleDetection "8" "10.09" (1009 / 100)]] ["X".toList]
    (by decide!)
    (by
      intro fd hfd k r hr
      simp only [List.mem_cons, List.mem_singleton, List.not_mem_nil, or_false] at hfd
      rcases hfd with rfl | rfl
      · simp only [exampleFile, List.foldl_cons, List.foldl_nil, storeRecord] at hr
        split at hr
        · simp only [List.nil_append, List.mem_singleton] at hr
          subst hr
          exact ⟨by decide, by decide!⟩
        · simp at hr
      · simp only [exampleFile, List.foldl_cons, List.foldl_nil, storeRecord] at hr
        split at hr
        · simp only [List.nil_append, List.mem_singleton] at hr
          subst hr
          exact ⟨by decide, by decide!⟩
        · simp at hr)
    (by
      intro k hk
      simp only [List.mem_singleton] at hk
      subst hk
      exact ⟨exampleFile [exampleDetection "7" "10.0" 10], by simp, by decide⟩)⟩

/-! ## What the reader guarantees of the data it hands to the alignment -/

theorem mem_insertChemical (chemicalName k : Str) :
    ∀ (Chemicals : List Str),
      k ∈ insertChemical chemicalName Chemicals ↔ k = chemicalName ∨ k ∈ Chemicals := by
  intro Chemicals
  induction Chemicals with
  | nil => simp [insertChemical]
  | cons c cs ih =>
    rw [insertChemical]
    by_cases h1 : chemicalName = c
    · subst h1
      simp
    · rw [if_neg h1]
      by_cases h2 : chemicalName < c
      · rw [if_pos h2]
        simp
      · rw [if_neg h2, List.mem_cons, ih, List.mem_cons]
        tauto

/-- The data lines of one file: every name in `Chemicals` afterwards was there
before or has a record in the file, the records already in the file stay, and
every record has at least two fields. -/
theorem readRows_present (strtof : Strtof) :
    ∀ (lines : List Str) (fd : FileData) (Chemicals : List Str) (r : FileData × List Str),
      readRows strtof lines fd Chemicals = Except.ok r →
      (∀ k, r.1 k = [] → fd k = []) ∧
      (∀ k ∈ r.2, k ∈ Chemicals ∨ r.1 k ≠ []) ∧
      (∀ k ∈ Chemicals, k ∈ r.2) ∧
      ((∀ k, ∀ x ∈ fd k, 2 ≤ x.nfields) → ∀ k, ∀ x ∈ r.1 k, 2 ≤ x.nfields) := by
  intro lines
  induction lines with
  | nil =>
    intro fd Chemicals r h
    rw [readRows] at h
    cases h
    exact ⟨fun _ h => h, fun k hk => Or.inl hk, fun k hk => hk, fun h => h⟩
  | cons aline rest ih =>
    intro fd Chemicals r h
    rw [readRows] at h
    cases hrow : readRow strtof aline with
    | fatal => rw [hrow] at h; cases h
    | undefined => rw [hrow] at h; cases h
    | stored chemicalName chemrecord =>
      rw [hrow] at h
      dsimp only at h
      obtain ⟨h1, h2, h3, h4⟩ := ih _ _ r h
      have hstore : ∀ k, storeRecord fd chemicalName chemrecord k = [] → fd k = [] := by
        intro k hk
        unfold storeRecord at hk
        by_cases e : k = chemicalName
        · rw [if_pos e] at hk
          simp at hk
        · rw [if_neg e] at hk
          exact hk
      refine ⟨fun k hk => hstore k (h1 k hk), ?_, ?_, ?_⟩
      · intro k hk
        rcases h2 k hk with hmem | hne
        · rcases (mem_insertChemical chemicalName k Chemicals).mp hmem with e | hmem'
          · right
            intro hempty
            have := h1 k hempty
            unfold storeRecord at this
            rw [if_pos e] at this
            simp at this
          · exact Or.inl hmem'
        · exact Or.inr hne
      · intro k hk
        exact h3 k ((mem_insertChemical chemicalName k Chemicals).mpr (Or.inr hk))
      · intro hfd
        apply h4
        intro k x hx
        unfold storeRecord at hx
        by_cases e : k = chemicalName
        · rw [if_pos e, List.mem_append, List.mem_singleton] at hx
          rcases hx with hx | hx
          · exact hfd k x hx
          · subst hx
            exact readRow_nfields strtof aline chemicalName x hrow
        · rw [if_neg e] at hx
          exact hfd k x hx

theorem readFile_invariant (strtof : Strtof) (single_header : Bool) (ifile : Nat)
    (lines : List Str) (g g' : Globals) (hg : readerInvariant g)
    (h : readFile strtof single_header ifile lines g = Except.ok g') :
    readerInvariant g' := by
  unfold readFile at h
  cases hh : processHeader ifile single_header (lines.headD []) (lines.tail.headD []) with
  | error code => rw [hh] at h; cases h
  | ok res =>
    rw [hh] at h
    dsimp only at h
    cases hr : readRows strtof (if res.required then lines.drop 2 else lines.drop 1)
        (fun _ => []) g.Chemicals with
    | error e => rw [hr] at h; cases h
    | ok r =>
      rw [hr] at h
      dsimp only at h
      cases h
      obtain ⟨_, h2, _, h4⟩ := readRows_present strtof _ _ _ r hr
      refine ⟨?_, ?_⟩
      · intro k hk
        rcases h2 k hk with hmem | hne
        · obtain ⟨fd, hfd, hne⟩ := hg.1 k hmem
          exact ⟨fd, List.mem_append_left _ hfd, hne⟩
        · exact ⟨r.1, by simp, hne⟩
      · intro fd hfd k x hx
        rcases List.mem_append.mp hfd with hfd | hfd
        · exact hg.2 fd hfd k x hx
        · rw [List.mem_singleton] at hfd
          subst hfd
          exact h4 (fun _ _ hx => by simp at hx) k x hx

/-- After all files are read, every chemical name that the alignment goes
through has a record in some file, and every record has at least two fields (so
none is taken for the placeholder `NA`). -/
theorem readFiles_invariant (strtof : Strtof) (single_header : Bool) :
    ∀ (files : List (List Str)) (ifile : Nat) (g g' : Globals), readerInvariant g →
      readFiles strtof single_header ifile files g = Except.ok g' → readerInvariant g' := by
  intro files
  induction files with
  | nil =>
    intro ifile g g' hg h
    rw [readFiles] at h
    cases h
    exact hg
  | cons lines rest ih =>
    intro ifile g g' hg h
    rw [readFiles] at h
    cases hf : readFile strtof single_header ifile lines g with
    | error e => rw [hf] at h; cases h
    | ok g1 =>
      rw [hf] at h
      exact ih _ g1 g' (readFile_invariant strtof single_header ifile lines g g1 hg hf) h

theorem readerInvariant_start : readerInvariant Globals.start :=
  ⟨fun k hk => by simp [Globals.start] at hk, fun fd hfd => by simp [Globals.start] at hfd⟩

/-! ## Termination of the loop of one chemical -/

theorem totalRecords_pos (bs : List (List ChemRecord)) (hex : ∃ b ∈ bs, b ≠ []) :
    0 < totalRecords bs := by
  obtain ⟨b, hb, hne⟩ := hex
  have hlen : 0 < b.length := List.length_pos.mpr hne
  unfold totalRecords
  induction bs with
  | nil => simp at hb
  | cons c cs ih =>
    rw [List.map_cons, List.sum_cons]
    rcases List.mem_cons.mp hb with h | h
    · subst h; omega
    · have := ih h; omega

/-- A grouping step that starts with a record in some vector leaves fewer
records in the vectors: a candidate with the lowest time is not pushed back. -/
theorem groupingStep_decrease (d : F32) (bs : List (List ChemRecord)) (hd : 0 ≤ d)
    (hpos : ∀ b ∈ bs, ∀ r ∈ b, 0 < r.time1) (hne : ∃ b ∈ bs, b ≠ []) :
    totalRecords (groupingStep d bs).buckets < totalRecords bs := by
  obtain ⟨b0, hb0, hb0ne, hb0t⟩ := selectCandidates_lowest_mem bs hne
  have hl : 0 < (selectCandidates bs).lowest_time1 := by
    rw [← hb0t]; exact hpos b0 hb0 _ (candidate_mem b0 hb0ne)
  have hkeep := pushback_lowest d _ (selectCandidates bs).second_lowest_time1 (candidate b0)
    hd hl hb0t
  rw [groupingStep_buckets]
  unfold totalRecords
  rw [List.map_map]
  have h := List.sum_lt_sum
    (List.length ∘ fun b =>
      if pushback d (selectCandidates bs).lowest_time1
          (selectCandidates bs).second_lowest_time1 (candidate b) then
        remainder b ++ [candidate b]
      else remainder b) List.length (l := bs)
    (fun b _ => step_file_length_le _ (pushback_NA d _ _) b)
    ⟨b0, hb0, step_file_length_lt _ b0 hb0ne hkeep⟩
  exact h

/-- A candidate whose time is the lowest time of the step stays in the row and
is no longer in the vector of its file. -/
theorem groupingStep_lowest_kept (d : F32) (bs : List (List ChemRecord)) (hd : 0 ≤ d)
    (hpos : ∀ b ∈ bs, ∀ r ∈ b, 0 < r.time1) (f : Nat) (b : List ChemRecord)
    (hf : bs[f]? = some b) (hne : b ≠ [])
    (ht : (candidate b).time1 = (groupingStep d bs).lowest_time1) :
    (groupingStep d bs).lowest_recs[f]? = some (candidate b) ∧
    (groupingStep d bs).buckets[f]? = some (remainder b) := by
  have hb : b ∈ bs := List.getElem?_mem hf
  rw [groupingStep_lowest_time1] at ht
  have hl : 0 < (selectCandidates bs).lowest_time1 := by
    rw [← ht]; exact hpos b hb _ (candidate_mem b hne)
  have hkeep := pushback_lowest d _ (selectCandidates bs).second_lowest_time1 (candidate b)
    hd hl ht
  rw [groupingStep_lowest_recs, groupingStep_buckets, List.getElem?_map, List.getElem?_map, hf]
  simp [hkeep]

theorem groupingStep_positive (d : F32) (bs : List (List ChemRecord))
    (hpos : ∀ b ∈ bs, ∀ r ∈ b, 0 < r.time1) :
    ∀ b ∈ (groupingStep d bs).buckets, ∀ r ∈ b, 0 < r.time1 := by
  intro b' hb' r hr
  obtain ⟨b, hb, hsub⟩ := groupingStep_subset d bs b' hb'
  exact hpos b hb r (hsub r hr)

/-- The flag `more_data_seen` after a grouping step is set exactly when a record
is left in some vector. -/
theorem groupingStep_more_iff (d : F32) (bs : List (List ChemRecord)) :
    (groupingStep d bs).more_data_seen = true ↔ ∃ b ∈ (groupingStep d bs).buckets, b ≠ [] := by
  constructor
  · exact groupingStep_more_nonempty d bs
  · intro h
    cases hmore : (groupingStep d bs).more_data_seen with
    | true => rfl
    | false =>
      obtain ⟨b, hb, hne⟩ := h
      exact absurd (groupingStep_done d bs hmore b hb) hne

/-- A loop that ended within its fuel does the same with more fuel. -/
theorem alignLoop_fuel (d : F32) (restricted : Bool) (keychem : Str) :
    ∀ (fuel : Nat) (bs : List (List ChemRecord)),
      (alignLoop d restricted keychem fuel bs).finished = true →
      ∀ (fuel' : Nat), fuel ≤ fuel' →
        alignLoop d restricted keychem fuel' bs = alignLoop d restricted keychem fuel bs := by
  intro fuel
  induction fuel with
  | zero => intro bs h; simp [alignLoop] at h
  | succ n ih =>
    intro bs h fuel' hle
    obtain ⟨m, rfl⟩ : ∃ m, fuel' = m + 1 := ⟨fuel' - 1, by omega⟩
    rw [alignLoop] at h
    rw [alignLoop, alignLoop]
    dsimp only at h ⊢
    cases hmore : (groupingStep d bs).more_data_seen with
    | false => simp only [Bool.false_eq_true, if_false]
    | true =>
      rw [hmore] at h
      simp only [if_true] at h ⊢
      rw [ih _ h m (by omega)]

/-- The rows of a loop are at most as many as the steps its fuel pays for. -/
theorem alignLoop_rows_length (d : F32) (restricted : Bool) (keychem : Str) :
    ∀ (fuel : Nat) (bs : List (List ChemRecord)),
      (alignLoop d restricted keychem fuel bs).rows.length ≤ fuel := by
  intro fuel
  induction fuel with
  | zero => intro bs; simp [alignLoop]
  | succ n ih =>
    intro bs
    have hout : ∀ (c : Prop) [Decidable c] (row : AlignedRow),
        (if c then [row] else []).length ≤ 1 := by
      intro c _ row
      split <;> simp
    rw [alignLoop]
    dsimp only
    split
    · rw [List.length_append]
      have h1 := hout ((!unfound (groupingStep d bs).lowest_recs || !restricted) = true)
        ⟨keychem, (groupingStep d bs).lowest_recs, (groupingStep d bs).lowest_time1⟩
      have h2 := ih (groupingStep d bs).buckets
      omega
    · have h1 := hout ((!unfound (groupingStep d bs).lowest_recs || !restricted) = true)
        ⟨keychem, (groupingStep d bs).lowest_recs, (groupingStep d bs).lowest_time1⟩
      dsimp only
      omega

/-- The loop of one chemical with positive times and a tolerance that is not
negative, started with a record in some vector: as many steps as there are
records are enough for it to end, and it ends with every vector empty. -/
theorem alignLoop_terminates (d : F32) (restricted : Bool) (keychem : Str) (hd : 0 ≤ d) :
    ∀ (fuel : Nat) (bs : List (List ChemRecord)),
      (∀ b ∈ bs, ∀ r ∈ b, 0 < r.time1) → (∃ b ∈ bs, b ≠ []) → totalRecords bs ≤ fuel →
      (alignLoop d restricted keychem fuel bs).finished = true ∧
      ∀ b ∈ (alignLoop d restricted keychem fuel bs).buckets, b = [] := by
  intro fuel
  induction fuel with
  | zero =>
    intro bs _ hex hfuel
    have := totalRecords_pos bs hex
    omega
  | succ n ih =>
    intro bs hpos hex hfuel
    have hdec := groupingStep_decrease d bs hd hpos hex
    rw [alignLoop]
    dsimp only
    cases hmore : (groupingStep d bs).more_data_seen with
    | false =>
      simp only [Bool.false_eq_true, if_false]
      exact ⟨trivial, groupingStep_done d bs hmore⟩
    | true =>
      obtain ⟨h1, h2⟩ := ih (groupingStep d bs).buckets (groupingStep_positive d bs hpos)
        (groupingStep_more_nonempty d bs hmore) (by omega)
      simp only [if_true]
      exact ⟨h1, h2⟩

/-- C21 (termination by progress).  With every retention time positive, a
tolerance that is not negative and a record in some vector of the chemical: in
a grouping step some candidate has the lowest time, and every candidate with
the lowest time stays in the row and leaves its vector; so the step leaves
fewer records in the vectors than it found, all of them with positive times,
and the loop goes on exactly when a record is left.  The loop therefore ends
within as many steps as the chemical has records (fuel pays for the steps: that
many are enough, more change nothing and no more rows than that are formed),
and when it ends every vector is empty. -/
theorem termination_by_progress (d : F32) (restricted : Bool) (keychem : Str)
    (bs : List (List ChemRecord)) (hd : 0 ≤ d)
    (hpos : ∀ b ∈ bs, ∀ r ∈ b, 0 < r.time1) (hex : ∃ b ∈ bs, b ≠ []) :
    (∃ b ∈ bs, b ≠ [] ∧ (candidate b).time1 = (groupingStep d bs).lowest_time1) ∧
    (∀ (f : Nat) (b : List ChemRecord), bs[f]? = some b → b ≠ [] →
      (candidate b).time1 = (groupingStep d bs).lowest_time1 →
      (groupingStep d bs).lowest_recs[f]? = some (candidate b) ∧
      (groupingStep d bs).buckets[f]? = some (remainder b)) ∧
    totalRecords (groupingStep d bs).buckets < totalRecords bs ∧
    (∀ b ∈ (groupingStep d bs).buckets, ∀ r ∈ b, 0 < r.time1) ∧
    ((groupingStep d bs).more_data_seen = true ↔
      ∃ b ∈ (groupingStep d bs).buckets, b ≠ []) ∧
    ∀ (fuel : Nat), totalRecords bs ≤ fuel →
      (alignLoop d restricted keychem fuel bs).finished = true ∧
      (∀ b ∈ (alignLoop d restricted keychem fuel bs).buckets, b = []) ∧
      alignLoop d restricted keychem fuel bs =
        alignLoop d restricted keychem (totalRecords bs) bs ∧
      (alignLoop d restricted keychem fuel bs).rows.length ≤ totalRecords bs := by
  refine ⟨selectCandidates_lowest_mem bs hex,
    fun f b hf hne ht => groupingStep_lowest_kept d bs hd hpos f b hf hne ht,
    groupingStep_decrease d bs hd hpos hex, groupingStep_positive d bs hpos,
    groupingStep_more_iff d bs, ?_⟩
  intro fuel hfuel
  obtain ⟨h1, h2⟩ := alignLoop_terminates d restricted keychem hd fuel bs hpos hex hfuel
  obtain ⟨h3, _⟩ := alignLoop_terminates d restricted keychem hd (totalRecords bs) bs hpos hex
    (le_refl _)
  have heq := alignLoop_fuel d restricted keychem (totalRecords bs) bs h3 fuel hfuel
  refine ⟨h1, h2, heq, ?_⟩
  rw [heq]
  exact alignLoop_rows_length d restricted keychem (totalRecords bs) bs

theorem termination_by_progress_witness :
    (alignLoop (1 / 100) false "X".toList 2
        [[exampleDetection "7" "10.0" 10],
         [exampleDetection "8" "10.11" (1011 / 100)]]).finished = true ∧
    (∀ b ∈ (alignLoop (1 / 100) false "X".toList 2
        [[exampleDetection "7" "10.0" 10],
         [exampleDetection "8" "10.11" (1011 / 100)]]).buckets, b = []) ∧
    alignLoop (1 / 100) false "X".toList 2
        [[exampleDetection "7" "10.0" 10], [exampleDetection "8" "10.11" (1011 / 100)]] =
      alignLoop (1 / 100) false "X".toList
        (totalRecords
          [[exampleDetection "7" "10.0" 10], [exampleDetection "8" "10.11" (1011 / 100)]])
        [[exampleDetection "7" "10.0" 10], [exampleDetection "8" "10.11" (1011 / 100)]] ∧
    (alignLoop (1 / 100) false "X".toList 2
        [[exampleDetection "7" "10.0" 10],
         [exampleDetection "8" "10.11" (1011 / 100)]]).rows.length ≤
      totalRecords
        [[exampleDetection "7" "10.0" 10], [exampleDetection "8" "10.11" (1011 / 100)]] :=
  (termination_by_progress (1 / 100) false "X".toList
      [[exampleDetection "7" "10.0" 10], [exampleDetection "8" "10.11" (1011 / 100)]]
      (by decide!)
      (by
        intro b hb r hr
        simp only [List.mem_cons, List.mem_singleton, List.not_mem_nil, or_false] at hb
        rcases hb with rfl | rfl
        · simp only [List.mem_singleton] at hr
          subst hr
          decide!
        · simp only [List.mem_singleton] at hr
          subst hr
          decide!)
      ⟨[exampleDetection "7" "10.0" 10], by simp, by simp⟩).2.2.2.2.2 2 (by decide)

/-! ### The run as a whole ends -/

/-- With positive times, a tolerance that is not negative, every chemical found
in some file and fuel for as many steps as any chemical has records, the loop
of every chemical ends. -/
theorem alignAll_finishes (d : F32) (restricted : Bool) (fuel : Nat)
    (AllFileData : List FileData) (hd : 0 ≤ d)
    (hpos : ∀ fd ∈ AllFileData, ∀ k, ∀ r ∈ fd k, 0 < r.time1) :
    ∀ (Chemicals : List Str),
      (∀ k ∈ Chemicals, ∃ fd ∈ AllFileData, fd k ≠ []) →
      (∀ k ∈ Chemicals, totalRecords (AllFileData.map fun fd => fd k) ≤ fuel) →
      (alignAll d restricted fuel AllFileData Chemicals).2 = true := by
  intro Chemicals
  induction Chemicals with
  | nil => intro _ _; rfl
  | cons c cs ih =>
    intro hpresent hfuel
    have hp : ∀ b ∈ (AllFileData.map fun fd => fd c), ∀ r ∈ b, 0 < r.time1 := by
      intro b hb r hr
      obtain ⟨fd, hfd, rfl⟩ := List.mem_map.mp hb
      exact hpos fd hfd c r hr
    have hex : ∃ b ∈ (AllFileData.map fun fd => fd c), b ≠ [] := by
      obtain ⟨fd, hfd, hne⟩ := hpresent c (by simp)
      exact ⟨fd c, List.mem_map.mpr ⟨fd, hfd, rfl⟩, hne⟩
    obtain ⟨h1, _⟩ := alignLoop_terminates d restricted c hd fuel _ hp hex (hfuel c (by simp))
    rw [alignAll]
    simp only [h1, if_true]
    exact ih (fun k hk => hpresent k (List.mem_cons_of_mem _ hk))
      (fun k hk => hfuel k (List.mem_cons_of_mem _ hk))

/-- A run whose files are read, with every stored time positive, a tolerance
that is not negative and fuel for as many steps as any chemical has records,
ends and writes its output. -/
theorem mainRun_written (strtof : Strtof) (single_header restricted : Bool) (adiff : F32)
    (LineTerminator : Str) (fuel : Nat) (files : List (List Str)) (g : Globals)
    (hd : 0 ≤ adiff)
    (hread : readFiles strtof single_header 0 files Globals.start = Except.ok g)
    (hpos : ∀ fd ∈ g.AllFileData, ∀ k, ∀ r ∈ fd k, 0 < r.time1)
    (hfuel : ∀ k ∈ g.Chemicals, totalRecords (g.AllFileData.map fun fd => fd k) ≤ fuel) :
    ∃ lines, mainRun strtof single_header restricted adiff LineTerminator fuel files =
      RunResult.written lines := by
  have hinv := readFiles_invariant strtof single_header files 0 Globals.start g
    readerInvariant_start hread
  have hfin := alignAll_finishes adiff restricted fuel g.AllFileData hd hpos g.Chemicals
    hinv.1 hfuel
  unfold mainRun
  rw [hread]
  simp only [hfin, if_true]
  exact ⟨_, rfl⟩

/-! ## Negative times: a step that changes nothing -/

/-- A loop whose grouping step gives the vectors it started from, pushes a row
and sets `more_data_seen` goes through its fuel: every step forms the same row
and the loop does not end. -/
theorem alignLoop_fixed (d : F32) (keychem : Str) (bs : List (List ChemRecord))
    (hb : (groupingStep d bs).buckets = bs)
    (hmore : (groupingStep d bs).more_data_seen = true) :
    ∀ (fuel : Nat),
      alignLoop d false keychem fuel bs =
        ⟨List.replicate fuel
            ⟨keychem, (groupingStep d bs).lowest_recs, (groupingStep d bs).lowest_time1⟩,
          bs, false⟩ := by
  intro fuel
  induction fuel with
  | zero => rfl
  | succ n ih =>
    rw [alignLoop]
    simp only [hmore, hb, ih, if_true, Bool.not_false, Bool.or_true, List.replicate_succ,
      List.singleton_append]

/-- C3, as stated, fails for a detection with a negative time: with two files
and the chemical `X` in file 1 only, at time -5.0, and tolerance 0.01, the
cutoff -5.05 is below the time, so the only candidate is pushed back; the
unrestricted loop forms a row in which both files are blank at every step,
never the one row with the detection of file 1, and does not end. -/
theorem restricted_mode_counterexample :
    readRow strtofDecimal "X,7,-5.0".toList =
      RowResult.stored "X".toList (exampleDetection "7" "-5.0" (-5)) ∧
    (0 : F32) ≤ 1 / 100 ∧ (exampleDetection "7" "-5.0" (-5)).nfields ≠ 0 ∧
    groupingStep (1 / 100) [[exampleDetection "7" "-5.0" (-5)], []] =
      ⟨[NA, NA], [[exampleDetection "7" "-5.0" (-5)], []], -5, 0, true⟩ ∧
    (∀ (fuel : Nat),
      alignLoop (1 / 100) false "X".toList fuel [[exampleDetection "7" "-5.0" (-5)], []] =
        ⟨List.replicate fuel ⟨"X".toList, [NA, NA], -5⟩,
          [[exampleDetection "7" "-5.0" (-5)], []], false⟩) ∧
    ∀ (fuel : Nat),
      (alignLoop (1 / 100) false "X".toList fuel [[exampleDetection "7" "-5.0" (-5)], []]).rows ≠
        [⟨"X".toList, [exampleDetection "7" "-5.0" (-5), NA], -5⟩] := by
  have hstep : groupingStep (1 / 100) [[exampleDetection "7" "-5.0" (-5)], []] =
      ⟨[NA, NA], [[exampleDetection "7" "-5.0" (-5)], []], -5, 0, true⟩ := by decide!
  have hloop : ∀ (fuel : Nat),
      alignLoop (1 / 100) false "X".toList fuel [[exampleDetection "7" "-5.0" (-5)], []] =
        ⟨List.replicate fuel ⟨"X".toList, [NA, NA], -5⟩,
          [[exampleDetection "7" "-5.0" (-5)], []], false⟩ := by
    intro fuel
    have h := alignLoop_fixed (1 / 100) "X".toList [[exampleDetection "7" "-5.0" (-5)], []]
      (by rw [hstep]) (by rw [hstep]) fuel
    rw [hstep] at h
    exact h
  refine ⟨by decide!, by decide!, by decide, hstep, hloop, fun fuel => ?_⟩
  rw [hloop fuel]
  intro h
  have hne : (⟨"X".toList, [NA, NA], -5⟩ : AlignedRow) ≠
      ⟨"X".toList, [exampleDetection "7" "-5.0" (-5), NA], -5⟩ := by decide!
  cases fuel with
  | zero => simp at h
  | succ n =>
    rw [List.replicate_succ] at h
    exact hne (List.cons.inj h).1

/-- C22 (no progress on negative times).  Two files each hold one detection of
the chemical `X`, with the times -1.5 and -1.4, and the tolerance is the
fraction 0.01.  The reader accepts both rows.  The grouping step has the lowest
time -1.5 and the cutoff -1.515, below both times: it pushes both candidates
back, so both places of the row are blank, both vectors are what they were and
`more_data_seen` is set.  The loop therefore forms the same blank row (written
`X,,`) at every step and does not end, whatever the number of steps, and
neither does the run on these files. -/
theorem no_progress_negative_times :
    readRow strtofDecimal "X,7,-1.5".toList =
      RowResult.stored "X".toList (exampleDetection "7" "-1.5" (-3 / 2)) ∧
    readRow strtofDecimal "X,8,-1.4".toList =
      RowResult.stored "X".toList (exampleDetection "8" "-1.4" (-7 / 5)) ∧
    afraction (1 / 100) = true ∧
    cutoff (1 / 100) (-3 / 2) = -303 / 200 ∧
    groupingStep (1 / 100)
        [[exampleDetection "7" "-1.5" (-3 / 2)], [exampleDetection "8" "-1.4" (-7 / 5)]] =
      ⟨[NA, NA],
        [[exampleDetection "7" "-1.5" (-3 / 2)], [exampleDetection "8" "-1.4" (-7 / 5)]],
        -3 / 2, 0, true⟩ ∧
    unfound [NA, NA] = true ∧
    outline [1, 1] "\n".toList ⟨"X".toList, [NA, NA], -3 / 2⟩ = "X,,\n".toList ∧
    (∀ (fuel : Nat),
      alignLoop (1 / 100) false "X".toList fuel
          [[exampleDetection "7" "-1.5" (-3 / 2)], [exampleDetection "8" "-1.4" (-7 / 5)]] =
        ⟨List.replicate fuel ⟨"X".toList, [NA, NA], -3 / 2⟩,
          [[exampleDetection "7" "-1.5" (-3 / 2)], [exampleDetection "8" "-1.4" (-7 / 5)]],
          false⟩) ∧
    ∀ (fuel : Nat),
      mainRun strtofDecimal false false (1 / 100) "\n".toList fuel
          [[",A".toList, "id,x".toList, "X,7,-1.5".toList],
           [",B".toList, "peak,y".toList, "X,8,-1.4".toList]] = RunResult.unfinished := by
  have hstep : groupingStep (1 / 100)
        [[exampleDetection "7" "-1.5" (-3 / 2)], [exampleDetection "8" "-1.4" (-7 / 5)]] =
      ⟨[NA, NA],
        [[exampleDetection "7" "-1.5" (-3 / 2)], [exampleDetection "8" "-1.4" (-7 / 5)]],
        -3 / 2, 0, true⟩ := by decide!
  have hloop : ∀ (fuel : Nat),
      alignLoop (1 / 100) false "X".toList fuel
          [[exampleDetection "7" "-1.5" (-3 / 2)], [exampleDetection "8" "-1.4" (-7 / 5)]] =
        ⟨List.replicate fuel ⟨"X".toList, [NA, NA], -3 / 2⟩,
          [[exampleDetection "7" "-1.5" (-3 / 2)], [exampleDetection "8" "-1.4" (-7 / 5)]],
          false⟩ := by
    intro fuel
    have h := alignLoop_fixed (1 / 100) "X".toList
      [[exampleDetection "7" "-1.5" (-3 / 2)], [exampleDetection "8" "-1.4" (-7 / 5)]]
      (by rw [hstep]) (by rw [hstep]) fuel
    rw [hstep] at h
    exact h
  have hread :
      (match readFiles strtofDecimal false 0
          [[",A".toList, "id,x".toList, "X,7,-1.5".toList],
           [",B".toList, "peak,y".toList, "X,8,-1.4".toList]] Globals.start with
        | Except.ok g => some (g.AllFileData.map (fun fd => fd "X".toList), g.Chemicals)
        | Except.error _ => none) =
      some ([[exampleDetection "7" "-1.5" (-3 / 2)], [exampleDetection "8" "-1.4" (-7 / 5)]],
        ["X".toList]) := by decide!
  refine ⟨by decide!, by decide!, by decide!, by decide!, hstep, by decide, by decide!, hloop, ?_⟩
  intro fuel
  unfold mainRun
  cases hr : readFiles strtofDecimal false 0
      [[",A".toList, "id,x".toList, "X,7,-1.5".toList],
       [",B".toList, "peak,y".toList, "X,8,-1.4".toList]] Globals.start with
  | error e => rw [hr] at hread; cases hread
  | ok g =>
    rw [hr] at hread
    simp only [Option.some.injEq, Prod.mk.injEq] at hread
    obtain ⟨hA, hC⟩ := hread
    simp only
    rw [hC, alignAll]
    simp only [hA, hloop fuel]
    rfl

end Aligncsv
